import Mathlib

/-!
Verification of the numeric engine of the interpolator-ai repository.

The Python source is shallowly embedded over exact rational arithmetic
(`ℚ` standing for the source's floats). Python lists become `List ℚ`,
indexing uses a total lookup `lget` defaulting to `0` (every actual access
in the embedded code is in bounds, mirroring the source), raised
`ValueError`s become `Except SolverError` results, and in-place loops
become explicit recursion or folds carrying the mutated list.
-/

namespace Interp

/-- Total list lookup, default 0; mirrors in-bounds Python indexing. -/
def lget (l : List ℚ) (i : Nat) : ℚ := l.getD i 0

/-- Total 2-dimensional lookup into a list-of-rows matrix. -/
def lget2 (A : List (List ℚ)) (i j : Nat) : ℚ := lget (A.getD i []) j

/-- Error taxonomy: each constructor stands for one family of `ValueError`
messages raised by the Python source. -/
inductive SolverError where
  /-- fewer than the minimum number of samples -/
  | insufficientPoints
  /-- two x-values equal or closer than tolerance -/
  | duplicateNodes
  /-- node/value length mismatch -/
  | dimensionMismatch
  /-- Newton precondition: steps deviate beyond tolerance -/
  | nonEquidistant
  /-- an entirely (near-)zero row found by the scaled-pivot pre-scan -/
  | zeroRow
  /-- chosen elimination pivot below tolerance -/
  | singularPivot
  /-- diagonal entry below tolerance during back substitution -/
  | singularDiagonal
  /-- LU pivot `U[i][i]` below tolerance during decomposition -/
  | luSingular
  /-- relaxation factor outside (0, 2) -/
  | invalidRelaxation
  /-- matrix not strictly diagonally dominant -/
  | notDiagDominant
  /-- near-zero diagonal inside the Gauss-Seidel sweep -/
  | nearZeroDiagonal
deriving DecidableEq, Repr

/-! ### backend/utils/general_util.py -/

/-- Embeds `multiply_polynomials`: coefficient-list convolution. -/
def multiply_polynomials (p1 p2 : List ℚ) : List ℚ :=
  (List.range (p1.length + p2.length - 1)).map fun m =>
    (((List.range p1.length).map fun i =>
      if i ≤ m ∧ m - i < p2.length then lget p1 i * lget p2 (m - i) else 0)).sum

/-- Embeds `evaluate_polynomial`: Horner evaluation, highest index first. -/
def evaluate_polynomial (coeffs : List ℚ) (x : ℚ) : ℚ :=
  coeffs.foldr (fun c acc => acc * x + c) 0

/-- Coefficient list of the formal derivative of the polynomial with
coefficient list `l` (index `i` holding the coefficient of `x^i`). -/
def derivCoeffs (l : List ℚ) : List ℚ :=
  (List.range (l.length - 1)).map fun i : Nat => ((i : ℚ) + 1) * lget l (i + 1)

/-! ### backend/utils/equation_solver.py (`bjorck_pereyra`) -/

/-- Default duplicate-node tolerance of `bjorck_pereyra` (`1e-10`). -/
def bpTolerance : ℚ := 1 / 10 ^ 10

/-- Embeds the exhaustive duplicate-node scan of `bjorck_pereyra`
(`for i in range(n): for j in range(i+1, n): ...`). -/
def hasCloseNodes (tol : ℚ) (x : List ℚ) : Bool :=
  (List.range x.length).any fun i =>
    (List.range x.length).any fun j =>
      decide (i < j) && decide (|lget x i - lget x j| < tol)

/-- Embeds the inner loop of `bjorck_pereyra` phase 1: for a fixed gap `k`,
process indices `i, i-1, ..., k+1` downwards, replacing
`c[i]` by `(c[i] - c[i-1]) / (x[i] - x[i-k-1])`. -/
def bpPhase1Step (tol : ℚ) (x : List ℚ) (k : Nat) : Nat → List ℚ → Except SolverError (List ℚ)
  | 0, c => .ok c
  | i + 1, c =>
    if i + 1 ≤ k then .ok c
    else
      let diff := lget x (i + 1) - lget x (i - k)
      if |diff| < tol then .error .duplicateNodes
      else bpPhase1Step tol x k i (c.set (i + 1) ((lget c (i + 1) - lget c i) / diff))

/-- Embeds the inner loop of `bjorck_pereyra` phase 2: starting at index `i`,
for `m` further indices upwards, replace `c[i]` by `c[i] - xk * c[i+1]`. -/
def bpPhase2Inner (xk : ℚ) : Nat → Nat → List ℚ → List ℚ
  | _, 0, c => c
  | i, m + 1, c => bpPhase2Inner xk (i + 1) m (c.set i (lget c i - xk * lget c (i + 1)))

/-- Embeds the outer loop of `bjorck_pereyra` phase 2: gaps
`k, k-1, ..., 0`, each running the inner loop on indices `k .. n-2`. -/
def bpPhase2 (x : List ℚ) (n : Nat) : Nat → List ℚ → List ℚ
  | 0, c => bpPhase2Inner (lget x 0) 0 (n - 1) c
  | k + 1, c => bpPhase2 x n k (bpPhase2Inner (lget x (k + 1)) (k + 1) (n - 1 - (k + 1)) c)

/-- Embeds `bjorck_pereyra(x, f, tolerance)` from
`backend/tools/equation_solver.py`. -/
def bjorck_pereyra (tol : ℚ) (x f : List ℚ) : Except SolverError (List ℚ) :=
  let n := x.length
  if f.length ≠ n then .error .dimensionMismatch
  else if n < 1 then .error .insufficientPoints
  else if hasCloseNodes tol x then .error .duplicateNodes
  else if n = 1 then .ok f
  else do
    let c ← (List.range (n - 1)).foldlM (fun c k => bpPhase1Step tol x k (n - 1) c) f
    .ok (bpPhase2 x n (n - 2) c)

/-! ### backend/utils/newton_interpolation_util.py -/

/-- Default equidistance tolerance of `validate_equidistant` (`1e-9`). -/
def eqTolerance : ℚ := 1 / 10 ^ 9

/-- Embeds `validate_equidistant(x_values, tolerance)`. -/
def validate_equidistant (tol : ℚ) (x : List ℚ) : Except SolverError ℚ :=
  if x.length < 2 then .error .insufficientPoints
  else
    let steps := (List.range (x.length - 1)).map fun i => lget x (i + 1) - lget x i
    let h := lget steps 0
    if steps.any fun step => decide (|step - h| > tol) then .error .nonEquidistant
    else .ok h

/-- One difference level: `diffRow prev` maps `j ↦ prev[j+1] - prev[j]`. -/
def diffRow (prev : List ℚ) : List ℚ :=
  (List.range (prev.length - 1)).map fun j => lget prev (j + 1) - lget prev j

/-- Rows `1..count` of the forward-difference table below `row`. -/
def diffRows : Nat → List ℚ → List (List ℚ)
  | 0, _ => []
  | m + 1, row => diffRow row :: diffRows m (diffRow row)

/-- Embeds `compute_difference_table(y_values)`: level 0 is `y`, each
further level holds successive differences of the previous one. -/
def compute_difference_table (y : List ℚ) : List (List ℚ) :=
  y :: diffRows (y.length - 1) y

/-- Multiply a coefficient list (in some variable `s`) by the linear factor
`(s + a)`; embeds the repeated inline pattern
`new_poly[j] += poly[j] * a; new_poly[j+1] += poly[j]` of the source. -/
def mulLinear (a : ℚ) (poly : List ℚ) : List ℚ :=
  (List.range (poly.length + 1)).map fun j : Nat =>
    (if j < poly.length then lget poly j * a else 0) +
      (if 1 ≤ j then lget poly (j - 1) else 0)

/-- Accumulation loop `for j in range(len(term)): result[j] += term[j] * scale`. -/
def addScaled (result term : List ℚ) (scale : ℚ) : List ℚ :=
  (List.range term.length).foldl
    (fun r j => r.set j (lget r j + lget term j * scale)) result

/-- One iteration of the term loop of `get_newton_forward_coefficients`:
add `(s,k)/k! * Δᵏf[x0_index]` into the running coefficients in `s`. -/
def nfcTerm (table : List (List ℚ)) (x0_index : Nat) (k : Nat) (result : List ℚ) : List ℚ :=
  let diff_value := lget2 table k x0_index
  let binomial_poly := (List.range k).foldl (fun (p : List ℚ) (i : Nat) => mulLinear (-(i : ℚ)) p) [1]
  addScaled result binomial_poly (diff_value / (Nat.factorial k : ℚ))

/-- Embeds the `for k in range(n - x0_index)` loop of
`get_newton_forward_coefficients`, with its `break` guard. -/
def nfcLoop (table : List (List ℚ)) (x0_index : Nat) : Nat → Nat → List ℚ → List ℚ
  | _, 0, result => result
  | k, m + 1, result =>
    if k ≥ table.length ∨ x0_index ≥ (table.getD k []).length then result
    else nfcLoop table x0_index (k + 1) m (nfcTerm table x0_index k result)

/-- One iteration of the backward term loop: add
`(s⁺,k)/k! * Δᵏf[x0_index - k]` into the running coefficients in `s`. -/
def nbcTerm (table : List (List ℚ)) (x0_index : Nat) (k : Nat) (result : List ℚ) : List ℚ :=
  let diff_value := lget2 table k (x0_index - k)
  let binomial_poly := (List.range k).foldl (fun (p : List ℚ) (i : Nat) => mulLinear (i : ℚ) p) [1]
  addScaled result binomial_poly (diff_value / (Nat.factorial k : ℚ))

/-- Embeds the `for k in range(max_k)` loop of
`get_newton_backward_coefficients`, with its `break` guard
(`diff_index < 0` cannot occur since `k ≤ x0_index` inside the loop). -/
def nbcLoop (table : List (List ℚ)) (x0_index : Nat) : Nat → Nat → List ℚ → List ℚ
  | _, 0, result => result
  | k, m + 1, result =>
    if x0_index - k ≥ (table.getD k []).length then result
    else nbcLoop table x0_index (k + 1) m (nbcTerm table x0_index k result)

/-- Embeds the substitution `s = (x - x0)/h` phase shared by both Newton
builders: each running coefficient `cᵢ ≠ 0` contributes
`cᵢ/hⁱ * (x - x0)ⁱ` to the final coefficients. -/
def newtonSubstitute (x0 h : ℚ) (result_coeffs : List ℚ) (n : Nat) : List ℚ :=
  (List.range result_coeffs.length).foldl
    (fun final i =>
      let ci := lget result_coeffs i
      if ci = 0 then final
      else
        let term_poly := (List.range i).foldl (fun (p : List ℚ) (_ : Nat) => mulLinear (-x0) p) [1]
        addScaled final term_poly (ci / h ^ i))
    (List.replicate n 0)

/-- Embeds `get_newton_forward_coefficients(y_values, x_values, x0_index, h)`. -/
def get_newton_forward_coefficients (y x : List ℚ) (x0_index : Nat) (h : ℚ) : List ℚ :=
  let n := y.length
  let table := compute_difference_table y
  let x0 := lget x x0_index
  let result_coeffs := nfcLoop table x0_index 0 (n - x0_index) (List.replicate n 0)
  newtonSubstitute x0 h result_coeffs n

/-- Embeds `get_newton_backward_coefficients(y_values, x_values, x0_index, h)`. -/
def get_newton_backward_coefficients (y x : List ℚ) (x0_index : Nat) (h : ℚ) : List ℚ :=
  let n := y.length
  let table := compute_difference_table y
  let x0 := lget x x0_index
  let max_k := min (x0_index + 1) table.length
  let result_coeffs := nbcLoop table x0_index 0 max_k (List.replicate n 0)
  newtonSubstitute x0 h result_coeffs n

/-! ### backend/utils/lagrange_interpolation_util.py -/

/-- Embeds `get_lagrange_coefficients(points)`. -/
def get_lagrange_coefficients (points : List (ℚ × ℚ)) : List ℚ :=
  let n := points.length
  let x_values := points.map Prod.fst
  let y_values := points.map Prod.snd
  (List.range n).foldl
    (fun result_coeffs k =>
      let L_k := (List.range n).foldl
        (fun acc i => if i ≠ k then multiply_polynomials acc [-(lget x_values i), 1] else acc)
        [1]
      let denominator := (List.range n).foldl
        (fun acc i => if i ≠ k then acc * (lget x_values k - lget x_values i) else acc) 1
      (List.range L_k.length).foldl
        (fun r j => r.set j (lget r j + lget L_k j / denominator * lget y_values k))
        result_coeffs)
    (List.replicate n 0)

/-! ### backend/src top-level interpolation operations -/

/-- Response shape of the `backend/src` interpolation functions that
take a list of evaluation points (`results` is `None` when the caller
passes no evaluation points). -/
structure InterpolationResponse where
  results : Option (List ℚ)
  coefficients : List ℚ
  polynomial_degree : Nat
deriving DecidableEq, Repr

/-- Response shape of `lagrange_interpolation` (single evaluation point). -/
structure LagrangeResponse where
  result : ℚ
  coefficients : List ℚ
  polynomial_degree : Nat
deriving DecidableEq, Repr

/-- Python's `len(set(xs)) != len(xs)` exact-duplicate test. -/
def hasExactDuplicate (xs : List ℚ) : Bool := xs.dedup.length ≠ xs.length

/-- Embeds `direct_interpolation(points, x_evals)` (with `x_evals = []`
standing for Python's `None`/empty, both falsy). -/
def direct_interpolation (points : List (ℚ × ℚ)) (x_evals : List ℚ) :
    Except SolverError InterpolationResponse :=
  if points.length < 2 then .error .insufficientPoints
  else
    let x_values := points.map Prod.fst
    if hasExactDuplicate x_values then .error .duplicateNodes
    else
      let y_values := points.map Prod.snd
      do
        let coefficients ← bjorck_pereyra bpTolerance x_values y_values
        let results := if x_evals.isEmpty then none
          else some (x_evals.map fun t => evaluate_polynomial coefficients t)
        .ok ⟨results, coefficients, points.length - 1⟩

/-- Embeds `lagrange_interpolation(points, x_eval)`. -/
def lagrange_interpolation (points : List (ℚ × ℚ)) (x_eval : ℚ) :
    Except SolverError LagrangeResponse :=
  if points.length < 2 then .error .insufficientPoints
  else
    let x_values := points.map Prod.fst
    if hasExactDuplicate x_values then .error .duplicateNodes
    else
      let coefficients := get_lagrange_coefficients points
      .ok ⟨evaluate_polynomial coefficients x_eval, coefficients, points.length - 1⟩

/-- Sorting of the point list by x-coordinate (`sorted(points, key=x)`;
on the duplicate-free inputs that pass the preceding checks any correct
sort agrees with Python's stable sort). -/
def sortPointsByX (points : List (ℚ × ℚ)) : List (ℚ × ℚ) :=
  points.mergeSort fun p q => decide (p.1 ≤ q.1)

/-- Embeds `newton_forward_interpolation(points, x_evals)`. -/
def newton_forward_interpolation (points : List (ℚ × ℚ)) (x_evals : List ℚ) :
    Except SolverError InterpolationResponse :=
  if points.length < 2 then .error .insufficientPoints
  else
    let sorted_points := sortPointsByX points
    let x_values := sorted_points.map Prod.fst
    let y_values := sorted_points.map Prod.snd
    if hasExactDuplicate x_values then .error .duplicateNodes
    else do
      let h ← validate_equidistant eqTolerance x_values
      let coefficients := get_newton_forward_coefficients y_values x_values 0 h
      let results := if x_evals.isEmpty then none
        else some (x_evals.map fun t => evaluate_polynomial coefficients t)
      .ok ⟨results, coefficients, points.length - 1⟩

/-- Embeds `newton_backward_interpolation(points, x_evals)`. -/
def newton_backward_interpolation (points : List (ℚ × ℚ)) (x_evals : List ℚ) :
    Except SolverError InterpolationResponse :=
  if points.length < 2 then .error .insufficientPoints
  else
    let sorted_points := sortPointsByX points
    let x_values := sorted_points.map Prod.fst
    let y_values := sorted_points.map Prod.snd
    if hasExactDuplicate x_values then .error .duplicateNodes
    else do
      let h ← validate_equidistant eqTolerance x_values
      let coefficients :=
        get_newton_backward_coefficients y_values x_values (x_values.length - 1) h
      let results := if x_evals.isEmpty then none
        else some (x_evals.map fun t => evaluate_polynomial coefficients t)
      .ok ⟨results, coefficients, points.length - 1⟩

/-! ### backend/utils/hermite_interpolation_util.py -/

/-- Doubling of a list, each element repeated twice in place
(the `z` sequence construction, also used for column 0 of `Q`). -/
def doubled : List ℚ → List ℚ
  | [] => []
  | a :: t => a :: a :: doubled t

/-- Guard tolerance of the Hermite divided-difference recurrence (`1e-15`). -/
def hermiteGuard : ℚ := 1 / 10 ^ 15

/-- Column `j ≥ 2` of the Hermite table from column `j - 1`:
`Q[i][j] = (Q[i+1][j-1] - Q[i][j-1]) / (z[i+j] - z[i])`, with the source's
near-zero-denominator guard mapping to a `0` entry. -/
def hermiteNextCol (z : List ℚ) (j : Nat) (prev : List ℚ) : List ℚ :=
  (List.range (z.length - j)).map fun i : Nat =>
    if |lget z (i + j) - lget z i| < hermiteGuard then 0
    else (lget prev (i + 1) - lget prev i) / (lget z (i + j) - lget z i)

/-- Column 1 of the Hermite table: supplied derivatives at even rows,
ordinary first-order divided differences at odd rows (last odd row kept at
the matrix's initial `0`, exactly as in the source). -/
def hermiteCol1 (x y dy : List ℚ) : List ℚ :=
  let z := doubled x
  let col0 := doubled y
  (List.range (2 * x.length)).map fun r : Nat =>
    if r % 2 = 0 then lget dy (r / 2)
    else if r + 1 < 2 * x.length then
      (lget col0 (r + 1) - lget col0 r) / (lget z (r + 1) - lget z r)
    else 0

/-- Column `j` of the Hermite divided-difference table `Q`. -/
def hermiteCol (x y dy : List ℚ) : Nat → List ℚ
  | 0 => doubled y
  | 1 => hermiteCol1 x y dy
  | j + 2 => hermiteNextCol (doubled x) (j + 2) (hermiteCol x y dy (j + 1))

/-- One step of `convert_nested_to_standard`: multiply the running
polynomial by `(x - a)` and add nested coefficient `c` to the constant term. -/
def cnsStep (c a : ℚ) (poly : List ℚ) : List ℚ :=
  let mp := mulLinear (-a) poly
  mp.set 0 (lget mp 0 + c)

/-- State of `convert_nested_to_standard` after `m` loop iterations
(processing nested coefficients from index `n-2` downwards). -/
def cnsAux (nested nodes : List ℚ) : Nat → List ℚ
  | 0 => [lget nested (nested.length - 1)]
  | m + 1 =>
    cnsStep (lget nested (nested.length - 1 - (m + 1)))
      (lget nodes (nested.length - 1 - (m + 1))) (cnsAux nested nodes m)

/-- Embeds `convert_nested_to_standard(nested_coeffs, nodes)`. -/
def convert_nested_to_standard (nested nodes : List ℚ) : List ℚ :=
  cnsAux nested nodes (nested.length - 1)

/-- Embeds `get_hermite_coefficients(x_values, y_values, dy_values)`. -/
def get_hermite_coefficients (x y dy : List ℚ) : List ℚ :=
  let size := 2 * x.length
  let z := doubled x
  let nested_coeffs := (List.range size).map fun j => lget (hermiteCol x y dy j) 0
  convert_nested_to_standard nested_coeffs z

/-- Model of `numpy.gradient(y, x)` (external library dependency of
`hermite_interpolation`): second-order central differences for interior
points over possibly non-uniform spacing, first-order one-sided
differences at the two boundaries (numpy's default `edge_order=1`). -/
def np_gradient (y x : List ℚ) : List ℚ :=
  let n := y.length
  (List.range n).map fun i : Nat =>
    if i = 0 then (lget y 1 - lget y 0) / (lget x 1 - lget x 0)
    else if i = n - 1 then
      (lget y (n - 1) - lget y (n - 2)) / (lget x (n - 1) - lget x (n - 2))
    else
      let hd := lget x i - lget x (i - 1)
      let hs := lget x (i + 1) - lget x i
      (hd ^ 2 * lget y (i + 1) + (hs ^ 2 - hd ^ 2) * lget y i - hs ^ 2 * lget y (i - 1)) /
        (hd * hs * (hd + hs))

/-- Embeds `hermite_interpolation(points, x_evals)` from
`backend/src/hermite_interpolation.py`. -/
def hermite_interpolation (points : List (ℚ × ℚ)) (x_evals : List ℚ) :
    Except SolverError InterpolationResponse :=
  if points.length < 2 then .error .insufficientPoints
  else
    let x_values := points.map Prod.fst
    if hasExactDuplicate x_values then .error .duplicateNodes
    else
      let sorted_points := sortPointsByX points
      let xs := sorted_points.map Prod.fst
      let ys := sorted_points.map Prod.snd
      let dy_values := np_gradient ys xs
      let coefficients := get_hermite_coefficients xs ys dy_values
      let results := if x_evals.isEmpty then none
        else some (x_evals.map fun t => evaluate_polynomial coefficients t)
      .ok ⟨results, coefficients, 2 * points.length - 1⟩

/-! ### use_maybe/gauss_equation_solver.py -/

/-- Default zero/singularity tolerance of the dense solvers (`1e-10`). -/
def gaussTolerance : ℚ := 1 / 10 ^ 10

/-- Closed enumeration of the two pivot strategies (the source dispatches
on the strings "scaled" / "absolute"). -/
inductive PivotStrategy where
  | scaled
  | absolute
deriving DecidableEq, Repr

/-- Python's `max` over a list (the embedded code only applies it to
nonempty lists, where the `headD 0` seed is the first element). -/
def pyMax (l : List ℚ) : ℚ := l.foldl max (l.headD 0)

/-- Embeds the scaling-vector construction of `gauss` (strategy "scaled"):
`s[i] = max_j |A[i][j]|`, failing on an effectively zero row. -/
def gaussScaleVec (tol : ℚ) (A : List (List ℚ)) (n : Nat) :
    Except SolverError (List ℚ) :=
  (List.range n).foldlM
    (fun s i =>
      let max_value := pyMax ((List.range n).map fun j => |lget2 A i j|)
      if max_value < tol then .error .zeroRow else .ok (s ++ [max_value]))
    []

/-- Pivot score of row `i` in column `k` under the given strategy. -/
def pivotScore (strategy : PivotStrategy) (tol : ℚ) (A : List (List ℚ))
    (s : List ℚ) (i k : Nat) : ℚ :=
  match strategy with
  | .scaled => if lget s i > tol then |lget2 A i k| / lget s i else 0
  | .absolute => |lget2 A i k|

/-- Pivot-row search of `gauss`: scan rows `k+1 .. n-1`, keeping the first
row that strictly improves the running best score. -/
def findPivotRow (strategy : PivotStrategy) (tol : ℚ) (A : List (List ℚ))
    (s : List ℚ) (k n : Nat) : Nat :=
  (List.range' (k + 1) (n - (k + 1)) 1).foldl
    (fun max_row i =>
      if pivotScore strategy tol A s i k > pivotScore strategy tol A s max_row k
      then i else max_row)
    k

/-- Row elimination of `gauss` at pivot column `k`: subtract
`factor * row k` from every row below, updating `b` alongside. -/
def gaussEliminate (A : List (List ℚ)) (b : List ℚ) (k n : Nat) :
    List (List ℚ) × List ℚ :=
  (List.range' (k + 1) (n - (k + 1)) 1).foldl
    (fun Ab i =>
      let factor := lget2 Ab.1 i k / lget2 Ab.1 k k
      let newRow := (List.range (n - k)).foldl
        (fun row d => row.set (k + d) (lget row (k + d) - factor * lget2 Ab.1 k (k + d)))
        (Ab.1.getD i [])
      (Ab.1.set i newRow, Ab.2.set i (lget Ab.2 i - factor * lget Ab.2 k)))
    (A, b)

/-- One outer elimination step of `gauss` (pivot search, swap, singularity
check, elimination) at column `k`. -/
def gaussStep (strategy : PivotStrategy) (tol : ℚ) (n : Nat)
    (st : List (List ℚ) × List ℚ × List ℚ) (k : Nat) :
    Except SolverError (List (List ℚ) × List ℚ × List ℚ) :=
  let (A, b, s) := st
  let max_row := findPivotRow strategy tol A s k n
  let A := if max_row ≠ k
    then (A.set k (A.getD max_row [])).set max_row (A.getD k []) else A
  let b := if max_row ≠ k
    then (b.set k (lget b max_row)).set max_row (lget b k) else b
  let s := if max_row ≠ k ∧ strategy = .scaled
    then (s.set k (lget s max_row)).set max_row (lget s k) else s
  if |lget2 A k k| < tol then .error .singularPivot
  else
    let Ab := gaussEliminate A b k n
    .ok (Ab.1, Ab.2, s)

/-- Back-substitution of `gauss`, solving rows `n-1` down to `n-m`;
returns the solution entries for those rows (suffix of the full solution).
The source initializes `solution[i] = b[i]`, subtracts the known terms,
then checks the diagonal before dividing. -/
def gaussBackSub (tol : ℚ) (A : List (List ℚ)) (b : List ℚ) (n : Nat) :
    Nat → Except SolverError (List ℚ)
  | 0 => .ok []
  | m + 1 => do
    let xs ← gaussBackSub tol A b n m
    let i := n - 1 - m
    let sum := ((List.range m).map fun t => lget2 A i (i + 1 + t) * lget xs t).sum
    if |lget2 A i i| < tol then .error .singularDiagonal
    else .ok (((lget b i - sum) / lget2 A i i) :: xs)

/-- Embeds `gauss(A, b, pivot_strategy, tolerance)` from
`use_maybe/gauss_equation_solver.py`. -/
def gauss (A : List (List ℚ)) (b : List ℚ) (strategy : PivotStrategy)
    (tol : ℚ) : Except SolverError (List ℚ) := do
  let num_equations := b.length
  let s ← match strategy with
    | .scaled => gaussScaleVec tol A num_equations
    | .absolute => .ok []
  let st ← (List.range (num_equations - 1)).foldlM
    (gaussStep strategy tol num_equations) (A, b, s)
  gaussBackSub tol st.1 st.2.1 num_equations num_equations

/-! ### use_maybe/doolitle_equation_solver.py -/

/-- Entry `L[r][j]` read from the accumulated list of L-columns. -/
def lcolGet (lcols : List (List ℚ)) (r j : Nat) : ℚ := lget (lcols.getD j []) r

/-- Row `i` of `U` in the Doolittle fill:
`U[i][k] = A[i][k] - Σ_{j<i} L[i][j]·U[j][k]` for `k ≥ i`, zeros kept
below the diagonal (from the zero initialization). -/
def luURow (A : List (List ℚ)) (n : Nat)
    (st : List (List ℚ) × List (List ℚ)) (i : Nat) : List ℚ :=
  (List.range n).map fun k : Nat =>
    if k < i then 0
    else lget2 A i k -
      (((List.range i).map fun j => lcolGet st.2 i j * lget2 st.1 j k)).sum

/-- Column `i` of `L` in the Doolittle fill: `1` on the diagonal,
`(A[r][i] - Σ_{j<i} L[r][j]·U[j][i]) / U[i][i]` below it, zeros above. -/
def luLCol (A : List (List ℚ)) (n : Nat)
    (st : List (List ℚ) × List (List ℚ)) (i : Nat) : List ℚ :=
  (List.range n).map fun r : Nat =>
    if r < i then 0
    else if r = i then 1
    else (lget2 A r i -
      (((List.range i).map fun j => lcolGet st.2 r j * lget2 st.1 j i)).sum) /
      lget (luURow A n st i) i

/-- One stage `i` of the Doolittle fill: compute row `i` of `U`, check the
pivot `U[i][i]` when entries of `L` below the diagonal remain to be
computed (`i < n-1`), then compute column `i` of `L`. -/
def luStage (A : List (List ℚ)) (n : Nat)
    (st : List (List ℚ) × List (List ℚ)) (i : Nat) :
    Except SolverError (List (List ℚ) × List (List ℚ)) :=
  if i < n - 1 ∧ |lget (luURow A n st i) i| < gaussTolerance then
    .error .luSingular
  else .ok (st.1 ++ [luURow A n st i], st.2 ++ [luLCol A n st i])

/-- Embeds `lu_decomposition(A)`: returns `(L, U)` as row-major matrices. -/
def lu_decomposition (A : List (List ℚ)) :
    Except SolverError (List (List ℚ) × List (List ℚ)) := do
  let n := A.length
  let st ← (List.range n).foldlM (luStage A n) ([], [])
  .ok ((List.range n).map fun r => (List.range n).map fun j => lcolGet st.2 r j, st.1)

/-- Embeds `forward_substitution(L, b)`:
`y[i] = b[i] - Σ_{j<i} L[i][j]·y[j]` (no division, unit diagonal). -/
def forward_substitution (L : List (List ℚ)) (b : List ℚ) : List ℚ :=
  (List.range b.length).foldl
    (fun y i =>
      y ++ [lget b i - (((List.range i).map fun j => lget2 L i j * lget y j)).sum])
    []

/-- Back-substitution rows `n-1` down to `n-m` of
`backward_substitution(U, y)`; returns that suffix of the solution. -/
def bwdAux (U : List (List ℚ)) (y : List ℚ) (n : Nat) :
    Nat → Except SolverError (List ℚ)
  | 0 => .ok []
  | m + 1 => do
    let xs ← bwdAux U y n m
    let i := n - 1 - m
    let sum := ((List.range m).map fun t => lget2 U i (i + 1 + t) * lget xs t).sum
    if |lget2 U i i| < gaussTolerance then .error .singularDiagonal
    else .ok (((lget y i - sum) / lget2 U i i) :: xs)

/-- Embeds `backward_substitution(U, y)`. -/
def backward_substitution (U : List (List ℚ)) (y : List ℚ) :
    Except SolverError (List ℚ) :=
  bwdAux U y y.length y.length

/-- Embeds `doolittle(A, b)`: LU decomposition, then forward and backward
substitution; returns `(x, L, U)`. -/
def doolittle (A : List (List ℚ)) (b : List ℚ) :
    Except SolverError (List ℚ × List (List ℚ) × List (List ℚ)) := do
  let LU ← lu_decomposition A
  let y := forward_substitution LU.1 b
  let x ← backward_substitution LU.2 y
  .ok (x, LU.1, LU.2)

/-! ### use_maybe/gauss_seidel_sor_equation_solver.py -/

/-- Modelled from the spec: `check_diagonal_dominance` is imported from
`utils/equation_utils.py`, a module absent from the sources. The spec's
glossary defines diagonal dominance as "each row's diagonal magnitude
exceeds the sum of the other entries' magnitudes in that row". -/
def check_diagonal_dominance (A : List (List ℚ)) : Bool :=
  (List.range A.length).all fun i =>
    decide (|lget2 A i i| >
      ((((List.range A.length).filter fun j => j ≠ i)).map fun j => |lget2 A i j|).sum)

/-- One Gauss-Seidel/SOR sweep over all unknowns in order, with the
source's near-zero-diagonal check; the residual
`R_i = b_i - Σ_{j<i} A_ij·x_j - Σ_{j≥i} A_ij·x_j` reads the most recently
updated entries of `x`, and the update is `x_i ← x_i + ω·R_i/A_ii`. -/
def sorSweep (A : List (List ℚ)) (b : List ℚ) (omega : ℚ) (n : Nat)
    (x : List ℚ) : Except SolverError (List ℚ) :=
  (List.range n).foldlM
    (fun x i =>
      if |lget2 A i i| < 1 / 10 ^ 10 then .error .nearZeroDiagonal
      else
        let sum_lower := (((List.range i).map fun j => lget2 A i j * lget x j)).sum
        let sum_upper :=
          (((List.range' i (n - i) 1).map fun j => lget2 A i j * lget x j)).sum
        let R_i := lget b i - sum_lower - sum_upper
        .ok (x.set i (lget x i + omega * (R_i / lget2 A i i))))
    x

/-- Iteration loop of `gauss_seidel_sor` with `fuel` remaining iterations:
sweep, measure the maximum absolute per-unknown change, stop early when it
falls below `tol` (returning the number of iterations used), otherwise
continue; exhausting the fuel returns the current iterate with the full
iteration count. -/
def sorLoop (A : List (List ℚ)) (b : List ℚ) (omega tol : ℚ) (n : Nat) :
    Nat → List ℚ → Except SolverError (List ℚ × Nat)
  | 0, x => .ok (x, 0)
  | fuel + 1, x => do
    let x1 ← sorSweep A b omega n x
    let error := pyMax ((List.range n).map fun i => |lget x1 i - lget x i|)
    if error < tol then .ok (x1, 1)
    else do
      let r ← sorLoop A b omega tol n fuel x1
      .ok (r.1, r.2 + 1)

/-- Embeds `gauss_seidel_sor(A, b, omega, tolerance, max_iterations)`.
The initial solution vector `x0` is a parameter: the source obtains it
from `get_initial_values` of the absent `utils/equation_utils.py` module,
which the spec describes only as "an externally supplied initial-guess
strategy". -/
def gauss_seidel_sor (A : List (List ℚ)) (b : List ℚ) (omega tol : ℚ)
    (max_iterations : Nat) (x0 : List ℚ) : Except SolverError (List ℚ × Nat) :=
  if omega ≤ 0 ∨ 2 ≤ omega then .error .invalidRelaxation
  else if ¬ check_diagonal_dominance A then .error .notDiagDominant
  else sorLoop A b omega tol b.length max_iterations x0

/-! ## Basic lemmas about the list primitives -/

theorem lget_eq_getElem? (l : List ℚ) (i : Nat) : lget l i = l[i]?.getD 0 :=
  List.getD_eq_getElem?_getD l i 0

theorem lget_of_le_length (l : List ℚ) {i : Nat} (h : l.length ≤ i) :
    lget l i = 0 := by
  rw [lget_eq_getElem?, List.getElem?_eq_none h]; rfl

theorem lget_range_map (f : Nat → ℚ) (m i : Nat) :
    lget ((List.range m).map f) i = if i < m then f i else 0 := by
  rcases Nat.lt_or_ge i m with h | h
  · rw [lget_eq_getElem?, List.getElem?_map, List.getElem?_range h, if_pos h]
    rfl
  · rw [if_neg (by omega)]
    exact lget_of_le_length _ (by simpa using h)

theorem lget_nil (i : Nat) : lget [] i = 0 := rfl

theorem lget_cons (a : ℚ) (l : List ℚ) (i : Nat) :
    lget (a :: l) i = if i = 0 then a else lget l (i - 1) := by
  cases i <;> simp [lget]

theorem lget_set_self (l : List ℚ) (i : Nat) (v : ℚ) (h : i < l.length) :
    lget (l.set i v) i = v := by
  rw [lget_eq_getElem?, List.getElem?_set_self h]; rfl

theorem lget_set_ne (l : List ℚ) {i j : Nat} (v : ℚ) (h : i ≠ j) :
    lget (l.set i v) j = lget l j := by
  rw [lget_eq_getElem?, List.getElem?_set_ne h, ← lget_eq_getElem?]

theorem lget_append_left (l l' : List ℚ) {i : Nat} (h : i < l.length) :
    lget (l ++ l') i = lget l i := by
  rw [lget_eq_getElem?, lget_eq_getElem?, List.getElem?_append, if_pos h]

theorem mem_of_any_eq_true {α : Type} {p : α → Bool} {l : List α}
    (h : l.any p = true) : ∃ a ∈ l, p a = true := by
  simpa using h

theorem except_bind_ok {ε α β : Type} (a : α) (f : α → Except ε β) :
    (Except.ok (ε := ε) a >>= f) = f a := rfl

theorem except_bind_error {ε α β : Type} (e : ε) (f : α → Except ε β) :
    (Except.error (α := α) e >>= f) = .error e := rfl

/-- A property preserved by every `.ok` step of an `Except` fold holds for
the final value of a successful fold. -/
theorem foldlM_ok_invariant {α β ε : Type} {P : α → Prop}
    (f : α → β → Except ε α) :
    ∀ (l : List β) (init res : α), List.foldlM f init l = .ok res →
      (∀ acc b acc', f acc b = .ok acc' → P acc → P acc') →
      P init → P res := by
  intro l
  induction l with
  | nil =>
    intro init res h _ hinit
    simp only [List.foldlM_nil] at h
    cases h
    exact hinit
  | cons b t ih =>
    intro init res h hstep hinit
    rw [List.foldlM_cons] at h
    cases hfb : f init b with
    | error e => rw [hfb, except_bind_error] at h; cases h
    | ok a =>
      rw [hfb, except_bind_ok] at h
      exact ih a res h hstep (hstep init b a hfb hinit)

/-- A fold whose step preserves list length preserves list length. -/
theorem foldl_length_invariant {β : Type} (f : List ℚ → β → List ℚ)
    (l : List β) (init : List ℚ)
    (h : ∀ acc b, ((f acc b).length = acc.length)) :
    (l.foldl f init).length = init.length := by
  induction l generalizing init with
  | nil => rfl
  | cons b t ih => rw [List.foldl_cons, ih, h]

theorem addScaled_length (result term : List ℚ) (scale : ℚ) :
    (addScaled result term scale).length = result.length :=
  foldl_length_invariant _ _ _ fun acc b => List.length_set acc b _

theorem mulLinear_length (a : ℚ) (poly : List ℚ) :
    (mulLinear a poly).length = poly.length + 1 := by
  simp [mulLinear]

/-! ## C8: `validate_equidistant` behaviour -/

/-- Characterization of `validate_equidistant` on lists of length ≥ 2:
it fails with the non-equidistance error exactly when some step deviates
from the first step by more than the tolerance, else returns that step. -/
theorem validate_equidistant_eq (tol : ℚ) (x : List ℚ) (h2 : 2 ≤ x.length) :
    validate_equidistant tol x =
      if ∃ i < x.length - 1,
          |(lget x (i + 1) - lget x i) - (lget x 1 - lget x 0)| > tol
      then .error .nonEquidistant else .ok (lget x 1 - lget x 0) := by
  have hpos : 0 < x.length - 1 := by omega
  have hstep0 :
      lget ((List.range (x.length - 1)).map fun i => lget x (i + 1) - lget x i) 0
        = lget x 1 - lget x 0 := by
    rw [lget_range_map]; simp [hpos]
  have hany : (((List.range (x.length - 1)).map
      fun i => lget x (i + 1) - lget x i).any
        fun step => decide (|step - (lget x 1 - lget x 0)| > tol)) =
      decide (∃ i < x.length - 1,
        |(lget x (i + 1) - lget x i) - (lget x 1 - lget x 0)| > tol) := by
    rcases Classical.em (∃ i < x.length - 1,
        |(lget x (i + 1) - lget x i) - (lget x 1 - lget x 0)| > tol) with hex | hno
    · rw [decide_eq_true hex, List.any_eq_true]
      obtain ⟨i, hi, hdev⟩ := hex
      refine ⟨lget x (i + 1) - lget x i,
        List.mem_map.mpr ⟨i, List.mem_range.mpr hi, rfl⟩, ?_⟩
      simpa using hdev
    · rw [decide_eq_false hno, List.any_eq_false]
      intro a ha
      simp only [List.mem_map, List.mem_range] at ha
      obtain ⟨i, hi, rfl⟩ := ha
      push_neg at hno
      simpa using hno i hi
  simp only [validate_equidistant, if_neg (show ¬ x.length < 2 by omega),
    hstep0, hany]
  rcases Classical.em (∃ i < x.length - 1,
      |(lget x (i + 1) - lget x i) - (lget x 1 - lget x 0)| > tol) with hex | hno
  · rw [decide_eq_true hex, if_pos hex]
    rfl
  · rw [decide_eq_false hno, if_neg hno]
    rfl

/-- C8: for lists of at least two x-values, `validate_equidistant` fails
with NonEquidistantSpacing exactly when some consecutive step deviates
from the first step by more than the tolerance, and otherwise returns the
first step `x[1] - x[0]`; lists of fewer than two entries fail with
InsufficientPoints. -/
theorem validate_equidistant_spec (tol : ℚ) (x : List ℚ) :
    (x.length < 2 → validate_equidistant tol x = .error .insufficientPoints) ∧
    (2 ≤ x.length →
      ((validate_equidistant tol x = .error .nonEquidistant) ↔
        (∃ i < x.length - 1,
          |(lget x (i + 1) - lget x i) - (lget x 1 - lget x 0)| > tol)) ∧
      ((∀ i < x.length - 1,
          |(lget x (i + 1) - lget x i) - (lget x 1 - lget x 0)| ≤ tol) →
        validate_equidistant tol x = .ok (lget x 1 - lget x 0))) := by
  constructor
  · intro h
    simp [validate_equidistant, h]
  · intro h2
    rw [validate_equidistant_eq tol x h2]
    constructor
    · rcases Classical.em (∃ i < x.length - 1,
          |(lget x (i + 1) - lget x i) - (lget x 1 - lget x 0)| > tol) with hex | hno
      · simpa [if_pos hex] using hex
      · simp [if_neg hno, hno]
    · intro hall
      rw [if_neg]
      push_neg
      intro i hi
      exact hall i hi

/-- Witness for C8 on concrete inputs: a single point fails with
InsufficientPoints, `[0,1,3]` fails the equidistance test, and `[0,1,2]`
passes returning `h = 1`. -/
theorem validate_equidistant_spec_witness :
    validate_equidistant eqTolerance [1] = .error .insufficientPoints ∧
    validate_equidistant eqTolerance [0, 1, 3] = .error .nonEquidistant ∧
    validate_equidistant eqTolerance [0, 1, 2] = .ok 1 := by
  refine ⟨(validate_equidistant_spec eqTolerance [1]).1 (by norm_num), ?_, ?_⟩
  · refine ((validate_equidistant_spec eqTolerance [0, 1, 3]).2 (by norm_num)).1.2 ?_
    refine ⟨1, by norm_num, ?_⟩
    norm_num [lget, eqTolerance]
  · have h := ((validate_equidistant_spec eqTolerance [0, 1, 2]).2 (by norm_num)).2 ?_
    · simpa [lget] using h
    · intro i hi
      have h2 : i < 2 := by simpa using hi
      interval_cases i <;> norm_num [lget, eqTolerance]

/-! ## C2: degrees and coefficient-list lengths -/

theorem bpPhase1Step_length (tol : ℚ) (x : List ℚ) (k : Nat) :
    ∀ (i : Nat) (c c' : List ℚ), bpPhase1Step tol x k i c = .ok c' →
      c'.length = c.length := by
  intro i
  induction i with
  | zero =>
    intro c c' h
    rw [bpPhase1Step] at h
    cases h
    rfl
  | succ i ih =>
    intro c c' h
    rw [bpPhase1Step] at h
    split at h
    · cases h; rfl
    · dsimp only at h
      split at h
      · cases h
      · have := ih _ _ h
        rw [this, List.length_set]

theorem bpPhase2Inner_length (xk : ℚ) :
    ∀ (m i : Nat) (c : List ℚ), (bpPhase2Inner xk i m c).length = c.length := by
  intro m
  induction m with
  | zero => intro i c; rfl
  | succ m ih =>
    intro i c
    rw [bpPhase2Inner, ih, List.length_set]

theorem bpPhase2_length (x : List ℚ) (n : Nat) :
    ∀ (k : Nat) (c : List ℚ), (bpPhase2 x n k c).length = c.length := by
  intro k
  induction k with
  | zero => intro c; rw [bpPhase2, bpPhase2Inner_length]
  | succ k ih => intro c; rw [bpPhase2, ih, bpPhase2Inner_length]

theorem bjorck_pereyra_ok_length (tol : ℚ) (x f c : List ℚ)
    (h : bjorck_pereyra tol x f = .ok c) : c.length = x.length := by
  rw [bjorck_pereyra] at h
  split at h
  · cases h
  · split at h
    · cases h
    · split at h
      · cases h
      · split at h
        · cases h
          omega
        · cases hf : List.foldlM (fun c k => bpPhase1Step tol x k (x.length - 1) c)
              f (List.range (x.length - 1)) with
          | error e => rw [hf, except_bind_error] at h; cases h
          | ok c1 =>
            rw [hf, except_bind_ok] at h
            cases h
            rw [bpPhase2_length,
              foldlM_ok_invariant (P := fun l => l.length = x.length) _ _ _ _ hf
                (fun acc b acc' hstep hacc => by
                  show acc'.length = x.length
                  rw [bpPhase1Step_length tol x b _ acc acc' hstep]; exact hacc)
                (by omega)]

theorem get_lagrange_coefficients_length (points : List (ℚ × ℚ)) :
    (get_lagrange_coefficients points).length = points.length := by
  rw [get_lagrange_coefficients]
  rw [foldl_length_invariant _ _ _ fun acc b =>
    foldl_length_invariant _ _ acc fun acc' b' => List.length_set acc' b' _]
  exact List.length_replicate _ _

theorem newtonSubstitute_length (x0 h : ℚ) (rc : List ℚ) (n : Nat) :
    (newtonSubstitute x0 h rc n).length = n := by
  rw [newtonSubstitute]
  rw [foldl_length_invariant _ _ _ fun acc b => ?_]
  · exact List.length_replicate _ _
  · dsimp only
    split
    · rfl
    · exact addScaled_length _ _ _

theorem get_newton_forward_coefficients_length (y x : List ℚ) (i : Nat) (h : ℚ) :
    (get_newton_forward_coefficients y x i h).length = y.length :=
  newtonSubstitute_length _ _ _ _

theorem get_newton_backward_coefficients_length (y x : List ℚ) (i : Nat) (h : ℚ) :
    (get_newton_backward_coefficients y x i h).length = y.length :=
  newtonSubstitute_length _ _ _ _

theorem cnsAux_length (nested nodes : List ℚ) :
    ∀ m : Nat, (cnsAux nested nodes m).length = m + 1 := by
  intro m
  induction m with
  | zero => rfl
  | succ m ih =>
    rw [cnsAux, cnsStep]
    rw [List.length_set, mulLinear_length, ih]

theorem get_hermite_coefficients_length (x y dy : List ℚ) (hx : x ≠ []) :
    (get_hermite_coefficients x y dy).length = 2 * x.length := by
  rw [get_hermite_coefficients, convert_nested_to_standard, cnsAux_length]
  have hlen : x.length ≠ 0 := fun h => hx (List.length_eq_zero.mp h)
  rw [List.length_map, List.length_range]
  omega

theorem direct_interpolation_ok {points : List (ℚ × ℚ)} {x_evals : List ℚ}
    {r : InterpolationResponse} (h : direct_interpolation points x_evals = .ok r) :
    2 ≤ points.length ∧
    bjorck_pereyra bpTolerance (points.map Prod.fst) (points.map Prod.snd) =
      .ok r.coefficients ∧
    r.polynomial_degree = points.length - 1 := by
  rw [direct_interpolation] at h
  split at h
  · cases h
  next h2 =>
    dsimp only at h
    split at h
    · cases h
    · cases hb : bjorck_pereyra bpTolerance (points.map Prod.fst)
          (points.map Prod.snd) with
      | error e => rw [hb, except_bind_error] at h; cases h
      | ok c =>
        rw [hb, except_bind_ok] at h
        cases h
        exact ⟨by omega, rfl, rfl⟩

theorem lagrange_interpolation_ok {points : List (ℚ × ℚ)} {x_eval : ℚ}
    {r : LagrangeResponse} (h : lagrange_interpolation points x_eval = .ok r) :
    2 ≤ points.length ∧
    hasExactDuplicate (points.map Prod.fst) = false ∧
    r.coefficients = get_lagrange_coefficients points ∧
    r.result = evaluate_polynomial (get_lagrange_coefficients points) x_eval ∧
    r.polynomial_degree = points.length - 1 := by
  rw [lagrange_interpolation] at h
  split at h
  · cases h
  next h2 =>
    dsimp only at h
    split at h
    · cases h
    next hdup =>
      cases h
      exact ⟨by omega, by simpa using hdup, rfl, rfl, rfl⟩

theorem newton_forward_interpolation_ok {points : List (ℚ × ℚ)} {x_evals : List ℚ}
    {r : InterpolationResponse}
    (h : newton_forward_interpolation points x_evals = .ok r) :
    2 ≤ points.length ∧
    hasExactDuplicate ((sortPointsByX points).map Prod.fst) = false ∧
    validate_equidistant eqTolerance ((sortPointsByX points).map Prod.fst) =
      .ok (lget ((sortPointsByX points).map Prod.fst) 1 -
        lget ((sortPointsByX points).map Prod.fst) 0) ∧
    r.coefficients = get_newton_forward_coefficients
      ((sortPointsByX points).map Prod.snd) ((sortPointsByX points).map Prod.fst) 0
      (lget ((sortPointsByX points).map Prod.fst) 1 -
        lget ((sortPointsByX points).map Prod.fst) 0) ∧
    r.polynomial_degree = points.length - 1 := by
  rw [newton_forward_interpolation] at h
  split at h
  · cases h
  next h2 =>
    dsimp only at h
    split at h
    · cases h
    next hdup =>
      cases hv : validate_equidistant eqTolerance
          ((sortPointsByX points).map Prod.fst) with
      | error e => rw [hv, except_bind_error] at h; cases h
      | ok hstep =>
        rw [hv, except_bind_ok] at h
        have hlen2 : 2 ≤ ((sortPointsByX points).map Prod.fst).length := by
          rw [List.length_map, sortPointsByX, List.length_mergeSort]
          omega
        have hv2 := hv
        rw [validate_equidistant_eq _ _ hlen2] at hv2
        have hstep_eq : hstep = lget ((sortPointsByX points).map Prod.fst) 1 -
            lget ((sortPointsByX points).map Prod.fst) 0 := by
          split at hv2
          · cases hv2
          · cases hv2; rfl
        subst hstep_eq
        cases h
        exact ⟨by omega, by simpa using hdup, rfl, rfl, rfl⟩

theorem newton_backward_interpolation_ok {points : List (ℚ × ℚ)} {x_evals : List ℚ}
    {r : InterpolationResponse}
    (h : newton_backward_interpolation points x_evals = .ok r) :
    2 ≤ points.length ∧
    hasExactDuplicate ((sortPointsByX points).map Prod.fst) = false ∧
    validate_equidistant eqTolerance ((sortPointsByX points).map Prod.fst) =
      .ok (lget ((sortPointsByX points).map Prod.fst) 1 -
        lget ((sortPointsByX points).map Prod.fst) 0) ∧
    r.coefficients = get_newton_backward_coefficients
      ((sortPointsByX points).map Prod.snd) ((sortPointsByX points).map Prod.fst)
      (((sortPointsByX points).map Prod.fst).length - 1)
      (lget ((sortPointsByX points).map Prod.fst) 1 -
        lget ((sortPointsByX points).map Prod.fst) 0) ∧
    r.polynomial_degree = points.length - 1 := by
  rw [newton_backward_interpolation] at h
  split at h
  · cases h
  next h2 =>
    dsimp only at h
    split at h
    · cases h
    next hdup =>
      cases hv : validate_equidistant eqTolerance
          ((sortPointsByX points).map Prod.fst) with
      | error e => rw [hv, except_bind_error] at h; cases h
      | ok hstep =>
        rw [hv, except_bind_ok] at h
        have hlen2 : 2 ≤ ((sortPointsByX points).map Prod.fst).length := by
          rw [List.length_map, sortPointsByX, List.length_mergeSort]
          omega
        have hv2 := hv
        rw [validate_equidistant_eq _ _ hlen2] at hv2
        have hstep_eq : hstep = lget ((sortPointsByX points).map Prod.fst) 1 -
            lget ((sortPointsByX points).map Prod.fst) 0 := by
          split at hv2
          · cases hv2
          · cases hv2; rfl
        subst hstep_eq
        cases h
        exact ⟨by omega, by simpa using hdup, rfl, rfl, rfl⟩

theorem hermite_interpolation_ok {points : List (ℚ × ℚ)} {x_evals : List ℚ}
    {r : InterpolationResponse}
    (h : hermite_interpolation points x_evals = .ok r) :
    2 ≤ points.length ∧
    hasExactDuplicate (points.map Prod.fst) = false ∧
    r.coefficients = get_hermite_coefficients ((sortPointsByX points).map Prod.fst)
      ((sortPointsByX points).map Prod.snd)
      (np_gradient ((sortPointsByX points).map Prod.snd)
        ((sortPointsByX points).map Prod.fst)) ∧
    r.polynomial_degree = 2 * points.length - 1 := by
  rw [hermite_interpolation] at h
  split at h
  · cases h
  next h2 =>
    dsimp only at h
    split at h
    · cases h
    next hdup =>
      cases h
      exact ⟨by omega, by simpa using hdup, rfl, rfl⟩

/-- C2: on success, the polynomial degree is `n - 1` for direct, Lagrange
and both Newton variants on `n` input points, `2n - 1` for Hermite, and
the coefficient list always has length `degree + 1`. -/
theorem degree_length_spec (points : List (ℚ × ℚ)) (x_evals : List ℚ) (x_eval : ℚ) :
    (∀ r, direct_interpolation points x_evals = .ok r →
      r.polynomial_degree = points.length - 1 ∧
      r.coefficients.length = r.polynomial_degree + 1) ∧
    (∀ r, lagrange_interpolation points x_eval = .ok r →
      r.polynomial_degree = points.length - 1 ∧
      r.coefficients.length = r.polynomial_degree + 1) ∧
    (∀ r, newton_forward_interpolation points x_evals = .ok r →
      r.polynomial_degree = points.length - 1 ∧
      r.coefficients.length = r.polynomial_degree + 1) ∧
    (∀ r, newton_backward_interpolation points x_evals = .ok r →
      r.polynomial_degree = points.length - 1 ∧
      r.coefficients.length = r.polynomial_degree + 1) ∧
    (∀ r, hermite_interpolation points x_evals = .ok r →
      r.polynomial_degree = 2 * points.length - 1 ∧
      r.coefficients.length = r.polynomial_degree + 1) := by
  refine ⟨?_, ?_, ?_, ?_, ?_⟩
  · intro r h
    obtain ⟨h2, hb, hdeg⟩ := direct_interpolation_ok h
    have hlen := bjorck_pereyra_ok_length _ _ _ _ hb
    rw [List.length_map] at hlen
    constructor
    · exact hdeg
    · rw [hlen, hdeg]; omega
  · intro r h
    obtain ⟨h2, _, hc, _, hdeg⟩ := lagrange_interpolation_ok h
    constructor
    · exact hdeg
    · rw [hc, get_lagrange_coefficients_length, hdeg]; omega
  · intro r h
    obtain ⟨h2, _, _, hc, hdeg⟩ := newton_forward_interpolation_ok h
    have hslen : ((sortPointsByX points).map Prod.snd).length = points.length := by
      rw [List.length_map, sortPointsByX, List.length_mergeSort]
    constructor
    · exact hdeg
    · rw [hc, get_newton_forward_coefficients_length, hslen, hdeg]; omega
  · intro r h
    obtain ⟨h2, _, _, hc, hdeg⟩ := newton_backward_interpolation_ok h
    have hslen : ((sortPointsByX points).map Prod.snd).length = points.length := by
      rw [List.length_map, sortPointsByX, List.length_mergeSort]
    constructor
    · exact hdeg
    · rw [hc, get_newton_backward_coefficients_length, hslen, hdeg]; omega
  · intro r h
    obtain ⟨h2, _, hc, hdeg⟩ := hermite_interpolation_ok h
    have hxlen : ((sortPointsByX points).map Prod.fst).length = points.length := by
      rw [List.length_map, sortPointsByX, List.length_mergeSort]
    have hxne : ((sortPointsByX points).map Prod.fst) ≠ [] := by
      intro hnil
      rw [hnil] at hxlen
      simp at hxlen
      omega
    constructor
    · exact hdeg
    · rw [hc, get_hermite_coefficients_length _ _ _ hxne, hxlen, hdeg]; omega

set_option maxHeartbeats 1000000 in
/-- Witness for C2: each method evaluated on a concrete valid point set
produces the stated degree and a coefficient list of length degree + 1. -/
theorem degree_length_spec_witness :
    ((⟨none, [1, 0, 1], 2⟩ : InterpolationResponse).polynomial_degree =
        [((0 : ℚ), (1 : ℚ)), (1, 2), (2, 5)].length - 1 ∧
      (⟨none, [1, 0, 1], 2⟩ : InterpolationResponse).coefficients.length =
        (⟨none, [1, 0, 1], 2⟩ : InterpolationResponse).polynomial_degree + 1) ∧
    ((⟨2, [2, -1/2, 1/2], 2⟩ : LagrangeResponse).polynomial_degree =
        [((1 : ℚ), (2 : ℚ)), (2, 3), (3, 5)].length - 1 ∧
      (⟨2, [2, -1/2, 1/2], 2⟩ : LagrangeResponse).coefficients.length =
        (⟨2, [2, -1/2, 1/2], 2⟩ : LagrangeResponse).polynomial_degree + 1) ∧
    ((⟨none, [0, 0, 1], 2⟩ : InterpolationResponse).polynomial_degree =
        [((1 : ℚ), (1 : ℚ)), (2, 4), (3, 9)].length - 1 ∧
      (⟨none, [0, 0, 1], 2⟩ : InterpolationResponse).coefficients.length =
        (⟨none, [0, 0, 1], 2⟩ : InterpolationResponse).polynomial_degree + 1) ∧
    ((⟨none, [0, 0, 1], 2⟩ : InterpolationResponse).polynomial_degree =
        [((1 : ℚ), (1 : ℚ)), (2, 4), (3, 9)].length - 1 ∧
      (⟨none, [0, 0, 1], 2⟩ : InterpolationResponse).coefficients.length =
        (⟨none, [0, 0, 1], 2⟩ : InterpolationResponse).polynomial_degree + 1) ∧
    ((⟨none, [7, -19, 21, -8, 1, 0], 5⟩ : InterpolationResponse).polynomial_degree =
        2 * [((1 : ℚ), (2 : ℚ)), (2, 5), (3, 4)].length - 1 ∧
      (⟨none, [7, -19, 21, -8, 1, 0], 5⟩ : InterpolationResponse).coefficients.length =
        (⟨none, [7, -19, 21, -8, 1, 0], 5⟩ :
          InterpolationResponse).polynomial_degree + 1) := by
  refine ⟨(degree_length_spec [(0, 1), (1, 2), (2, 5)] [] 0).1 _ ?_,
    (degree_length_spec [(1, 2), (2, 3), (3, 5)] [] 0).2.1 _ ?_,
    (degree_length_spec [(1, 1), (2, 4), (3, 9)] [] 0).2.2.1 _ ?_,
    (degree_length_spec [(1, 1), (2, 4), (3, 9)] [] 0).2.2.2.1 _ ?_,
    (degree_length_spec [(1, 2), (2, 5), (3, 4)] [] 0).2.2.2.2 _ ?_⟩
  · norm_num [direct_interpolation, hasExactDuplicate, bjorck_pereyra,
      hasCloseNodes, bpPhase1Step, bpPhase2, bpPhase2Inner, lget, bpTolerance,
      List.range_succ, List.foldlM, List.dedup, List.replicate,
      except_bind_ok, except_bind_error]
  · norm_num [lagrange_interpolation, hasExactDuplicate, get_lagrange_coefficients,
      multiply_polynomials, evaluate_polynomial, lget, List.range_succ,
      List.dedup, List.replicate]
  · norm_num [newton_forward_interpolation, hasExactDuplicate, sortPointsByX,
      validate_equidistant, get_newton_forward_coefficients, nfcLoop, nfcTerm,
      newtonSubstitute, addScaled, mulLinear, compute_difference_table, diffRows,
      diffRow, lget2, lget, eqTolerance, List.range_succ, List.dedup,
      List.replicate, List.mergeSort, List.foldlM, except_bind_ok,
      except_bind_error, Nat.factorial]
  · norm_num [newton_backward_interpolation, hasExactDuplicate, sortPointsByX,
      validate_equidistant, get_newton_backward_coefficients, nbcLoop, nbcTerm,
      newtonSubstitute, addScaled, mulLinear, compute_difference_table, diffRows,
      diffRow, lget2, lget, eqTolerance, List.range_succ, List.dedup,
      List.replicate, List.mergeSort, List.foldlM, except_bind_ok,
      except_bind_error, Nat.factorial]
  · norm_num [hermite_interpolation, hasExactDuplicate, sortPointsByX,
      get_hermite_coefficients, hermiteCol, hermiteCol1, hermiteNextCol, doubled,
      convert_nested_to_standard, cnsAux, cnsStep, mulLinear, np_gradient,
      hermiteGuard, lget, List.range_succ, List.dedup, List.replicate,
      List.mergeSort]

/-! ## C4: duplicate-node detection -/

theorem hasCloseNodes_true (tol : ℚ) (x : List ℚ) {i j : Nat} (hij : i < j)
    (hj : j < x.length) (hclose : |lget x i - lget x j| < tol) :
    hasCloseNodes tol x = true := by
  rw [hasCloseNodes, List.any_eq_true]
  refine ⟨i, List.mem_range.mpr (by omega), ?_⟩
  rw [List.any_eq_true]
  exact ⟨j, List.mem_range.mpr hj, by simp [hij, hclose]⟩

/-- With matching input lengths and at least one node, two nodes closer
than the tolerance make `bjorck_pereyra` fail with the duplicate error. -/
theorem bjorck_pereyra_close_error (tol : ℚ) (x f : List ℚ)
    (hlen : f.length = x.length) (h1 : 1 ≤ x.length)
    (hclose : hasCloseNodes tol x = true) :
    bjorck_pereyra tol x f = .error .duplicateNodes := by
  rw [bjorck_pereyra]
  rw [if_neg (by omega), if_neg (by omega), if_pos hclose]

/-- Counterexample to C4 as stated: the x-values `0` and `1e-12` differ by
less than every consumer tolerance (`1e-9`/`1e-10`), yet
`lagrange_interpolation` returns a result instead of failing with
DuplicateNodes — only exactly equal x-values are rejected there. -/
theorem duplicate_tolerance_counterexample :
    |(0 : ℚ) - 1 / 10 ^ 12| < 1 / 10 ^ 10 ∧
    lagrange_interpolation [(0, 0), (1 / 10 ^ 12, 1)] 0 =
      .ok ⟨0, [0, 10 ^ 12], 1⟩ := by
  constructor
  · rw [abs_sub_comm, abs_of_nonneg (by norm_num)]
    norm_num
  · norm_num [lagrange_interpolation, hasExactDuplicate, get_lagrange_coefficients,
      multiply_polynomials, evaluate_polynomial, lget, List.range_succ,
      List.dedup, List.replicate]

/-- C4 (amended): for direct interpolation — the consumer of
`bjorck_pereyra` — an input point set of at least two samples containing
two x-values closer than the tolerance `1e-10` fails with DuplicateNodes
rather than returning a result. (The remaining methods reject only
exactly equal x-values, as the counterexample shows.) -/
theorem direct_duplicate_spec (points : List (ℚ × ℚ)) (x_evals : List ℚ)
    (i j : Nat) (hij : i < j) (hj : j < points.length) (h2 : 2 ≤ points.length)
    (hclose : |lget (points.map Prod.fst) i - lget (points.map Prod.fst) j|
      < bpTolerance) :
    direct_interpolation points x_evals = .error .duplicateNodes := by
  rw [direct_interpolation, if_neg (by omega)]
  dsimp only
  split
  · rfl
  · rw [bjorck_pereyra_close_error bpTolerance _ _
      (by rw [List.length_map, List.length_map])
      (by rw [List.length_map]; omega)
      (hasCloseNodes_true bpTolerance _ hij (by rw [List.length_map]; omega) hclose)]
    rfl

/-- Witness for the amended C4 at a concrete input: nodes `0` and `1e-12`. -/
theorem direct_duplicate_spec_witness :
    direct_interpolation [(0, 0), (1 / 10 ^ 12, 1)] [] = .error .duplicateNodes :=
  direct_duplicate_spec [(0, 0), (1 / 10 ^ 12, 1)] [] 0 1 (by norm_num)
    (by norm_num) (by norm_num) (by
      show |lget [0, 1 / 10 ^ 12] 0 - lget [0, 1 / 10 ^ 12] 1| < bpTolerance
      rw [show lget [0, 1 / 10 ^ 12] 0 = 0 from rfl,
        show lget [(0 : ℚ), 1 / 10 ^ 12] 1 = 1 / 10 ^ 12 from rfl,
        abs_sub_comm, abs_of_nonneg (by norm_num), bpTolerance]
      norm_num)

/-! ## C6: zero-row detection in pivoted Gaussian elimination -/

theorem foldl_max_lt {tol : ℚ} : ∀ (t : List ℚ) (acc : ℚ), acc < tol →
    (∀ a ∈ t, a < tol) → t.foldl max acc < tol := by
  intro t
  induction t with
  | nil => intro acc h _; exact h
  | cons b t ih =>
    intro acc hacc hall
    rw [List.foldl_cons]
    exact ih _ (max_lt hacc (hall b (by simp))) fun a ha => hall a (by simp [ha])

theorem pyMax_lt {tol : ℚ} : ∀ {l : List ℚ}, l ≠ [] → (∀ a ∈ l, a < tol) →
    pyMax l < tol := by
  intro l hne hall
  rw [pyMax]
  cases l with
  | nil => exact absurd rfl hne
  | cons a t =>
    exact foldl_max_lt t _ (by simpa using hall a (by simp))
      fun b hb => hall b (by simp [hb])

/-- A fold over `Except` whose step fails (with a fixed error) exactly on
elements satisfying `C` returns that error whenever some list element
satisfies `C`. -/
theorem foldlM_if_error {α ε : Type} {C : Nat → Prop} [DecidablePred C]
    {g : α → Nat → α} {e : ε} {f : α → Nat → Except ε α}
    (hstep : ∀ acc i, f acc i = if C i then .error e else .ok (g acc i)) :
    ∀ (l : List Nat) (init : α) (r : Nat), r ∈ l → C r →
      List.foldlM f init l = .error e := by
  intro l
  induction l with
  | nil => intro init r hr; cases hr
  | cons b t ih =>
    intro init r hr hCr
    rw [List.foldlM_cons, hstep]
    by_cases hb : C b
    · rw [if_pos hb, except_bind_error]
    · rw [if_neg hb, except_bind_ok]
      have hrt : r ∈ t := by
        cases List.mem_cons.mp hr with
        | inl h => exact absurd (h ▸ hCr) hb
        | inr h => exact h
      exact ih _ r hrt hCr

/-- C6 (amended): under the "scaled" pivot strategy, a coefficient matrix
containing an entirely (near-)zero row makes `gauss` fail with the
zero-row SingularMatrix error raised by the scaling pre-scan, before any
elimination step runs. Under the "absolute" strategy no such pre-scan
exists, and failure surfaces only later (as the counterexample shows). -/
theorem gauss_scaled_zero_row_spec (A : List (List ℚ)) (b : List ℚ) (tol : ℚ)
    (r : Nat) (hr : r < b.length)
    (hzero : ∀ j < b.length, |lget2 A r j| < tol) :
    gauss A b .scaled tol = .error .zeroRow := by
  have hscale : gaussScaleVec tol A b.length = .error .zeroRow := by
    rw [gaussScaleVec]
    refine foldlM_if_error (C := fun i =>
        pyMax ((List.range b.length).map fun j => |lget2 A i j|) < tol)
      (g := fun s i => s ++ [pyMax ((List.range b.length).map fun j => |lget2 A i j|)])
      (fun acc i => rfl) _ _ r (List.mem_range.mpr hr) ?_
    refine pyMax_lt (fun hmap => by
      rw [List.map_eq_nil_iff, List.range_eq_nil] at hmap
      omega) ?_
    intro a ha
    simp only [List.mem_map, List.mem_range] at ha
    obtain ⟨jj, hjj, rfl⟩ := ha
    exact hzero jj hjj
  rw [gauss, hscale, except_bind_error]

/-- Counterexample to C6 as stated: the matrix `[[0,0],[1,1]]` has an
entirely zero first row, yet under the "absolute" strategy `gauss` does
not fail before elimination — it runs the elimination and only fails in
back substitution (error tag `singularDiagonal`, not the pre-scan's
`zeroRow`). -/
theorem gauss_absolute_zero_row_counterexample :
    gauss [[0, 0], [1, 1]] [0, 0] .absolute gaussTolerance =
      .error .singularDiagonal ∧
    gauss [[0, 0], [1, 1]] [0, 0] .absolute gaussTolerance ≠
      .error .zeroRow := by
  have h : gauss [[0, 0], [1, 1]] [0, 0] .absolute gaussTolerance =
      .error .singularDiagonal := by
    norm_num [gauss, gaussScaleVec, gaussStep, gaussEliminate, gaussBackSub,
      findPivotRow, pivotScore, lget2, lget, gaussTolerance, List.range_succ,
      List.range', List.foldlM, except_bind_ok, except_bind_error]
  exact ⟨h, by rw [h]; simp⟩

/-- Witness for the amended C6 at a concrete input: the same zero-row
matrix under the "scaled" strategy fails up front with the zero-row scan. -/
theorem gauss_scaled_zero_row_spec_witness :
    gauss [[0, 0], [1, 1]] [0, 0] .scaled gaussTolerance = .error .zeroRow := by
  refine gauss_scaled_zero_row_spec [[0, 0], [1, 1]] [0, 0] gaussTolerance 0
    (by norm_num) ?_
  intro j hj
  have h2 : j < 2 := by simpa using hj
  interval_cases j <;> norm_num [lget2, lget, gaussTolerance]

/-! ## C5: Gauss-Seidel iteration count and non-convergence behaviour -/

/-- The arithmetic of one Gauss-Seidel/SOR sweep (the error-free content
of `sorSweep`, used to state its behaviour). -/
def sorSweepPure (A : List (List ℚ)) (b : List ℚ) (omega : ℚ) (n : Nat)
    (x : List ℚ) : List ℚ :=
  (List.range n).foldl
    (fun x i =>
      let sum_lower := (((List.range i).map fun j => lget2 A i j * lget x j)).sum
      let sum_upper :=
        (((List.range' i (n - i) 1).map fun j => lget2 A i j * lget x j)).sum
      let R_i := lget b i - sum_lower - sum_upper
      x.set i (lget x i + omega * (R_i / lget2 A i i)))
    x

/-- The iterate after `k` sweeps. -/
def sorIterate (A : List (List ℚ)) (b : List ℚ) (omega : ℚ) (n : Nat) :
    Nat → List ℚ → List ℚ
  | 0, x => x
  | k + 1, x => sorIterate A b omega n k (sorSweepPure A b omega n x)

/-- Maximum absolute per-unknown change produced by one sweep from `x`. -/
def sorChange (A : List (List ℚ)) (b : List ℚ) (omega : ℚ) (n : Nat)
    (x : List ℚ) : ℚ :=
  pyMax ((List.range n).map fun i =>
    |lget (sorSweepPure A b omega n x) i - lget x i|)

theorem sorSweep_ok (A : List (List ℚ)) (b : List ℚ) (omega : ℚ) (n : Nat)
    (hdiag : ∀ i < n, ¬ |lget2 A i i| < 1 / 10 ^ 10) (x : List ℚ) :
    sorSweep A b omega n x = .ok (sorSweepPure A b omega n x) := by
  rw [sorSweep, sorSweepPure]
  have key : ∀ (l : List Nat), (∀ i ∈ l, i < n) → ∀ x : List ℚ,
      List.foldlM (fun x i =>
        if |lget2 A i i| < 1 / 10 ^ 10 then
          (.error .nearZeroDiagonal : Except SolverError (List ℚ))
        else
          let sum_lower := (((List.range i).map fun j => lget2 A i j * lget x j)).sum
          let sum_upper :=
            (((List.range' i (n - i) 1).map fun j => lget2 A i j * lget x j)).sum
          let R_i := lget b i - sum_lower - sum_upper
          .ok (x.set i (lget x i + omega * (R_i / lget2 A i i)))) x l =
      .ok (List.foldl (fun x i =>
        let sum_lower := (((List.range i).map fun j => lget2 A i j * lget x j)).sum
        let sum_upper :=
          (((List.range' i (n - i) 1).map fun j => lget2 A i j * lget x j)).sum
        let R_i := lget b i - sum_lower - sum_upper
        x.set i (lget x i + omega * (R_i / lget2 A i i))) x l) := by
    intro l
    induction l with
    | nil => intro _ x; rfl
    | cons a t ih =>
      intro hmem x
      rw [List.foldlM_cons, if_neg (hdiag a (hmem a (by simp)))]
      dsimp only
      rw [except_bind_ok, List.foldl_cons]
      exact ih (fun i hi => hmem i (by simp [hi])) _
  exact key (List.range n) (fun i hi => List.mem_range.mp hi) x

theorem sorLoop_spec (A : List (List ℚ)) (b : List ℚ) (omega tol : ℚ) (n : Nat)
    (hdiag : ∀ i < n, ¬ |lget2 A i i| < 1 / 10 ^ 10) :
    ∀ (fuel : Nat) (x : List ℚ),
      ((∀ k, 1 ≤ k → k ≤ fuel →
          tol ≤ sorChange A b omega n (sorIterate A b omega n (k - 1) x)) →
        sorLoop A b omega tol n fuel x = .ok (sorIterate A b omega n fuel x, fuel)) ∧
      (∀ K, 1 ≤ K → K ≤ fuel →
        sorChange A b omega n (sorIterate A b omega n (K - 1) x) < tol →
        (∀ k, 1 ≤ k → k < K →
          tol ≤ sorChange A b omega n (sorIterate A b omega n (k - 1) x)) →
        sorLoop A b omega tol n fuel x = .ok (sorIterate A b omega n K x, K)) := by
  intro fuel
  induction fuel with
  | zero =>
    intro x
    exact ⟨fun _ => rfl, fun K hK1 hK0 _ _ => by omega⟩
  | succ fuel ih =>
    intro x
    have hloop : sorLoop A b omega tol n (fuel + 1) x =
        (if sorChange A b omega n x < tol then
          .ok (sorSweepPure A b omega n x, 1)
        else do
          let r ← sorLoop A b omega tol n fuel (sorSweepPure A b omega n x)
          .ok (r.1, r.2 + 1)) := by
      rw [sorLoop, sorSweep_ok A b omega n hdiag, except_bind_ok]
      rfl
    constructor
    · intro hall
      have h1 : tol ≤ sorChange A b omega n x := by
        have := hall 1 (by omega) (by omega)
        simpa [sorIterate] using this
      rw [hloop, if_neg (by exact not_lt.mpr h1)]
      have hrec := (ih (sorSweepPure A b omega n x)).1 ?_
      · rw [hrec, except_bind_ok]
        rfl
      · intro k hk1 hkf
        have := hall (k + 1) (by omega) (by omega)
        have hshift : sorIterate A b omega n k x =
            sorIterate A b omega n (k - 1) (sorSweepPure A b omega n x) := by
          cases k with
          | zero => omega
          | succ k' => rfl
        simpa [hshift] using this
    · intro K hK1 hKle hKconv hKmin
      cases Nat.eq_or_lt_of_le hK1 with
      | inl hK1eq =>
        rw [hloop, if_pos (by simpa [← hK1eq, sorIterate] using hKconv)]
        rw [← hK1eq]
        rfl
      | inr hK2 =>
        have h1 : tol ≤ sorChange A b omega n x := by
          have := hKmin 1 (by omega) (by omega)
          simpa [sorIterate] using this
        rw [hloop, if_neg (by exact not_lt.mpr h1)]
        have hshift : ∀ k, 2 ≤ k → sorIterate A b omega n (k - 1) x =
            sorIterate A b omega n (k - 1 - 1) (sorSweepPure A b omega n x) := by
          intro k hk
          cases k with
          | zero => omega
          | succ k' =>
            cases k' with
            | zero => omega
            | succ k'' => rfl
        have hrec := (ih (sorSweepPure A b omega n x)).2 (K - 1) (by omega)
          (by omega) ?_ ?_
        · rw [hrec, except_bind_ok]
          have : sorIterate A b omega n (K - 1) (sorSweepPure A b omega n x) =
              sorIterate A b omega n K x := by
            cases K with
            | zero => omega
            | succ K' => rfl
          rw [this]
          have : K - 1 + 1 = K := by omega
          rw [this]
        · rw [← hshift K hK2]
          exact hKconv
        · intro k hk1 hkK
          have := hKmin (k + 1) (by omega) (by omega)
          have hs : sorIterate A b omega n (k + 1 - 1) x =
              sorIterate A b omega n (k - 1) (sorSweepPure A b omega n x) := by
            cases k with
            | zero => omega
            | succ k' => rfl
          rwa [hs] at this

/-- C5: with a valid relaxation factor, a (spec-modelled) diagonally
dominant matrix and diagonal entries at or above the sweep's `1e-10`
guard, `gauss_seidel_sor` raises no error: if every sweep up to
`max_iterations` changes some unknown by at least `tolerance`, it returns
the current best iterate together with an iteration count equal to
`max_iterations`; if instead the change first falls below `tolerance` at
sweep `K ≤ max_iterations`, it returns that iterate with count `K`. -/
theorem gauss_seidel_sor_spec (A : List (List ℚ)) (b : List ℚ)
    (omega tol : ℚ) (max_iterations : Nat) (x0 : List ℚ)
    (hw1 : 0 < omega) (hw2 : omega < 2)
    (hdom : check_diagonal_dominance A = true)
    (hdiag : ∀ i < b.length, 1 / 10 ^ 10 ≤ |lget2 A i i|) :
    ((∀ k, 1 ≤ k → k ≤ max_iterations →
        tol ≤ sorChange A b omega b.length
          (sorIterate A b omega b.length (k - 1) x0)) →
      gauss_seidel_sor A b omega tol max_iterations x0 =
        .ok (sorIterate A b omega b.length max_iterations x0, max_iterations)) ∧
    (∀ K, 1 ≤ K → K ≤ max_iterations →
      sorChange A b omega b.length (sorIterate A b omega b.length (K - 1) x0) < tol →
      (∀ k, 1 ≤ k → k < K →
        tol ≤ sorChange A b omega b.length
          (sorIterate A b omega b.length (k - 1) x0)) →
      gauss_seidel_sor A b omega tol max_iterations x0 =
        .ok (sorIterate A b omega b.length K x0, K)) := by
  have hgs : gauss_seidel_sor A b omega tol max_iterations x0 =
      sorLoop A b omega tol b.length max_iterations x0 := by
    rw [gauss_seidel_sor, if_neg (by push_neg; constructor <;> linarith),
      if_neg (by simp [hdom])]
  have hd : ∀ i < b.length, ¬ |lget2 A i i| < 1 / 10 ^ 10 :=
    fun i hi => not_lt.mpr (hdiag i hi)
  constructor
  · intro hall
    rw [hgs]
    exact (sorLoop_spec A b omega tol b.length hd max_iterations x0).1 hall
  · intro K h1 h2 h3 h4
    rw [hgs]
    exact (sorLoop_spec A b omega tol b.length hd max_iterations x0).2 K h1 h2 h3 h4

/-- Witness for C5 on the spec's concrete diagonally dominant system
`A = [[4,1],[1,3]]`, `b = [1,2]`, ω = 1: with `tolerance = 0` the single
allowed iteration is exhausted and the count equals `max_iterations = 1`
with no error; with `tolerance = 1000` the first sweep converges and the
count is 1. -/
theorem gauss_seidel_sor_spec_witness :
    gauss_seidel_sor [[4, 1], [1, 3]] [1, 2] 1 0 1 [0, 0] =
      .ok ([1/4, 7/12], 1) ∧
    gauss_seidel_sor [[4, 1], [1, 3]] [1, 2] 1 1000 1 [0, 0] =
      .ok ([1/4, 7/12], 1) := by
  have hdom : check_diagonal_dominance [[4, 1], [1, 3]] = true := by
    norm_num [check_diagonal_dominance, lget2, lget, List.range_succ, List.filter]
  have hdiag : ∀ i < ([1, 2] : List ℚ).length,
      1 / 10 ^ 10 ≤ |lget2 [[4, 1], [1, 3]] i i| := by
    intro i hi
    have h2 : i < 2 := by simpa using hi
    interval_cases i <;> norm_num [lget2, lget]
  have hiter : sorIterate [[4, 1], [1, 3]] [1, 2] 1 2 1 [0, 0] = [1/4, 7/12] := by
    norm_num [sorIterate, sorSweepPure, lget2, lget, List.range_succ, List.range']
  have hchange : sorChange [[4, 1], [1, 3]] [1, 2] 1 2 [0, 0] = 7/12 := by
    norm_num [sorChange, sorSweepPure, pyMax, lget2, lget, List.range_succ,
      List.range', abs_of_nonneg]
  constructor
  · have h := (gauss_seidel_sor_spec [[4, 1], [1, 3]] [1, 2] 1 0 1 [0, 0]
      (by norm_num) (by norm_num) hdom hdiag).1 ?_
    · rwa [show ([1, 2] : List ℚ).length = 2 from rfl, hiter] at h
    · intro k hk1 hk2
      have : k = 1 := by omega
      subst this
      rw [show ([1, 2] : List ℚ).length = 2 from rfl]
      simpa [sorIterate, hchange] using by norm_num
  · have h := (gauss_seidel_sor_spec [[4, 1], [1, 3]] [1, 2] 1 1000 1 [0, 0]
      (by norm_num) (by norm_num) hdom hdiag).2 1 (by omega) (by omega) ?_
      (by intro k h1 h2; omega)
    · rwa [show ([1, 2] : List ℚ).length = 2 from rfl, hiter] at h
    · rw [show ([1, 2] : List ℚ).length = 2 from rfl]
      simpa [sorIterate, hchange] using by norm_num

/-! ## C7: Doolittle LU decomposition -/

theorem getD_append_left' {α : Type} (l l' : List α) (d : α) {i : Nat}
    (h : i < l.length) : (l ++ l').getD i d = l.getD i d := by
  rw [List.getD_eq_getElem?_getD, List.getElem?_append, if_pos h,
    ← List.getD_eq_getElem?_getD]

theorem getD_append_length {α : Type} (l : List α) (a d : α) :
    (l ++ [a]).getD l.length d = a := by
  rw [List.getD_eq_getElem?_getD, List.getElem?_concat_length]
  rfl

theorem lget2_append_row (rows : List (List ℚ)) (row : List ℚ) {i : Nat}
    (h : i < rows.length) (k : Nat) :
    lget2 (rows ++ [row]) i k = lget2 rows i k := by
  rw [lget2, getD_append_left' _ _ _ h, lget2]

theorem lget2_append_last (rows : List (List ℚ)) (row : List ℚ) (k : Nat) :
    lget2 (rows ++ [row]) rows.length k = lget row k := by
  rw [lget2, getD_append_length]

theorem lcolGet_append_col (lcols : List (List ℚ)) (c : List ℚ) {j : Nat}
    (h : j < lcols.length) (r : Nat) :
    lcolGet (lcols ++ [c]) r j = lcolGet lcols r j := by
  rw [lcolGet, getD_append_left' _ _ _ h, lcolGet]

theorem lcolGet_append_last (lcols : List (List ℚ)) (c : List ℚ) (r : Nat) :
    lcolGet (lcols ++ [c]) r lcols.length = lget c r := by
  rw [lcolGet, getD_append_length]

theorem list_sum_range (f : Nat → ℚ) :
    ∀ n : Nat, (((List.range n).map f)).sum = ∑ j ∈ Finset.range n, f j := by
  intro n
  induction n with
  | zero => rfl
  | succ n ih =>
    rw [List.range_succ, List.map_append, List.sum_append, ih,
      Finset.sum_range_succ]
    simp

/-- Invariant of the Doolittle stage fold after the first `m` stages:
`m` rows of `U` and `m` columns of `L` are stored, their entries satisfy
the Doolittle recurrences, and every checked pivot passed. -/
def luInv (A : List (List ℚ)) (n m : Nat)
    (st : List (List ℚ) × List (List ℚ)) : Prop :=
  st.1.length = m ∧ st.2.length = m ∧
  (∀ i < m, ∀ k < n, lget2 st.1 i k =
    if k < i then 0
    else lget2 A i k -
      (((List.range i).map fun j => lcolGet st.2 i j * lget2 st.1 j k)).sum) ∧
  (∀ i < m, ∀ r < n, lcolGet st.2 r i =
    if r < i then 0
    else if r = i then 1
    else (lget2 A r i -
      (((List.range i).map fun j => lcolGet st.2 r j * lget2 st.1 j i)).sum) /
      lget2 st.1 i i) ∧
  (∀ i < m, i < n - 1 → ¬ |lget2 st.1 i i| < gaussTolerance)

theorem luURow_get (A : List (List ℚ)) (n : Nat)
    (st : List (List ℚ) × List (List ℚ)) (i : Nat) {k : Nat} (hk : k < n) :
    lget (luURow A n st i) k =
      if k < i then 0
      else lget2 A i k -
        (((List.range i).map fun j => lcolGet st.2 i j * lget2 st.1 j k)).sum := by
  rw [luURow, lget_range_map, if_pos hk]

theorem luLCol_get (A : List (List ℚ)) (n : Nat)
    (st : List (List ℚ) × List (List ℚ)) (i : Nat) {r : Nat} (hr : r < n) :
    lget (luLCol A n st i) r =
      if r < i then 0
      else if r = i then 1
      else (lget2 A r i -
        (((List.range i).map fun j => lcolGet st.2 r j * lget2 st.1 j i)).sum) /
        lget (luURow A n st i) i := by
  rw [luLCol, lget_range_map, if_pos hr]

theorem luStage_inv (A : List (List ℚ)) (n m : Nat) (hm : m < n)
    (st res : List (List ℚ) × List (List ℚ)) (hinv : luInv A n m st)
    (hstep : luStage A n st m = .ok res) : luInv A n (m + 1) res := by
  obtain ⟨hul, hll, hurec, hlrec, hpiv⟩ := hinv
  rw [luStage] at hstep
  split at hstep
  · cases hstep
  next hcheck =>
    cases hstep
    have hUold : ∀ i, i < m → ∀ k : Nat,
        lget2 (st.1 ++ [luURow A n st m]) i k = lget2 st.1 i k :=
      fun i hi k => lget2_append_row _ _ (by omega) k
    have hLold : ∀ j, j < m → ∀ r : Nat,
        lcolGet (st.2 ++ [luLCol A n st m]) r j = lcolGet st.2 r j :=
      fun j hj r => lcolGet_append_col _ _ (by omega) r
    have hUnew : ∀ k : Nat,
        lget2 (st.1 ++ [luURow A n st m]) m k = lget (luURow A n st m) k := by
      intro k
      rw [← hul, lget2_append_last]
    have hLnew : ∀ r : Nat,
        lcolGet (st.2 ++ [luLCol A n st m]) r m = lget (luLCol A n st m) r := by
      intro r
      rw [← hll, lcolGet_append_last]
    have hsumr : ∀ (r : Nat) (i : Nat), i ≤ m → ∀ k : Nat,
        (((List.range i).map fun j =>
          lcolGet (st.2 ++ [luLCol A n st m]) r j *
            lget2 (st.1 ++ [luURow A n st m]) j k)).sum =
        (((List.range i).map fun j => lcolGet st.2 r j * lget2 st.1 j k)).sum := by
      intro r i hi k
      refine congrArg List.sum (List.map_congr_left ?_)
      intro j hj
      have hjm : j < i := List.mem_range.mp hj
      rw [hLold j (by omega), hUold j (by omega)]
    refine ⟨by simp [hul], by simp [hll], ?_, ?_, ?_⟩
    · intro i hi k hk
      rcases Nat.lt_or_ge i m with him | him
      · rw [hUold i him k, hurec i him k hk, hsumr i i (by omega) k]
      · have him2 : i = m := by omega
        subst him2
        rw [hUnew k, luURow_get A n st i hk, hsumr i i (by omega) k]
    · intro i hi r hr
      rcases Nat.lt_or_ge i m with him | him
      · rw [hLold i him r, hlrec i him r hr, hsumr r i (by omega) i,
          hUold i him i]
      · have him2 : i = m := by omega
        subst him2
        rw [hLnew r, luLCol_get A n st i hr, hsumr r i (by omega) i,
          hUnew i]
    · intro i hi hin
      rcases Nat.lt_or_ge i m with him | him
      · rw [hUold i him i]
        exact hpiv i him hin
      · have him2 : i = m := by omega
        subst him2
        rw [hUnew i]
        intro habs
        exact hcheck ⟨hin, habs⟩


theorem luFold_inv (A : List (List ℚ)) (n : Nat) :
    ∀ (m : Nat), m ≤ n → ∀ (res : List (List ℚ) × List (List ℚ)),
      List.foldlM (luStage A n) ([], []) (List.range m) = .ok res →
      luInv A n m res := by
  intro m
  induction m with
  | zero =>
    intro _ res h
    simp only [List.range_zero, List.foldlM_nil] at h
    cases h
    refine ⟨rfl, rfl, ?_, ?_, ?_⟩ <;> intro i hi <;> omega
  | succ m ih =>
    intro hm res h
    rw [List.range_succ, List.foldlM_append] at h
    cases hmid : List.foldlM (luStage A n) ([], []) (List.range m) with
    | error e => rw [hmid, except_bind_error] at h; cases h
    | ok st =>
      rw [hmid, except_bind_ok] at h
      simp only [List.foldlM_cons, List.foldlM_nil] at h
      cases hstep : luStage A n st m with
      | error e => rw [hstep, except_bind_error] at h; cases h
      | ok st' =>
        rw [hstep, except_bind_ok] at h
        cases h
        exact luStage_inv A n m (by omega) st res (ih (by omega) st hmid) hstep

theorem bwdAux_ok_pivots (U : List (List ℚ)) (y : List ℚ) (n : Nat) :
    ∀ (m : Nat) (xs : List ℚ), bwdAux U y n m = .ok xs →
      ∀ t < m, ¬ |lget2 U (n - 1 - t) (n - 1 - t)| < gaussTolerance := by
  intro m
  induction m with
  | zero => intro xs _ t ht; omega
  | succ m ih =>
    intro xs h t ht
    rw [bwdAux] at h
    cases hrec : bwdAux U y n m with
    | error e => rw [hrec, except_bind_error] at h; cases h
    | ok xs' =>
      rw [hrec, except_bind_ok] at h
      dsimp only at h
      split at h
      · cases h
      next hok =>
        rcases Nat.lt_or_ge t m with htm | htm
        · exact ih xs' hrec t htm
        · have : t = m := by omega
          subst this
          exact hok

theorem doolittle_ok_parts {A : List (List ℚ)} {b x : List ℚ}
    {L U : List (List ℚ)} (h : doolittle A b = .ok (x, L, U)) :
    ∃ st : List (List ℚ) × List (List ℚ),
      List.foldlM (luStage A A.length) ([], []) (List.range A.length) = .ok st ∧
      U = st.1 ∧
      L = (List.range A.length).map
        (fun r => (List.range A.length).map fun j => lcolGet st.2 r j) ∧
      bwdAux U (forward_substitution L b) (forward_substitution L b).length
        (forward_substitution L b).length = .ok x := by
  rw [doolittle] at h
  cases hlu : lu_decomposition A with
  | error e => rw [hlu, except_bind_error] at h; cases h
  | ok LU =>
    rw [hlu, except_bind_ok] at h
    rw [lu_decomposition] at hlu
    cases hfold : List.foldlM (luStage A A.length) ([], [])
        (List.range A.length) with
    | error e => rw [hfold, except_bind_error] at hlu; cases hlu
    | ok st =>
      rw [hfold, except_bind_ok] at hlu
      cases hlu
      dsimp only at h
      cases hbwd : backward_substitution st.1 (forward_substitution
          ((List.range A.length).map
            (fun r => (List.range A.length).map fun j => lcolGet st.2 r j)) b) with
      | error e => rw [hbwd, except_bind_error] at h; cases h
      | ok x' =>
        rw [hbwd, except_bind_ok] at h
        cases h
        exact ⟨st, rfl, rfl, rfl, hbwd⟩

theorem getD_range_map {α : Type} (f : Nat → α) (m i : Nat) (d : α) :
    ((List.range m).map f).getD i d = if i < m then f i else d := by
  rcases Nat.lt_or_ge i m with h | h
  · rw [List.getD_eq_getElem?_getD, List.getElem?_map, List.getElem?_range h,
      if_pos h]
    rfl
  · rw [if_neg (by omega), List.getD_eq_getElem?_getD,
      List.getElem?_eq_none (by simpa using h)]
    rfl

theorem foldl_append_one_length {β : Type} (g : List ℚ → β → ℚ) (l : List β) :
    ∀ init : List ℚ,
      (l.foldl (fun y i => y ++ [g y i]) init).length = init.length + l.length := by
  induction l with
  | nil => intro init; simp
  | cons b t ih =>
    intro init
    rw [List.foldl_cons, ih]
    simp
    omega

theorem forward_substitution_length (L : List (List ℚ)) (b : List ℚ) :
    (forward_substitution L b).length = b.length := by
  rw [forward_substitution]
  rw [foldl_append_one_length
    (fun y i => lget b i - (((List.range i).map fun j => lget2 L i j * lget y j)).sum)]
  simp

/-- C7: whenever `doolittle(A, b)` on a square system returns `(x, L, U)`
without raising, `L` is lower triangular with unit diagonal, `U` is upper
triangular, the product `L·U` reconstructs `A` exactly (hence within any
tolerance), and every pivot `|U[i][i]|` is at least the `1e-10` threshold
(contrapositive of "fails whenever a pivot falls below `1e-10`"). -/
theorem doolittle_spec (A : List (List ℚ)) (b x : List ℚ)
    (L U : List (List ℚ)) (hsq : b.length = A.length)
    (h : doolittle A b = .ok (x, L, U)) :
    (∀ i < A.length, lget2 L i i = 1) ∧
    (∀ i j : Nat, i < j → j < A.length → lget2 L i j = 0) ∧
    (∀ i j : Nat, j < i → i < A.length → lget2 U i j = 0) ∧
    (∀ i < A.length, ∀ k < A.length,
      (∑ j ∈ Finset.range A.length, lget2 L i j * lget2 U j k) = lget2 A i k) ∧
    (∀ i < A.length, gaussTolerance ≤ |lget2 U i i|) := by
  obtain ⟨st, hfold, hU, hL, hbwd⟩ := doolittle_ok_parts h
  obtain ⟨hul, hll, hurec, hlrec, hpiv⟩ :=
    luFold_inv A A.length A.length (le_refl _) st hfold
  have hLget : ∀ r, r < A.length → ∀ j : Nat,
      lget2 L r j = lcolGet st.2 r j := by
    intro r hr j
    rw [hL, lget2, getD_range_map, if_pos hr]
    rcases Nat.lt_or_ge j A.length with hj | hj
    · rw [lget, getD_range_map, if_pos hj]
    · rw [lget, getD_range_map, if_neg (by omega), lcolGet,
        List.getD_eq_getElem?_getD, List.getElem?_eq_none, lget]
      · rfl
      · rcases Nat.lt_or_ge j st.2.length with hj2 | hj2
        · have := hlrec j (by omega) r hr
          omega
        · simpa using hj2
  have hUget : ∀ i j : Nat, lget2 U i j = lget2 st.1 i j := fun i j => by
    rw [hU]
  have hdiag : ∀ i < A.length, lget2 L i i = 1 := by
    intro i hi
    rw [hLget i hi i, hlrec i hi i hi, if_neg (by omega), if_pos rfl]
  have hLtri : ∀ i j : Nat, i < j → j < A.length → lget2 L i j = 0 := by
    intro i j hij hj
    rw [hLget i (by omega) j, hlrec j hj i (by omega), if_pos hij]
  have hUtri : ∀ i j : Nat, j < i → i < A.length → lget2 U i j = 0 := by
    intro i j hji hi
    rw [hUget, hurec i hi j (by omega), if_pos hji]
  have hpivots : ∀ i < A.length, gaussTolerance ≤ |lget2 U i i| := by
    intro i hi
    have hflen : (forward_substitution L b).length = A.length := by
      rw [forward_substitution_length, hsq]
    have hbp := bwdAux_ok_pivots U (forward_substitution L b)
      (forward_substitution L b).length (forward_substitution L b).length x hbwd
      (A.length - 1 - i) (by omega)
    rw [hflen] at hbp
    have : A.length - 1 - (A.length - 1 - i) = i := by omega
    rw [this] at hbp
    exact not_lt.mp hbp
  refine ⟨hdiag, hLtri, hUtri, ?_, hpivots⟩
  intro i hi k hk
  rcases le_or_lt i k with hik | hki
  · have hzero : ∀ j ∈ Finset.range A.length, j ∉ Finset.range (i + 1) →
        lget2 L i j * lget2 U j k = 0 := by
      intro j hjn hji
      rw [hLtri i j (by simp at hji; omega) (by simpa using hjn), zero_mul]
    rw [← Finset.sum_subset (Finset.range_subset.mpr (by omega)) hzero,
      Finset.sum_range_succ, hdiag i hi, one_mul, hUget i k,
      hurec i hi k hk, if_neg (by omega), list_sum_range]
    have hterm : ∀ j ∈ Finset.range i,
        lget2 L i j * lget2 U j k = lcolGet st.2 i j * lget2 st.1 j k := by
      intro j hj
      rw [hLget i hi j, hUget j k]
    rw [Finset.sum_congr rfl hterm]
    ring
  · have hzero : ∀ j ∈ Finset.range A.length, j ∉ Finset.range (k + 1) →
        lget2 L i j * lget2 U j k = 0 := by
      intro j hjn hji
      rw [hUtri j k (by simp at hji; omega) (by simpa using hjn), mul_zero]
    rw [← Finset.sum_subset (Finset.range_subset.mpr (by omega)) hzero,
      Finset.sum_range_succ, hLget i hi k,
      hlrec k (by omega) i hi, if_neg (by omega), if_neg (by omega), hUget k k]
    have hkden : lget2 st.1 k k ≠ 0 := by
      have := hpivots k (by omega)
      rw [hUget k k] at this
      intro h0
      rw [h0] at this
      norm_num [gaussTolerance] at this
    rw [div_mul_cancel₀ _ hkden, list_sum_range]
    have hterm : ∀ j ∈ Finset.range k,
        lget2 L i j * lget2 U j k = lcolGet st.2 i j * lget2 st.1 j k := by
      intro j hj
      rw [hLget i hi j, hUget j k]
    rw [Finset.sum_congr rfl hterm]
    ring

/-- Witness for C7 on the concrete system `A = [[2,1],[1,3]]`,
`b = [3,5]`: decomposition succeeds with unit-lower-triangular `L`,
upper-triangular `U`, `L·U = A`, and pivots above tolerance. -/
theorem doolittle_spec_witness :
    doolittle [[2, 1], [1, 3]] [3, 5] =
      .ok ([4/5, 7/5], [[1, 0], [1/2, 1]], [[2, 1], [0, 5/2]]) ∧
    lget2 [[1, 0], [1/2, 1]] 1 1 = 1 ∧
    lget2 [[1, 0], [1/2, 1]] 0 1 = 0 ∧
    lget2 [[2, 1], [0, 5/2]] 1 0 = 0 ∧
    (∑ j ∈ Finset.range 2,
      lget2 [[1, 0], [1/2, 1]] 1 j * lget2 [[2, 1], [0, 5/2]] j 0) =
      lget2 [[2, 1], [1, 3]] 1 0 ∧
    gaussTolerance ≤ |lget2 [[2, 1], [0, 5/2]] 1 1| := by
  have hdool : doolittle [[2, 1], [1, 3]] [3, 5] =
      .ok ([4/5, 7/5], [[1, 0], [1/2, 1]], [[2, 1], [0, 5/2]]) := by
    norm_num [doolittle, lu_decomposition, luStage, luURow, luLCol,
      forward_substitution, backward_substitution, bwdAux, lcolGet, lget2, lget,
      gaussTolerance, List.range_succ, List.foldlM, except_bind_ok,
      except_bind_error, abs_of_nonneg, abs_of_nonpos]
  have hs := doolittle_spec [[2, 1], [1, 3]] [3, 5] [4/5, 7/5]
    [[1, 0], [1/2, 1]] [[2, 1], [0, 5/2]] (by norm_num) hdool
  exact ⟨hdool, hs.1 1 (by norm_num), hs.2.1 0 1 (by norm_num) (by norm_num),
    hs.2.2.1 1 0 (by norm_num) (by norm_num),
    hs.2.2.2.1 1 (by norm_num) 0 (by norm_num), hs.2.2.2.2 1 (by norm_num)⟩

/-! ## C10: permutation invariance of `hermite_interpolation` -/

/-- Two sorted point lists that are permutations of each other with
pairwise distinct x-keys are equal. -/
theorem sorted_perm_nodup_key_eq :
    ∀ (l₁ l₂ : List (ℚ × ℚ)), l₁.Perm l₂ →
      l₁.Pairwise (fun p q : ℚ × ℚ => p.1 ≤ q.1) →
      l₂.Pairwise (fun p q : ℚ × ℚ => p.1 ≤ q.1) →
      (l₁.map Prod.fst).Nodup → l₁ = l₂ := by
  intro l₁
  induction l₁ with
  | nil =>
    intro l₂ hperm _ _ _
    exact List.Perm.nil_eq hperm
  | cons a t₁ ih =>
    intro l₂ hperm hs₁ hs₂ hnd
    cases l₂ with
    | nil => exact absurd hperm.symm (by simp)
    | cons b t₂ =>
      have hab : a = b := by
        by_contra hne
        have hbl₁ : b ∈ a :: t₁ := hperm.mem_iff.mpr (by simp)
        have hal₂ : a ∈ b :: t₂ := hperm.mem_iff.mp (by simp)
        have hbt₁ : b ∈ t₁ := by
          cases List.mem_cons.mp hbl₁ with
          | inl h => exact absurd h.symm hne
          | inr h => exact h
        have hat₂ : a ∈ t₂ := by
          cases List.mem_cons.mp hal₂ with
          | inl h => exact absurd h hne
          | inr h => exact h
        have h₁ : a.1 ≤ b.1 := (List.pairwise_cons.mp hs₁).1 b hbt₁
        have h₂ : b.1 ≤ a.1 := (List.pairwise_cons.mp hs₂).1 a hat₂
        have hkey : a.1 = b.1 := le_antisymm h₁ h₂
        rw [List.map_cons, List.nodup_cons] at hnd
        exact hnd.1 (hkey ▸ List.mem_map_of_mem Prod.fst hbt₁)
      subst hab
      have htail : t₁.Perm t₂ := hperm.cons_inv
      rw [List.map_cons, List.nodup_cons] at hnd
      rw [ih t₂ htail (List.pairwise_cons.mp hs₁).2 (List.pairwise_cons.mp hs₂).2
        hnd.2]

theorem sortPointsByX_pairwise (l : List (ℚ × ℚ)) :
    (sortPointsByX l).Pairwise (fun p q : ℚ × ℚ => p.1 ≤ q.1) := by
  have h := @List.sorted_mergeSort (ℚ × ℚ)
    (fun p q : ℚ × ℚ => decide (p.1 ≤ q.1))
    (fun a b c hab hbc => by
      simp only [decide_eq_true_eq] at hab hbc ⊢
      exact le_trans hab hbc)
    (fun a b => by
      simp only [Bool.or_eq_true, decide_eq_true_eq]
      exact le_total a.1 b.1)
    l
  exact h.imp (by simp)

theorem sortPointsByX_perm (l : List (ℚ × ℚ)) : (sortPointsByX l).Perm l :=
  List.mergeSort_perm l _

theorem hasExactDuplicate_perm {l₁ l₂ : List ℚ} (h : l₁.Perm l₂) :
    hasExactDuplicate l₁ = hasExactDuplicate l₂ := by
  rw [hasExactDuplicate, hasExactDuplicate, h.length_eq, h.dedup.length_eq]

/-- C10: `hermite_interpolation` is invariant under permutation of its
input point list (both on success, where the sort canonicalizes the
order, and on the validation errors, which depend only on permutation
invariants). -/
theorem hermite_interpolation_perm (pts₁ pts₂ : List (ℚ × ℚ))
    (x_evals : List ℚ) (hperm : pts₁.Perm pts₂) :
    hermite_interpolation pts₁ x_evals = hermite_interpolation pts₂ x_evals := by
  have hlen := hperm.length_eq
  have hxperm : (pts₁.map Prod.fst).Perm (pts₂.map Prod.fst) := hperm.map _
  rw [hermite_interpolation, hermite_interpolation]
  by_cases h2 : pts₁.length < 2
  · have h2b : pts₂.length < 2 := by omega
    rw [if_pos h2, if_pos h2b]
  · have h2b : ¬ pts₂.length < 2 := by omega
    rw [if_neg h2, if_neg h2b]
    dsimp only
    have hdup₂ : hasExactDuplicate (pts₂.map Prod.fst) =
        hasExactDuplicate (pts₁.map Prod.fst) :=
      (hasExactDuplicate_perm hxperm).symm
    by_cases hdup : hasExactDuplicate (pts₁.map Prod.fst) = true
    · have hdupb : hasExactDuplicate (pts₂.map Prod.fst) = true := by
        rw [hdup₂]; exact hdup
      rw [if_pos hdup, if_pos hdupb]
    · have hdupb : ¬ hasExactDuplicate (pts₂.map Prod.fst) = true := by
        rw [hdup₂]; exact hdup
      rw [if_neg hdup, if_neg hdupb]
      have hnodup : (pts₁.map Prod.fst).Nodup := by
        rw [hasExactDuplicate] at hdup
        simp only [decide_eq_true_eq, Decidable.not_not] at hdup
        have hsub : pts₁.map Prod.fst |>.dedup.Sublist (pts₁.map Prod.fst) :=
          List.dedup_sublist _
        have := hsub.eq_of_length (by simpa using hdup)
        rw [← this]
        exact List.nodup_dedup _
      have hsorteq : sortPointsByX pts₁ = sortPointsByX pts₂ := by
        refine sorted_perm_nodup_key_eq _ _
          (((sortPointsByX_perm pts₁).trans hperm).trans
            (sortPointsByX_perm pts₂).symm)
          (sortPointsByX_pairwise pts₁) (sortPointsByX_pairwise pts₂) ?_
        have : ((sortPointsByX pts₁).map Prod.fst).Perm (pts₁.map Prod.fst) :=
          (sortPointsByX_perm pts₁).map _
        exact this.nodup_iff.mpr hnodup
      rw [hsorteq, hlen]

/-- Witness for C10: rotating the spec's three-point Hermite example
leaves the full response unchanged. -/
theorem hermite_interpolation_perm_witness :
    hermite_interpolation [(1, 2), (2, 5), (3, 4)] [1] =
      hermite_interpolation [(3, 4), (1, 2), (2, 5)] [1] :=
  hermite_interpolation_perm _ _ _
    (@List.perm_append_comm (ℚ × ℚ) [(1, 2), (2, 5)] [(3, 4)])

/-! ## Evaluation lemmas for the coefficient-list primitives -/

theorem evaluate_polynomial_cons (a : ℚ) (l : List ℚ) (t : ℚ) :
    evaluate_polynomial (a :: l) t = evaluate_polynomial l t * t + a := rfl

theorem lget_cons_zero (a : ℚ) (l : List ℚ) : lget (a :: l) 0 = a := rfl

theorem lget_cons_succ (a : ℚ) (l : List ℚ) (k : Nat) :
    lget (a :: l) (k + 1) = lget l k := rfl

theorem evaluate_polynomial_eq_sum (c : List ℚ) (t : ℚ) :
    evaluate_polynomial c t = ∑ u ∈ Finset.range c.length, lget c u * t ^ u := by
  induction c with
  | nil => simp [evaluate_polynomial]
  | cons a l ih =>
    rw [evaluate_polynomial_cons, ih, List.length_cons, Finset.sum_range_succ',
      Finset.sum_mul]
    simp only [lget_cons_succ, lget_cons_zero, pow_zero, mul_one]
    congr 1
    refine Finset.sum_congr rfl fun u _ => ?_
    rw [pow_succ]
    ring

theorem lget_set_full (l : List ℚ) (i j : Nat) (v : ℚ) :
    lget (l.set i v) j =
      if i = j ∧ j < l.length then v else lget l j := by
  rcases Nat.lt_or_ge i l.length with hi | hi
  · by_cases hij : i = j
    · subst hij
      rw [lget_set_self _ _ _ hi, if_pos ⟨rfl, hi⟩]
    · rw [lget_set_ne _ _ hij, if_neg (by tauto)]
  · rw [List.set_eq_of_length_le hi]
    rcases Classical.em (i = j) with rfl | hij
    · rw [if_neg (by omega)]
    · rw [if_neg (by tauto)]

theorem foldl_set_add_length (g : Nat → ℚ) (m : Nat) (r : List ℚ) :
    ((List.range m).foldl (fun r j => r.set j (lget r j + g j)) r).length =
      r.length :=
  foldl_length_invariant _ _ _ fun acc b => List.length_set acc b _

/-- Entry description of the shared accumulation-loop shape
`for j in range(m): r[j] += g j` (each index is written once and only
reads itself, so the sequential loop acts entrywise). -/
theorem foldl_set_add_get (g : Nat → ℚ) :
    ∀ (m : Nat) (r : List ℚ) (j : Nat),
      lget ((List.range m).foldl (fun r j => r.set j (lget r j + g j)) r) j =
        lget r j + if j < m ∧ j < r.length then g j else 0 := by
  intro m
  induction m with
  | zero =>
    intro r j
    simp
  | succ m ih =>
    intro r j
    rw [List.range_succ, List.foldl_append, List.foldl_cons, List.foldl_nil,
      lget_set_full, foldl_set_add_length]
    by_cases hjm : m = j ∧ j < r.length
    · rw [if_pos hjm]
      obtain ⟨rfl, hlt⟩ := hjm
      rw [ih, if_neg (by omega), if_pos ⟨by omega, hlt⟩]
      ring
    · rw [if_neg hjm, ih]
      by_cases hj2 : j < m ∧ j < r.length
      · rw [if_pos hj2, if_pos ⟨by omega, hj2.2⟩]
      · rw [if_neg hj2, if_neg (fun hcon => by
          rcases Nat.lt_or_ge j m with h | h
          · exact hj2 ⟨h, hcon.2⟩
          · exact hjm ⟨by omega, hcon.2⟩)]

/-- Evaluation of the accumulation loop: adding `g j` into the first `m`
coefficients adds `Σ_{j<m} g j · tʲ` to the value (when `m` indices fit). -/
theorem foldl_set_add_eval (g : Nat → ℚ) (m : Nat) (r : List ℚ) (t : ℚ)
    (hm : m ≤ r.length) :
    evaluate_polynomial
      ((List.range m).foldl (fun r j => r.set j (lget r j + g j)) r) t =
      evaluate_polynomial r t + ∑ j ∈ Finset.range m, g j * t ^ j := by
  rw [evaluate_polynomial_eq_sum, evaluate_polynomial_eq_sum,
    foldl_set_add_length]
  have : ∀ u ∈ Finset.range r.length,
      lget ((List.range m).foldl (fun r j => r.set j (lget r j + g j)) r) u * t ^ u
        = lget r u * t ^ u + (if u < m then g u * t ^ u else 0) := by
    intro u hu
    rw [foldl_set_add_get]
    by_cases hum : u < m
    · rw [if_pos ⟨hum, by simpa using hu⟩, if_pos hum]
      ring
    · rw [if_neg (by tauto), if_neg hum]
      ring
  rw [Finset.sum_congr rfl this, Finset.sum_add_distrib]
  congr 1
  rw [← Finset.sum_subset (Finset.range_subset.mpr hm)
    (fun u _ hum => if_neg (by simpa using hum))]
  refine Finset.sum_congr rfl ?_
  intro u hu
  rw [if_pos (by simpa using hu)]

theorem mulLinear_get (a : ℚ) (poly : List ℚ) (j : Nat) (hj : j < poly.length + 1) :
    lget (mulLinear a poly) j =
      (if j < poly.length then lget poly j * a else 0) +
        (if 1 ≤ j then lget poly (j - 1) else 0) := by
  rw [mulLinear, lget_range_map, if_pos hj]

/-- Evaluation of multiplication by a linear factor:
`(mulLinear a p)(t) = (t + a) · p(t)`. -/
theorem mulLinear_eval (a : ℚ) (p : List ℚ) (t : ℚ) :
    evaluate_polynomial (mulLinear a p) t = (t + a) * evaluate_polynomial p t := by
  rw [evaluate_polynomial_eq_sum, evaluate_polynomial_eq_sum, mulLinear_length]
  have hsplit : ∀ j ∈ Finset.range (p.length + 1),
      lget (mulLinear a p) j * t ^ j =
        (if j < p.length then lget p j * a * t ^ j else 0) +
          (if 1 ≤ j then lget p (j - 1) * t ^ j else 0) := by
    intro j hj
    rw [mulLinear_get a p j (by simpa using hj)]
    by_cases h1 : j < p.length <;> by_cases h2 : 1 ≤ j <;>
      simp [h1, h2] <;> ring
  rw [Finset.sum_congr rfl hsplit, Finset.sum_add_distrib]
  have hfirst : (∑ j ∈ Finset.range (p.length + 1),
      if j < p.length then lget p j * a * t ^ j else 0) =
      a * ∑ u ∈ Finset.range p.length, lget p u * t ^ u := by
    rw [← Finset.sum_subset (Finset.range_subset.mpr (Nat.le_succ p.length))
      (fun u _ hum => if_neg (by simpa using hum)), Finset.mul_sum]
    refine Finset.sum_congr rfl fun u hu => ?_
    rw [if_pos (by simpa using hu)]
    ring
  have hsecond : (∑ j ∈ Finset.range (p.length + 1),
      if 1 ≤ j then lget p (j - 1) * t ^ j else 0) =
      t * ∑ u ∈ Finset.range p.length, lget p u * t ^ u := by
    rw [Finset.sum_range_succ', Finset.mul_sum]
    simp only [Nat.le_add_left, if_pos, Nat.add_sub_cancel]
    rw [if_neg (by omega)]
    simp only [add_zero]
    refine Finset.sum_congr rfl fun u _ => ?_
    rw [pow_succ]
    ring
  rw [hfirst, hsecond]
  ring

/-- Evaluation of an iterated multiply-by-linear-factor fold. -/
theorem foldl_mulLinear_eval (g : Nat → ℚ) (t : ℚ) :
    ∀ (l : List Nat) (acc : List ℚ),
      evaluate_polynomial (l.foldl (fun p i => mulLinear (g i) p) acc) t =
        evaluate_polynomial acc t * ((l.map fun i => t + g i)).prod := by
  intro l
  induction l with
  | nil => intro acc; simp
  | cons b l ih =>
    intro acc
    rw [List.foldl_cons, ih, mulLinear_eval, List.map_cons, List.prod_cons]
    ring

theorem foldl_mulLinear_length (g : Nat → ℚ) :
    ∀ (l : List Nat) (acc : List ℚ),
      ((l.foldl (fun p i => mulLinear (g i) p) acc)).length =
        acc.length + l.length := by
  intro l
  induction l with
  | nil => intro acc; simp
  | cons b l ih =>
    intro acc
    rw [List.foldl_cons, ih, mulLinear_length, List.length_cons]
    omega

/-- The source's general convolution applied to the linear factor
`[-a, 1]` agrees with `mulLinear (-a)`. -/
theorem multiply_polynomials_linear (p : List ℚ) (a : ℚ) :
    multiply_polynomials p [-a, 1] = mulLinear (-a) p := by
  have hlen : p.length + 2 - 1 = p.length + 1 := by omega
  rw [multiply_polynomials, mulLinear]
  rw [show ([-a, 1] : List ℚ).length = 2 from rfl, hlen]
  refine List.map_congr_left ?_
  intro m hm
  have hm2 : m < p.length + 1 := List.mem_range.mp hm
  have hterm : ∀ i ∈ Finset.range p.length,
      (if i ≤ m ∧ m - i < 2 then lget p i * lget [-a, 1] (m - i) else 0) =
        (if i = m ∧ m < p.length then lget p m * (-a) else 0) +
          (if i = m - 1 ∧ 1 ≤ m then lget p (m - 1) else 0) := by
    intro i hi
    have hip : i < p.length := Finset.mem_range.mp hi
    by_cases him : i = m
    · subst him
      rw [if_pos ⟨le_refl i, by omega⟩, if_pos ⟨rfl, hip⟩,
        if_neg (by omega), add_zero]
      have h0 : i - i = 0 := by omega
      rw [h0]
      rfl
    · by_cases him1 : i = m - 1 ∧ 1 ≤ m
      · obtain ⟨hi1, hm1⟩ := him1
        subst hi1
        rw [if_pos ⟨by omega, by omega⟩, if_neg (by tauto),
          if_pos ⟨rfl, hm1⟩, zero_add]
        have h1 : m - (m - 1) = 1 := by omega
        rw [h1]
        have h2 : lget [-a, 1] 1 = 1 := rfl
        rw [h2, mul_one]
      · rw [if_neg (by omega), if_neg (fun hc => him hc.1), if_neg him1,
          add_zero]
  rw [list_sum_range, Finset.sum_congr rfl hterm, Finset.sum_add_distrib]
  congr 1
  · by_cases hml : m < p.length
    · rw [if_pos hml]
      have h3 : ∀ i ∈ Finset.range p.length,
          (if i = m ∧ m < p.length then lget p m * (-a) else 0) =
            if i = m then lget p m * (-a) else 0 := by
        intro i _
        by_cases h : i = m <;> simp [h, hml]
      rw [Finset.sum_congr rfl h3,
        Finset.sum_ite_eq' (Finset.range p.length) m fun _ => lget p m * (-a),
        if_pos (Finset.mem_range.mpr hml)]
    · rw [if_neg hml]
      exact Finset.sum_eq_zero fun i _ => if_neg (by tauto)
  · by_cases h1m : 1 ≤ m
    · rw [if_pos h1m]
      have h3 : ∀ i ∈ Finset.range p.length,
          (if i = m - 1 ∧ 1 ≤ m then lget p (m - 1) else 0) =
            if i = m - 1 then lget p (m - 1) else 0 := by
        intro i _
        by_cases h : i = m - 1 <;> simp [h, h1m]
      rw [Finset.sum_congr rfl h3,
        Finset.sum_ite_eq' (Finset.range p.length) (m - 1) fun _ => lget p (m - 1),
        if_pos (Finset.mem_range.mpr (by omega))]
    · rw [if_neg h1m]
      exact Finset.sum_eq_zero fun i _ => if_neg (by tauto)

/-! ### Evaluation of the nested-to-standard conversion -/

theorem evaluate_polynomial_set_zero_add (l : List ℚ) (c : ℚ) (t : ℚ) (h : l ≠ []) :
    evaluate_polynomial (l.set 0 (lget l 0 + c)) t = evaluate_polynomial l t + c := by
  cases l with
  | nil => exact absurd rfl h
  | cons a tl =>
    rw [show (a :: tl).set 0 (lget (a :: tl) 0 + c) = (lget (a :: tl) 0 + c) :: tl from rfl,
      evaluate_polynomial_cons, evaluate_polynomial_cons, lget_cons_zero]
    ring

/-- One conversion step multiplies the running value by `(t - a)` and adds
the next nested coefficient `c`. -/
theorem cnsStep_eval (c a : ℚ) (poly : List ℚ) (t : ℚ) :
    evaluate_polynomial (cnsStep c a poly) t =
      (t - a) * evaluate_polynomial poly t + c := by
  have hne : mulLinear (-a) poly ≠ [] := by
    intro hnil
    have hl := mulLinear_length (-a) poly
    rw [hnil] at hl
    simp at hl
  rw [show cnsStep c a poly =
      (mulLinear (-a) poly).set 0 (lget (mulLinear (-a) poly) 0 + c) from rfl,
    evaluate_polynomial_set_zero_add _ _ _ hne, mulLinear_eval]
  ring

/-- Partial Newton-form sum anchored at base index `b`:
`Σ_{j<k} a (b+j) · Π_{u<j} (t - w (b+u))`. -/
def newtonSum (a w : Nat → ℚ) (t : ℚ) (b k : Nat) : ℚ :=
  ∑ j ∈ Finset.range k, a (b + j) * ∏ u ∈ Finset.range j, (t - w (b + u))

theorem newtonSum_shift (a w : Nat → ℚ) (t : ℚ) (b k : Nat) (hb : 1 ≤ b) :
    (t - w (b - 1)) * newtonSum a w t b k + a (b - 1) =
      newtonSum a w t (b - 1) (k + 1) := by
  rw [newtonSum, newtonSum, Finset.sum_range_succ', Finset.mul_sum]
  have hterm : ∀ j ∈ Finset.range k,
      a (b - 1 + (j + 1)) * ∏ u ∈ Finset.range (j + 1), (t - w (b - 1 + u)) =
        (t - w (b - 1)) * (a (b + j) * ∏ u ∈ Finset.range j, (t - w (b + u))) := by
    intro j _
    rw [Finset.prod_range_succ']
    have hidx : b - 1 + (j + 1) = b + j := by omega
    have hfac : ∀ u ∈ Finset.range j, t - w (b - 1 + (u + 1)) = t - w (b + u) := by
      intro u _
      have : b - 1 + (u + 1) = b + u := by omega
      rw [this]
    rw [hidx, Finset.prod_congr rfl hfac, Nat.add_zero]
    ring
  rw [Finset.sum_congr rfl hterm]
  simp

theorem cnsAux_eval (nested nodes : List ℚ) (t : ℚ) :
    ∀ m, m < nested.length →
      evaluate_polynomial (cnsAux nested nodes m) t =
        newtonSum (lget nested) (lget nodes) t (nested.length - 1 - m) (m + 1) := by
  intro m
  induction m with
  | zero =>
    intro _
    rw [cnsAux, newtonSum]
    simp [evaluate_polynomial]
  | succ m ih =>
    intro hm
    have hb : 1 ≤ nested.length - 1 - m := by omega
    rw [cnsAux, cnsStep_eval, ih (by omega)]
    have := newtonSum_shift (lget nested) (lget nodes) t (nested.length - 1 - m) (m + 1) hb
    rw [show nested.length - 1 - (m + 1) = nested.length - 1 - m - 1 from by omega]
    rw [← this]

/-- `convert_nested_to_standard` produces the coefficient list of the
Newton-form polynomial `Σ_j nested_j · Π_{u<j} (t - nodes_u)`. -/
theorem convert_nested_to_standard_eval (nested nodes : List ℚ) (t : ℚ)
    (h : nested ≠ []) :
    evaluate_polynomial (convert_nested_to_standard nested nodes) t =
      newtonSum (lget nested) (lget nodes) t 0 nested.length := by
  have hlen : 1 ≤ nested.length := List.length_pos.mpr h
  rw [convert_nested_to_standard, cnsAux_eval _ _ _ (nested.length - 1) (by omega)]
  rw [show nested.length - 1 - (nested.length - 1) = 0 from by omega,
    show nested.length - 1 + 1 = nested.length from by omega]

/-! ### Generic Newton-form polynomial machinery over a node sequence `z`
and a difference table `Q` satisfying the multiplied divided-difference
recurrence (used for both `bjorck_pereyra` and the Hermite table) -/

/-- `Π_{u<k} (X - z (i+u))` as a polynomial over ℚ. -/
noncomputable def nwOmega (z : Nat → ℚ) (i k : Nat) : Polynomial ℚ :=
  ∏ u ∈ Finset.range k, (Polynomial.X - Polynomial.C (z (i + u)))

/-- Newton-form partial polynomial built from row `i` of the table:
`Σ_{j<k} Q i j · Π_{u<j} (X - z (i+u))`. -/
noncomputable def NPoly (z : Nat → ℚ) (Q : Nat → Nat → ℚ) (i k : Nat) : Polynomial ℚ :=
  ∑ j ∈ Finset.range k, Polynomial.C (Q i j) * nwOmega z i j

theorem nwOmega_eval (z : Nat → ℚ) (i k : Nat) (t : ℚ) :
    (nwOmega z i k).eval t = ∏ u ∈ Finset.range k, (t - z (i + u)) := by
  simp [nwOmega, Polynomial.eval_prod]

theorem NPoly_eval_sum (z : Nat → ℚ) (Q : Nat → Nat → ℚ) (i k : Nat) (t : ℚ) :
    (NPoly z Q i k).eval t =
      ∑ j ∈ Finset.range k, Q i j * ∏ u ∈ Finset.range j, (t - z (i + u)) := by
  simp [NPoly, Polynomial.eval_finset_sum, nwOmega_eval]

theorem nwOmega_succ (z : Nat → ℚ) (i k : Nat) :
    nwOmega z i (k + 1) =
      nwOmega z i k * (Polynomial.X - Polynomial.C (z (i + k))) :=
  Finset.prod_range_succ _ _

theorem nwOmega_succ' (z : Nat → ℚ) (i k : Nat) :
    nwOmega z i (k + 1) =
      (Polynomial.X - Polynomial.C (z i)) * nwOmega z (i + 1) k := by
  rw [nwOmega, Finset.prod_range_succ', nwOmega, Nat.add_zero, mul_comm]
  congr 1
  refine Finset.prod_congr rfl fun u _ => ?_
  rw [show i + (u + 1) = i + 1 + u from by omega]

theorem NPoly_succ (z : Nat → ℚ) (Q : Nat → Nat → ℚ) (i k : Nat) :
    NPoly z Q i (k + 1) =
      NPoly z Q i k + Polynomial.C (Q i k) * nwOmega z i k :=
  Finset.sum_range_succ _ _

theorem nwOmega_eval_zero (z : Nat → ℚ) {i k m : Nat} (h1 : i ≤ m)
    (h2 : m < i + k) :
    (nwOmega z i k).eval (z m) = 0 := by
  rw [nwOmega_eval]
  refine Finset.prod_eq_zero (Finset.mem_range.mpr (show m - i < k by omega)) ?_
  rw [show i + (m - i) = m from by omega, sub_self]

/-- A node repeated at positions `m, m+1` inside the window makes the
derivative of the node product vanish at that node. -/
theorem nwOmega_deriv_eval_zero (z : Nat → ℚ) {i k m : Nat} (h1 : i ≤ m)
    (h2 : m + 1 < i + k) (hz : z (m + 1) = z m) :
    (Polynomial.derivative (nwOmega z i k)).eval (z m) = 0 := by
  induction k with
  | zero => omega
  | succ k ih =>
    rw [nwOmega_succ, Polynomial.derivative_mul]
    simp only [Polynomial.derivative_sub, Polynomial.derivative_X,
      Polynomial.derivative_C, sub_zero, mul_one]
    rw [Polynomial.eval_add, Polynomial.eval_mul]
    rcases Nat.lt_or_ge (m + 1) (i + k) with hlt | hge
    · rw [ih hlt, zero_mul, zero_add, nwOmega_eval_zero z h1 (by omega)]
    · have hik : i + k = m + 1 := by omega
      rw [nwOmega_eval_zero z h1 (by omega), add_zero]
      rw [Polynomial.eval_sub, Polynomial.eval_X, Polynomial.eval_C, hik, hz,
        sub_self, mul_zero]

/-- Row-shift difference identity for Newton-form partial polynomials
(the multiplied-form Neville recurrence). -/
theorem NPoly_row_diff (z : Nat → ℚ) (Q : Nat → Nat → ℚ) (N : Nat)
    (hrec : ∀ i j, 1 ≤ j → i + j < N →
      Q i j * (z (i + j) - z i) = Q (i + 1) (j - 1) - Q i (j - 1)) :
    ∀ k i, i + k + 1 ≤ N →
      NPoly z Q (i + 1) (k + 1) - NPoly z Q i (k + 1) =
        Polynomial.C (Q (i + 1) k - Q i k) * nwOmega z (i + 1) k := by
  intro k
  induction k with
  | zero =>
    intro i _
    rw [NPoly_succ, NPoly_succ, NPoly, NPoly, Finset.range_zero,
      Finset.sum_empty, Finset.sum_empty, nwOmega, nwOmega, Finset.range_zero,
      Finset.prod_empty, Finset.prod_empty]
    simp only [map_sub]
    ring
  | succ k ih =>
    intro i hik
    have hd := ih i (by omega)
    have hr := hrec i (k + 1) (by omega) (by omega)
    rw [show Q (i + 1) (k + 1 - 1) - Q i (k + 1 - 1) = Q (i + 1) k - Q i k
      from by norm_num] at hr
    rw [NPoly_succ z Q (i + 1) (k + 1), NPoly_succ z Q i (k + 1)]
    have homega1 : nwOmega z i (k + 1) =
        (Polynomial.X - Polynomial.C (z i)) * nwOmega z (i + 1) k :=
      nwOmega_succ' z i k
    have homega2 : nwOmega z (i + 1) (k + 1) =
        nwOmega z (i + 1) k * (Polynomial.X - Polynomial.C (z (i + k + 1))) := by
      rw [nwOmega_succ z (i + 1) k, show i + 1 + k = i + k + 1 from by omega]
    have hd' : NPoly z Q (i + 1) (k + 1) =
        NPoly z Q i (k + 1) +
          Polynomial.C (Q (i + 1) k - Q i k) * nwOmega z (i + 1) k := by
      rw [← hd]; ring
    rw [hd', homega1, homega2, ← hr]
    simp only [map_sub, map_mul]
    ring

/-- Value theorem: the full Newton-form polynomial of row `i` takes the
column-0 table value at every node inside its window. -/
theorem NPoly_value (z : Nat → ℚ) (Q : Nat → Nat → ℚ) (N : Nat)
    (hrec : ∀ i j, 1 ≤ j → i + j < N →
      Q i j * (z (i + j) - z i) = Q (i + 1) (j - 1) - Q i (j - 1)) :
    ∀ k i m, i ≤ m → m < i + k → i + k ≤ N →
      (NPoly z Q i k).eval (z m) = Q m 0 := by
  intro k
  induction k with
  | zero => intro i m h1 h2 _; omega
  | succ k ih =>
    intro i m h1 h2 h3
    rcases Nat.lt_or_ge m (i + k) with hlt | hge
    · rw [NPoly_succ, Polynomial.eval_add, Polynomial.eval_mul,
        Polynomial.eval_C, nwOmega_eval_zero z h1 hlt, mul_zero, add_zero]
      exact ih i m h1 hlt (by omega)
    · have hm : m = i + k := by omega
      rcases Nat.eq_zero_or_pos k with hk0 | hkpos
      · subst hk0
        have hmi : m = i := by omega
        subst hmi
        rw [NPoly_succ, NPoly, Finset.range_zero, Finset.sum_empty, nwOmega,
          Finset.range_zero, Finset.prod_empty, zero_add, mul_one,
          Polynomial.eval_C]
      · have hdiff := NPoly_row_diff z Q N hrec k i (by omega)
        have hzero1 : (nwOmega z (i + 1) k).eval (z m) = 0 :=
          nwOmega_eval_zero z (by omega) (by omega)
        have heq : (NPoly z Q i (k + 1)).eval (z m) =
            (NPoly z Q (i + 1) (k + 1)).eval (z m) := by
          have := congrArg (Polynomial.eval (z m)) hdiff
          rw [Polynomial.eval_sub, Polynomial.eval_mul, Polynomial.eval_C,
            hzero1, mul_zero] at this
          linarith
        rw [heq, NPoly_succ, Polynomial.eval_add, Polynomial.eval_mul,
          Polynomial.eval_C, hzero1, mul_zero, add_zero]
        exact ih (i + 1) m (by omega) (by omega) (by omega)

/-- Derivative theorem: at a node doubled at positions `m, m+1`, the
derivative of the full Newton-form polynomial takes the column-1 table
value. -/
theorem NPoly_deriv (z : Nat → ℚ) (Q : Nat → Nat → ℚ) (N : Nat)
    (hrec : ∀ i j, 1 ≤ j → i + j < N →
      Q i j * (z (i + j) - z i) = Q (i + 1) (j - 1) - Q i (j - 1)) :
    ∀ k i m, i ≤ m → m + 1 < i + k → i + k ≤ N → z (m + 1) = z m →
      (Polynomial.derivative (NPoly z Q i k)).eval (z m) = Q m 1 := by
  intro k
  induction k with
  | zero => intro i m h1 h2 _ _; omega
  | succ k ih =>
    intro i m h1 h2 h3 hz
    rcases Nat.lt_or_ge (m + 1) (i + k) with hlt | hge
    · rw [NPoly_succ, Polynomial.derivative_add, Polynomial.derivative_C_mul,
        Polynomial.eval_add, Polynomial.eval_mul, Polynomial.eval_C,
        nwOmega_deriv_eval_zero z h1 hlt hz, mul_zero, add_zero]
      exact ih i m h1 hlt (by omega) hz
    · have hm1 : m + 1 = i + k := by omega
      rcases Nat.lt_or_ge i m with him | him
      · -- interior doubled node: shift one row down, then truncate
        have hk2 : 2 ≤ k := by omega
        have hdiff := NPoly_row_diff z Q N hrec k i (by omega)
        have hdz : (Polynomial.derivative (nwOmega z (i + 1) k)).eval (z m) = 0 :=
          nwOmega_deriv_eval_zero z (by omega) (by omega) hz
        have heq : (Polynomial.derivative (NPoly z Q i (k + 1))).eval (z m) =
            (Polynomial.derivative (NPoly z Q (i + 1) (k + 1))).eval (z m) := by
          have := congrArg
            (fun p => (Polynomial.derivative p).eval (z m)) hdiff
          simp only [Polynomial.derivative_sub, Polynomial.derivative_C_mul,
            Polynomial.eval_sub, Polynomial.eval_mul, Polynomial.eval_C] at this
          rw [hdz, mul_zero] at this
          linarith
        rw [heq, NPoly_succ, Polynomial.derivative_add,
          Polynomial.derivative_C_mul, Polynomial.eval_add,
          Polynomial.eval_mul, Polynomial.eval_C, hdz, mul_zero, add_zero]
        exact ih (i + 1) m (by omega) (by omega) (by omega) hz
      · -- m = i: the window is exactly the doubled pair, k = 1
        have hmi : m = i := by omega
        have hk1 : k = 1 := by omega
        subst hmi hk1
        rw [NPoly_succ, NPoly_succ, NPoly, Finset.range_zero, Finset.sum_empty,
          zero_add]
        rw [show nwOmega z m 0 = 1 from Finset.prod_range_zero _,
          show nwOmega z m 1 = Polynomial.X - Polynomial.C (z (m + 0)) from
            by rw [nwOmega, Finset.prod_range_one]]
        simp [Polynomial.derivative_sub]

/-! ### Coefficient lists as polynomials: evaluation and derivative bridges -/

/-- The polynomial over ℚ whose coefficient list is `c`. -/
noncomputable def toPoly (c : List ℚ) : Polynomial ℚ :=
  ∑ j ∈ Finset.range c.length, Polynomial.C (lget c j) * Polynomial.X ^ j

theorem toPoly_eval (c : List ℚ) (t : ℚ) :
    (toPoly c).eval t = evaluate_polynomial c t := by
  rw [evaluate_polynomial_eq_sum, toPoly, Polynomial.eval_finset_sum]
  simp

/-- `derivCoeffs` is the coefficient list of the formal derivative. -/
theorem derivCoeffs_eval (c : List ℚ) (t : ℚ) :
    evaluate_polynomial (derivCoeffs c) t =
      (Polynomial.derivative (toPoly c)).eval t := by
  rw [toPoly, Polynomial.derivative_sum, Polynomial.eval_finset_sum,
    evaluate_polynomial_eq_sum, derivCoeffs, List.length_map,
    List.length_range]
  cases hc : c.length with
  | zero => simp
  | succ n =>
    rw [Finset.sum_range_succ']
    have hzero :
        Polynomial.eval t (Polynomial.derivative
          (Polynomial.C (lget c 0) * Polynomial.X ^ 0)) = 0 := by
      simp
    rw [hzero, add_zero, show n + 1 - 1 = n from rfl]
    refine Finset.sum_congr rfl fun u hu => ?_
    rw [lget_range_map, if_pos (Finset.mem_range.mp hu),
      Polynomial.derivative_C_mul, Polynomial.derivative_X_pow]
    push_cast
    simp only [Polynomial.eval_mul, Polynomial.eval_C, Polynomial.eval_pow,
      Polynomial.eval_X, Nat.add_sub_cancel]
    ring

/-! ### The Hermite divided-difference table as an instance of the generic
machinery -/

/-- Node sequence of the Hermite construction (each `x`-value doubled). -/
def hermiteZ (x : List ℚ) (m : Nat) : ℚ := lget (doubled x) m

/-- Entry `Q[i][j]` of the Hermite divided-difference table. -/
def hermiteQ (x y dy : List ℚ) (i j : Nat) : ℚ := lget (hermiteCol x y dy j) i

theorem doubled_length (l : List ℚ) : (doubled l).length = 2 * l.length := by
  induction l with
  | nil => rfl
  | cons a t ih =>
    rw [doubled, List.length_cons, List.length_cons, ih, List.length_cons]
    omega

theorem lget_doubled (l : List ℚ) :
    ∀ m, m < 2 * l.length → lget (doubled l) m = lget l (m / 2) := by
  induction l with
  | nil => intro m hm; simp at hm
  | cons a t ih =>
    intro m hm
    match m with
    | 0 => rfl
    | 1 => rfl
    | m + 2 =>
      rw [doubled, lget_cons_succ, lget_cons_succ, ih m (by
        rw [List.length_cons] at hm; omega)]
      rw [show (m + 2) / 2 = m / 2 + 1 from by omega, lget_cons_succ]

theorem hermiteZ_even (x : List ℚ) (i : Nat) (hi : i < x.length) :
    hermiteZ x (2 * i) = lget x i := by
  rw [hermiteZ, lget_doubled x (2 * i) (by omega)]
  rw [show 2 * i / 2 = i from by omega]

theorem hermiteZ_odd (x : List ℚ) (i : Nat) (hi : i < x.length) :
    hermiteZ x (2 * i + 1) = lget x i := by
  rw [hermiteZ, lget_doubled x (2 * i + 1) (by omega)]
  rw [show (2 * i + 1) / 2 = i from by omega]

theorem hermiteZ_pair (x : List ℚ) (m : Nat) (hm : m % 2 = 0)
    (hmlt : m + 1 < 2 * x.length) :
    hermiteZ x (m + 1) = hermiteZ x m := by
  have h1 : hermiteZ x (m + 1) = lget x (m / 2) := by
    rw [show m + 1 = 2 * (m / 2) + 1 from by omega, hermiteZ_odd _ _ (by omega)]
  have h2 := hermiteZ_even x (m / 2) (by omega)
  rw [show 2 * (m / 2) = m from by omega] at h2
  rw [h1, h2]

/-- Pairwise gap lower bound from the consecutive-gap hypothesis. -/
theorem lget_gap_lower (x : List ℚ) (δ : ℚ) (hδ : 0 < δ)
    (hgap : ∀ i, i + 1 < x.length → δ ≤ lget x (i + 1) - lget x i) (a : Nat) :
    ∀ b, a < b → b < x.length → δ ≤ lget x b - lget x a := by
  intro b
  induction b with
  | zero => omega
  | succ b ih =>
    intro hab hb
    rcases Nat.lt_or_ge a b with h | h
    · have h1 := ih h (by omega)
      have h2 := hgap b hb
      linarith
    · have hba : b = a := by omega
      subst hba
      exact hgap b hb

theorem hermiteQ_zero (x y dy : List ℚ) (i : Nat) (hi : i < 2 * y.length) :
    hermiteQ x y dy i 0 = lget y (i / 2) := by
  have hcol : hermiteCol x y dy 0 = doubled y := rfl
  rw [hermiteQ, hcol, lget_doubled y i hi]

theorem hermiteQ_one_even (x y dy : List ℚ) (i : Nat) (hi : i < 2 * x.length)
    (he : i % 2 = 0) : hermiteQ x y dy i 1 = lget dy (i / 2) := by
  have hcol : hermiteCol x y dy 1 =
      (List.range (2 * x.length)).map fun r : Nat =>
        if r % 2 = 0 then lget dy (r / 2)
        else if r + 1 < 2 * x.length then
          (lget (doubled y) (r + 1) - lget (doubled y) r) /
            (lget (doubled x) (r + 1) - lget (doubled x) r)
        else 0 := rfl
  rw [hermiteQ, hcol, lget_range_map, if_pos hi, if_pos he]

theorem hermiteQ_one_odd (x y dy : List ℚ) (i : Nat) (hio : i % 2 = 1)
    (hi1 : i + 1 < 2 * x.length) :
    hermiteQ x y dy i 1 =
      (lget (doubled y) (i + 1) - lget (doubled y) i) /
        (hermiteZ x (i + 1) - hermiteZ x i) := by
  have hcol : hermiteCol x y dy 1 =
      (List.range (2 * x.length)).map fun r : Nat =>
        if r % 2 = 0 then lget dy (r / 2)
        else if r + 1 < 2 * x.length then
          (lget (doubled y) (r + 1) - lget (doubled y) r) /
            (lget (doubled x) (r + 1) - lget (doubled x) r)
        else 0 := rfl
  rw [hermiteQ, hcol, lget_range_map, if_pos (by omega), if_neg (by omega),
    if_pos hi1]
  rfl

theorem hermiteQ_succ2 (x y dy : List ℚ) (i j : Nat)
    (hij : i + (j + 2) < 2 * x.length) :
    hermiteQ x y dy i (j + 2) =
      if |hermiteZ x (i + (j + 2)) - hermiteZ x i| < hermiteGuard then 0
      else (hermiteQ x y dy (i + 1) (j + 1) - hermiteQ x y dy i (j + 1)) /
        (hermiteZ x (i + (j + 2)) - hermiteZ x i) := by
  have hcol : hermiteCol x y dy (j + 2) =
      hermiteNextCol (doubled x) (j + 2) (hermiteCol x y dy (j + 1)) := rfl
  rw [hermiteQ, hcol, hermiteNextCol, lget_range_map,
    if_pos (by rw [doubled_length]; omega)]
  rfl

/-- The Hermite table satisfies the multiplied divided-difference
recurrence at every in-range position, provided consecutive nodes are at
least `hermiteGuard` apart (so the near-zero-denominator guard never
fires). -/
theorem hermite_hrec (x y dy : List ℚ) (hy : y.length = x.length)
    (hgap : ∀ i, i + 1 < x.length → hermiteGuard ≤ lget x (i + 1) - lget x i) :
    ∀ i j, 1 ≤ j → i + j < 2 * x.length →
      hermiteQ x y dy i j * (hermiteZ x (i + j) - hermiteZ x i) =
        hermiteQ x y dy (i + 1) (j - 1) - hermiteQ x y dy i (j - 1) := by
  have hguard_pos : (0:ℚ) < hermiteGuard := by norm_num [hermiteGuard]
  have hQ0 : ∀ r, hermiteQ x y dy r 0 = lget (doubled y) r := fun r => rfl
  intro i j hj hij
  match j, hj with
  | 1, _ =>
    rcases Nat.even_or_odd i with he | ho
    · -- even row of column 1: both sides vanish
      have he2 : i % 2 = 0 := Nat.even_iff.mp he
      rw [show (1:Nat) - 1 = 0 from rfl, hQ0, hQ0,
        hermiteZ_pair x i he2 (by omega), sub_self, mul_zero]
      rw [show lget (doubled y) (i + 1) = lget y ((i + 1) / 2) from
          lget_doubled y (i + 1) (by omega),
        show lget (doubled y) i = lget y (i / 2) from
          lget_doubled y i (by omega),
        show (i + 1) / 2 = i / 2 from by omega, sub_self]
    · -- odd row of column 1: ordinary divided difference
      have ho2 : i % 2 = 1 := Nat.odd_iff.mp ho
      have hzi1 : hermiteZ x (i + 1) = lget x (i / 2 + 1) := by
        have := hermiteZ_even x (i / 2 + 1) (by omega)
        rwa [show 2 * (i / 2 + 1) = i + 1 from by omega] at this
      have hzi : hermiteZ x i = lget x (i / 2) := by
        have := hermiteZ_odd x (i / 2) (by omega)
        rwa [show 2 * (i / 2) + 1 = i from by omega] at this
      have hne : hermiteZ x (i + 1) - hermiteZ x i ≠ 0 := by
        have := hgap (i / 2) (by omega)
        rw [hzi1, hzi]
        intro hcon
        rw [sub_eq_zero] at hcon
        rw [hcon] at this
        simp at this
        linarith
      rw [show (1:Nat) - 1 = 0 from rfl, hQ0, hQ0,
        hermiteQ_one_odd x y dy i ho2 (by omega),
        div_mul_cancel₀ _ hne]
  | (j + 2), _ =>
    have hupper : (i + (j + 2)) / 2 < x.length := by omega
    have hlower : i / 2 < (i + (j + 2)) / 2 := by omega
    have hzu : hermiteZ x (i + (j + 2)) = lget x ((i + (j + 2)) / 2) := by
      rw [hermiteZ, lget_doubled x _ (by omega)]
    have hzl : hermiteZ x i = lget x (i / 2) := by
      rw [hermiteZ, lget_doubled x _ (by omega)]
    have hgap2 : hermiteGuard ≤
        hermiteZ x (i + (j + 2)) - hermiteZ x i := by
      rw [hzu, hzl]
      exact lget_gap_lower x hermiteGuard hguard_pos hgap (i / 2)
        ((i + (j + 2)) / 2) hlower hupper
    have hne : hermiteZ x (i + (j + 2)) - hermiteZ x i ≠ 0 := by
      intro hcon
      rw [hcon] at hgap2
      linarith
    rw [hermiteQ_succ2 x y dy i j hij,
      if_neg (by
        rw [abs_of_nonneg (by linarith), not_lt]
        exact hgap2),
      div_mul_cancel₀ _ hne]
    rfl

theorem newtonSum_eq_NPoly (z : Nat → ℚ) (Q : Nat → Nat → ℚ) (a : Nat → ℚ)
    (k : Nat) (t : ℚ) (ha : ∀ j, j < k → a j = Q 0 j) :
    newtonSum a z t 0 k = (NPoly z Q 0 k).eval t := by
  rw [NPoly_eval_sum, newtonSum]
  refine Finset.sum_congr rfl fun j hj => ?_
  rw [Nat.zero_add, ha j (Finset.mem_range.mp hj)]

/-- `get_hermite_coefficients` returns the coefficient list of the full
Newton-form polynomial over the doubled nodes and the Hermite table. -/
theorem get_hermite_coefficients_eval (x y dy : List ℚ) (hn : 1 ≤ x.length)
    (t : ℚ) :
    evaluate_polynomial (get_hermite_coefficients x y dy) t =
      (NPoly (hermiteZ x) (hermiteQ x y dy) 0 (2 * x.length)).eval t := by
  have hstruct : get_hermite_coefficients x y dy =
      convert_nested_to_standard
        ((List.range (2 * x.length)).map fun j => lget (hermiteCol x y dy j) 0)
        (doubled x) := rfl
  have hlen : ((List.range (2 * x.length)).map
      fun j => lget (hermiteCol x y dy j) 0).length = 2 * x.length := by
    rw [List.length_map, List.length_range]
  have hne : ((List.range (2 * x.length)).map
      fun j => lget (hermiteCol x y dy j) 0) ≠ [] := by
    intro hnil
    have hl0 := congrArg List.length hnil
    rw [hlen] at hl0
    have h2 : 2 * x.length = 0 := by simpa using hl0
    omega
  rw [hstruct, convert_nested_to_standard_eval _ _ _ hne, hlen]
  refine newtonSum_eq_NPoly _ _ _ _ _ fun j hj => ?_
  rw [lget_range_map, if_pos hj]
  rfl

/-- Exactness of the Hermite coefficients under the gap condition (shared
working lemma). -/
theorem hermite_exact_aux (x y dy : List ℚ)
    (hy : y.length = x.length) (hdy : dy.length = x.length)
    (hn : 1 ≤ x.length)
    (hgap : ∀ i, i + 1 < x.length → hermiteGuard ≤ lget x (i + 1) - lget x i) :
    ∀ i, i < x.length →
      evaluate_polynomial (get_hermite_coefficients x y dy) (lget x i) =
        lget y i ∧
      evaluate_polynomial (derivCoeffs (get_hermite_coefficients x y dy))
        (lget x i) = lget dy i := by
  intro i hi
  have hrec := hermite_hrec x y dy hy hgap
  have heval := get_hermite_coefficients_eval x y dy hn
  constructor
  · rw [heval, ← hermiteZ_even x i hi,
      NPoly_value (hermiteZ x) (hermiteQ x y dy) (2 * x.length) hrec
        (2 * x.length) 0 (2 * i) (by omega) (by omega) (by omega),
      hermiteQ_zero x y dy (2 * i) (by omega),
      show 2 * i / 2 = i from by omega]
  · have hpoly : toPoly (get_hermite_coefficients x y dy) =
        NPoly (hermiteZ x) (hermiteQ x y dy) 0 (2 * x.length) :=
      Polynomial.funext fun t => by rw [toPoly_eval, heval]
    rw [derivCoeffs_eval, hpoly, ← hermiteZ_even x i hi,
      NPoly_deriv (hermiteZ x) (hermiteQ x y dy) (2 * x.length) hrec
        (2 * x.length) 0 (2 * i) (by omega) (by omega) (by omega)
        (hermiteZ_pair x (2 * i) (by omega) (by omega)),
      hermiteQ_one_even x y dy (2 * i) (by omega) (by omega),
      show 2 * i / 2 = i from by omega]

/-- C3 (amended): when every pair of consecutive nodes is at least the
table guard `1e-15` apart (in particular the node list is strictly
increasing), the polynomial returned by `get_hermite_coefficients` matches
every supplied value and every supplied derivative exactly: the
divided-difference table encodes each derivative directly at the even rows
of column 1. Without the gap condition the guard zeroes table entries and
the property fails (see the counterexample). -/
theorem hermite_coefficients_spec (x y dy : List ℚ)
    (hy : y.length = x.length) (hdy : dy.length = x.length)
    (hn : 1 ≤ x.length)
    (hgap : ∀ i, i + 1 < x.length → hermiteGuard ≤ lget x (i + 1) - lget x i) :
    ∀ i, i < x.length →
      evaluate_polynomial (get_hermite_coefficients x y dy) (lget x i) =
        lget y i ∧
      evaluate_polynomial (derivCoeffs (get_hermite_coefficients x y dy))
        (lget x i) = lget dy i :=
  hermite_exact_aux x y dy hy hdy hn hgap

/-- Witness for C3: on nodes `[0, 1]` with values `[0, 1]` and derivatives
`[1, 1]` the Hermite polynomial reproduces the data at node index 1. -/
theorem hermite_coefficients_spec_witness :
    evaluate_polynomial (get_hermite_coefficients [0, 1] [0, 1] [1, 1])
        (lget [0, 1] 1) = lget [0, 1] 1 ∧
    evaluate_polynomial (derivCoeffs (get_hermite_coefficients [0, 1] [0, 1] [1, 1]))
        (lget [0, 1] 1) = lget [1, 1] 1 :=
  hermite_coefficients_spec [0, 1] [0, 1] [1, 1] rfl rfl (by norm_num)
    (by
      intro i hi
      have hi0 : i = 0 := by
        simp only [List.length_cons, List.length_nil] at hi
        omega
      subst hi0
      norm_num [hermiteGuard, lget])
    1 (by norm_num)

/-- C3 counterexample: the nodes `[0, 1e-16]` are strictly increasing and
pairwise distinct with matching list lengths, yet the `1e-15` guard zeroes
the whole divided-difference table: the returned polynomial is identically
zero and fails to reproduce `y₁ = 1` (and the derivative `dy₁ = 0` claim
holds only vacuously through that zero polynomial). -/
theorem hermite_guard_counterexample :
    lget ([0, 1/10^16] : List ℚ) 0 < lget [0, 1/10^16] 1 ∧
    get_hermite_coefficients [0, 1/10^16] [0, 1] [0, 0] = [0, 0, 0, 0] ∧
    evaluate_polynomial
      (get_hermite_coefficients [0, 1/10^16] [0, 1] [0, 0])
      (lget [0, 1/10^16] 1) ≠ lget ([0, 1] : List ℚ) 1 := by
  have habs : |(1:ℚ) / 10000000000000000| = 1 / 10000000000000000 :=
    abs_of_nonneg (by norm_num)
  refine ⟨by norm_num [lget], ?_, ?_⟩
  · norm_num [get_hermite_coefficients, hermiteCol, hermiteCol1,
      hermiteNextCol, doubled, convert_nested_to_standard, cnsAux, cnsStep,
      mulLinear, hermiteGuard, lget, List.range_succ, habs]
  · norm_num [get_hermite_coefficients, hermiteCol, hermiteCol1,
      hermiteNextCol, doubled, convert_nested_to_standard, cnsAux, cnsStep,
      mulLinear, hermiteGuard, lget, List.range_succ, evaluate_polynomial, habs]

/-! ### Lagrange exactness -/

theorem hasExactDuplicate_false_iff (xs : List ℚ) :
    hasExactDuplicate xs = false ↔ xs.Nodup := by
  constructor
  · intro h
    rw [hasExactDuplicate] at h
    simp only [decide_eq_false_iff_not, Decidable.not_not] at h
    have hsub : xs.dedup.Sublist xs := List.dedup_sublist xs
    have := hsub.eq_of_length h
    rw [← this]
    exact xs.nodup_dedup
  · intro h
    rw [hasExactDuplicate, List.dedup_eq_self.mpr h]
    simp

/-- The basis-polynomial fold of `get_lagrange_coefficients` evaluates to
the product of the surviving linear factors. -/
theorem lagrange_basis_fold_eval (xv : List ℚ) (k : Nat) (t : ℚ) :
    ∀ (l : List Nat) (acc : List ℚ),
      evaluate_polynomial
        (l.foldl (fun acc i =>
          if i ≠ k then multiply_polynomials acc [-(lget xv i), 1] else acc) acc) t =
        evaluate_polynomial acc t *
          ((l.filter fun i => i ≠ k).map fun i => t - lget xv i).prod := by
  intro l
  induction l with
  | nil => intro acc; simp
  | cons b l ih =>
    intro acc
    rw [List.foldl_cons]
    by_cases hb : b ≠ k
    · rw [if_pos hb, ih, multiply_polynomials_linear, mulLinear_eval,
        List.filter_cons_of_pos (by simpa using hb), List.map_cons,
        List.prod_cons]
      ring
    · rw [if_neg hb, ih, List.filter_cons_of_neg (by simpa using hb)]

theorem lagrange_basis_fold_length (xv : List ℚ) (k : Nat) :
    ∀ (l : List Nat) (acc : List ℚ),
      (l.foldl (fun acc i =>
        if i ≠ k then multiply_polynomials acc [-(lget xv i), 1] else acc) acc).length =
        acc.length + (l.filter fun i => i ≠ k).length := by
  intro l
  induction l with
  | nil => intro acc; simp
  | cons b l ih =>
    intro acc
    rw [List.foldl_cons]
    by_cases hb : b ≠ k
    · rw [if_pos hb, ih, multiply_polynomials_linear, mulLinear_length,
        List.filter_cons_of_pos (by simpa using hb), List.length_cons]
      omega
    · rw [if_neg hb, ih, List.filter_cons_of_neg (by simpa using hb)]

/-- The denominator fold of `get_lagrange_coefficients` is the product of
the node differences. -/
theorem lagrange_denom_fold (xv : List ℚ) (k : Nat) :
    ∀ (l : List Nat) (acc : ℚ),
      l.foldl (fun acc i =>
          if i ≠ k then acc * (lget xv k - lget xv i) else acc) acc =
        acc * ((l.filter fun i => i ≠ k).map fun i => lget xv k - lget xv i).prod := by
  intro l
  induction l with
  | nil => intro acc; simp
  | cons b l ih =>
    intro acc
    rw [List.foldl_cons]
    by_cases hb : b ≠ k
    · rw [if_pos hb, ih, List.filter_cons_of_pos (by simpa using hb),
        List.map_cons, List.prod_cons]
      ring
    · rw [if_neg hb, ih, List.filter_cons_of_neg (by simpa using hb)]

theorem filter_ne_range_length (n k : Nat) (hk : k < n) :
    ((List.range n).filter fun i => i ≠ k).length = n - 1 := by
  induction n with
  | zero => omega
  | succ n ih =>
    rw [List.range_succ, List.filter_append]
    rcases Nat.lt_or_ge k n with h | h
    · rw [List.length_append, ih h,
        show List.filter (fun i => decide (i ≠ k)) [n] = [n] from by
          simp; omega]
      simp
      omega
    · have hkn : k = n := by omega
      subst hkn
      rw [show List.filter (fun i => decide (i ≠ k)) [k] = [] from by simp,
        List.append_nil,
        List.filter_eq_self.mpr fun a ha => by
          simp only [decide_eq_true_eq]
          have := List.mem_range.mp ha
          omega]
      simp

/-- One iteration of the outer `for k in range(n)` loop of
`get_lagrange_coefficients` (build `L_k`, its denominator, and add the
scaled basis coefficients into the running result). -/
def lagrangeTermStep (xv yv : List ℚ) (n : Nat) (result_coeffs : List ℚ)
    (k : Nat) : List ℚ :=
  let L_k := (List.range n).foldl
    (fun acc i => if i ≠ k then multiply_polynomials acc [-(lget xv i), 1] else acc)
    [1]
  let denominator := (List.range n).foldl
    (fun acc i => if i ≠ k then acc * (lget xv k - lget xv i) else acc) 1
  (List.range L_k.length).foldl
    (fun r j => r.set j (lget r j + lget L_k j / denominator * lget yv k))
    result_coeffs

theorem get_lagrange_coefficients_as_fold (points : List (ℚ × ℚ)) :
    get_lagrange_coefficients points =
      (List.range points.length).foldl
        (lagrangeTermStep (points.map Prod.fst) (points.map Prod.snd)
          points.length)
        (List.replicate points.length 0) := rfl

theorem lget_replicate_zero (n j : Nat) : lget (List.replicate n (0:ℚ)) j = 0 := by
  rw [lget_eq_getElem?, List.getElem?_replicate]
  rcases Classical.em (j < n) with h | h
  · rw [if_pos h]; rfl
  · rw [if_neg h]; rfl

theorem evaluate_polynomial_replicate_zero (n : Nat) (t : ℚ) :
    evaluate_polynomial (List.replicate n (0:ℚ)) t = 0 := by
  rw [evaluate_polynomial_eq_sum]
  refine Finset.sum_eq_zero fun u _ => ?_
  rw [lget_replicate_zero, zero_mul]

theorem lagrangeTermStep_length (xv yv : List ℚ) (n : Nat) (r : List ℚ)
    (k : Nat) : (lagrangeTermStep xv yv n r k).length = r.length :=
  foldl_set_add_length _ _ _

/-- Evaluation of one outer-loop iteration: it adds
`y_k · L_k(t) / D_k` to the running polynomial value. -/
theorem lagrangeTermStep_eval (xv yv : List ℚ) (n : Nat) (r : List ℚ)
    (k : Nat) (t : ℚ) (hk : k < n) (hr : r.length = n) :
    evaluate_polynomial (lagrangeTermStep xv yv n r k) t =
      evaluate_polynomial r t +
        lget yv k *
          ((((List.range n).filter fun i => i ≠ k).map
              fun i => t - lget xv i).prod /
            (((List.range n).filter fun i => i ≠ k).map
              fun i => lget xv k - lget xv i).prod) := by
  have hLlen : ((List.range n).foldl
      (fun acc i => if i ≠ k then multiply_polynomials acc [-(lget xv i), 1] else acc)
      [1]).length = n := by
    rw [lagrange_basis_fold_length, filter_ne_range_length n k hk]
    simp
    omega
  rw [show lagrangeTermStep xv yv n r k =
      (List.range (((List.range n).foldl
        (fun acc i => if i ≠ k then multiply_polynomials acc [-(lget xv i), 1] else acc)
        [1]).length)).foldl
        (fun r j => r.set j (lget r j +
          lget ((List.range n).foldl
            (fun acc i => if i ≠ k then multiply_polynomials acc [-(lget xv i), 1] else acc)
            [1]) j /
            ((List.range n).foldl
              (fun acc i => if i ≠ k then acc * (lget xv k - lget xv i) else acc) 1) *
          lget yv k))
        r from rfl,
    foldl_set_add_eval _ _ _ _ (by rw [hLlen, hr])]
  congr 1
  rw [lagrange_denom_fold xv k (List.range n) 1, one_mul]
  set L := (List.range n).foldl
    (fun acc i => if i ≠ k then multiply_polynomials acc [-(lget xv i), 1] else acc)
    [1] with hL
  set D := (((List.range n).filter fun i => i ≠ k).map
    fun i => lget xv k - lget xv i).prod with hD
  have hsum : ∑ j ∈ Finset.range L.length, lget L j / D * lget yv k * t ^ j =
      (∑ j ∈ Finset.range L.length, lget L j * t ^ j) * (lget yv k / D) := by
    rw [Finset.sum_mul]
    refine Finset.sum_congr rfl fun j _ => ?_
    ring
  rw [hsum, ← evaluate_polynomial_eq_sum, hL, lagrange_basis_fold_eval,
    show evaluate_polynomial [1] t = 1 from by
      rw [evaluate_polynomial_cons, show evaluate_polynomial [] t = 0 from rfl]
      ring,
    one_mul]
  ring

/-- Evaluation of the whole outer fold of `get_lagrange_coefficients`. -/
theorem lagrange_fold_eval (xv yv : List ℚ) (n : Nat) (t : ℚ) :
    ∀ (l : List Nat) (acc : List ℚ), acc.length = n → (∀ k ∈ l, k < n) →
      evaluate_polynomial (l.foldl (lagrangeTermStep xv yv n) acc) t =
        evaluate_polynomial acc t +
          (l.map fun k => lget yv k *
            ((((List.range n).filter fun i => i ≠ k).map
                fun i => t - lget xv i).prod /
              (((List.range n).filter fun i => i ≠ k).map
                fun i => lget xv k - lget xv i).prod)).sum := by
  intro l
  induction l with
  | nil => intro acc _ _; simp
  | cons b l ih =>
    intro acc hacc hmem
    rw [List.foldl_cons, ih _ (by rw [lagrangeTermStep_length, hacc])
        (fun k hk => hmem k (List.mem_cons_of_mem b hk)),
      lagrangeTermStep_eval xv yv n acc b t (hmem b (List.mem_cons_self b l)) hacc,
      List.map_cons, List.sum_cons]
    ring

/-- `get_lagrange_coefficients` evaluates to the Lagrange interpolation
sum. -/
theorem get_lagrange_coefficients_eval (points : List (ℚ × ℚ)) (t : ℚ) :
    evaluate_polynomial (get_lagrange_coefficients points) t =
      ((List.range points.length).map fun k => lget (points.map Prod.snd) k *
        ((((List.range points.length).filter fun i => i ≠ k).map
            fun i => t - lget (points.map Prod.fst) i).prod /
          (((List.range points.length).filter fun i => i ≠ k).map
            fun i => lget (points.map Prod.fst) k - lget (points.map Prod.fst) i).prod)).sum := by
  rw [get_lagrange_coefficients_as_fold,
    lagrange_fold_eval _ _ _ t (List.range points.length)
      (List.replicate points.length 0) (by simp)
      (fun k hk => List.mem_range.mp hk),
    evaluate_polynomial_replicate_zero, zero_add]

/-- Exactness of the Lagrange coefficients at every node (distinct
x-values). -/
theorem get_lagrange_coefficients_exact (points : List (ℚ × ℚ))
    (hnodup : (points.map Prod.fst).Nodup) (m : Nat)
    (hm : m < points.length) :
    evaluate_polynomial (get_lagrange_coefficients points)
        (lget (points.map Prod.fst) m) =
      lget (points.map Prod.snd) m := by
  set xv := points.map Prod.fst with hxv
  set yv := points.map Prod.snd with hyv
  have hxlen : xv.length = points.length := by rw [hxv, List.length_map]
  have hne : ∀ i, i < points.length → i ≠ m → lget xv i ≠ lget xv m := by
    intro i hi hne hcon
    have hi' : i < xv.length := by omega
    have hm' : m < xv.length := by omega
    rw [lget_eq_getElem?, lget_eq_getElem?, List.getElem?_eq_getElem hi',
      List.getElem?_eq_getElem hm'] at hcon
    simp only [Option.getD_some] at hcon
    exact hne ((List.Nodup.getElem_inj_iff hnodup).mp hcon)
  rw [get_lagrange_coefficients_eval, list_sum_range]
  have hterm : ∀ k ∈ Finset.range points.length,
      lget yv k *
        ((((List.range points.length).filter fun i => i ≠ k).map
            fun i => lget xv m - lget xv i).prod /
          (((List.range points.length).filter fun i => i ≠ k).map
            fun i => lget xv k - lget xv i).prod) =
        if k = m then lget yv m else 0 := by
    intro k hk
    have hk' : k < points.length := Finset.mem_range.mp hk
    by_cases hkm : k = m
    · subst hkm
      rw [if_pos rfl]
      have hDne : (((List.range points.length).filter fun i => i ≠ k).map
          fun i => lget xv k - lget xv i).prod ≠ 0 := by
        intro hcon
        rw [List.prod_eq_zero_iff] at hcon
        obtain ⟨a, ha, hz⟩ := List.mem_map.mp hcon
        have hamem := List.mem_filter.mp ha
        have hane : a ≠ k := by simpa using hamem.2
        have halt : a < points.length := List.mem_range.mp hamem.1
        exact hne a halt hane (sub_eq_zero.mp hz).symm
      rw [div_self hDne, mul_one]
    · rw [if_neg hkm]
      have hmem : m ∈ ((List.range points.length).filter fun i => i ≠ k) := by
        rw [List.mem_filter]
        exact ⟨List.mem_range.mpr hm, by simpa using hkm ∘ Eq.symm⟩
      have hzero : (((List.range points.length).filter fun i => i ≠ k).map
          fun i => lget xv m - lget xv i).prod = 0 := by
        refine List.prod_eq_zero ?_
        refine List.mem_map.mpr ⟨m, hmem, ?_⟩
        rw [sub_self]
      rw [hzero, zero_div, mul_zero]
  rw [Finset.sum_congr rfl hterm, Finset.sum_ite_eq' (Finset.range points.length)
    m (fun _ => lget yv m), if_pos (Finset.mem_range.mpr hm)]



/-! ### Björck–Pereyra correctness -/

/-- Divided differences `f[x_lo, ..., x_hi]` over node list `x` and value
list `f`. -/
def dd (x f : List ℚ) (lo hi : Nat) : ℚ :=
  if h : hi ≤ lo then lget f lo
  else (dd x f (lo + 1) hi - dd x f lo (hi - 1)) / (lget x hi - lget x lo)
termination_by hi - lo
decreasing_by
  all_goals omega

theorem dd_diag (x f : List ℚ) (i : Nat) : dd x f i i = lget f i := by
  rw [dd, dif_pos (le_refl i)]

theorem dd_rec (x f : List ℚ) {lo hi : Nat} (h : lo < hi) :
    dd x f lo hi =
      (dd x f (lo + 1) hi - dd x f lo (hi - 1)) / (lget x hi - lget x lo) := by
  conv_lhs => rw [dd]
  rw [dif_neg (by omega)]

/-- Position-indexed invariant preserved along a successful `foldlM` over
`List.range m`. -/
theorem foldlM_range_invariant {ε : Type} (step : List ℚ → Nat → Except ε (List ℚ))
    (I : Nat → List ℚ → Prop)
    (hstep : ∀ k c c', I k c → step c k = .ok c' → I (k + 1) c')
    (init : List ℚ) (hinit : I 0 init) :
    ∀ m c, (List.range m).foldlM step init = .ok c → I m c := by
  intro m
  induction m with
  | zero =>
    intro c h
    rw [List.range_zero, List.foldlM_nil] at h
    cases h
    exact hinit
  | succ m ih =>
    intro c h
    rw [List.range_succ, List.foldlM_append] at h
    cases hmid : (List.range m).foldlM step init with
    | error e =>
      rw [hmid, except_bind_error] at h
      cases h
    | ok mid =>
      rw [hmid, except_bind_ok, List.foldlM_cons] at h
      cases hstep2 : step mid m with
      | error e => rw [hstep2, except_bind_error] at h; cases h
      | ok c2 =>
        rw [hstep2, except_bind_ok, List.foldlM_nil] at h
        cases h
        exact hstep m mid c (ih mid hmid) hstep2

/-- Entrywise characterization of a successful phase-1 inner pass: the
downward loop updates indices `k+1 .. top` from the untouched lower
entries, so it acts as a parallel update. -/
theorem bpPhase1Step_ok_get (tol : ℚ) (x : List ℚ) (k : Nat) :
    ∀ (top : Nat) (c r : List ℚ), top < c.length →
      bpPhase1Step tol x k top c = .ok r →
      r.length = c.length ∧
      ∀ j, lget r j =
        if k + 1 ≤ j ∧ j ≤ top then
          (lget c j - lget c (j - 1)) / (lget x j - lget x (j - k - 1))
        else lget c j := by
  intro top
  induction top with
  | zero =>
    intro c r _ h
    rw [bpPhase1Step] at h
    cases h
    refine ⟨rfl, fun j => ?_⟩
    rw [if_neg (by omega)]
  | succ i ih =>
    intro c r hlen h
    rw [bpPhase1Step] at h
    by_cases hik : i + 1 ≤ k
    · rw [if_pos hik] at h
      cases h
      refine ⟨rfl, fun j => ?_⟩
      rw [if_neg (by omega)]
    · rw [if_neg hik] at h
      dsimp only at h
      by_cases hdiff : |lget x (i + 1) - lget x (i - k)| < tol
      · rw [if_pos hdiff] at h
        cases h
      · rw [if_neg hdiff] at h
        have hlen2 : i < (c.set (i + 1)
            ((lget c (i + 1) - lget c i) / (lget x (i + 1) - lget x (i - k)))).length := by
          rw [List.length_set]; omega
        obtain ⟨hrl, hget⟩ := ih _ r hlen2 h
        rw [List.length_set] at hrl
        refine ⟨hrl, fun j => ?_⟩
        rw [hget j]
        by_cases hj1 : k + 1 ≤ j ∧ j ≤ i
        · rw [if_pos hj1, if_pos (by omega)]
          rw [lget_set_ne _ _ (by omega), lget_set_ne _ _ (by omega)]
        · rw [if_neg hj1]
          by_cases hj2 : j = i + 1
          · subst hj2
            rw [if_pos (by omega), lget_set_self _ _ _ (by omega)]
            rw [show i + 1 - 1 = i from rfl, show i + 1 - k - 1 = i - k from by omega]
          · rw [if_neg (by omega), lget_set_ne _ _ (by omega)]

/-- After a successful phase 1 the working vector holds the divided
differences `f[x_0, ..., x_i]`. -/
theorem bp_phase1_dd (tol : ℚ) (x f : List ℚ) (n : Nat) (hf : f.length = n)
    (h1 : 1 ≤ n) {c : List ℚ}
    (hok : (List.range (n - 1)).foldlM
      (fun c k => bpPhase1Step tol x k (n - 1) c) f = .ok c) :
    c.length = n ∧ ∀ i, i < n → lget c i = dd x f 0 i := by
  have hinv := foldlM_range_invariant
    (fun c k => bpPhase1Step tol x k (n - 1) c)
    (fun K c => c.length = n ∧ ∀ i, i < n → lget c i = dd x f (i - K) i)
    (by
      intro k c c' hI hstep
      obtain ⟨hlen, hdd⟩ := hI
      obtain ⟨hlen', hget⟩ := bpPhase1Step_ok_get tol x k (n - 1) c c'
        (by omega) hstep
      refine ⟨by omega, fun i hi => ?_⟩
      rw [hget i]
      by_cases hcase : k + 1 ≤ i ∧ i ≤ n - 1
      · rw [if_pos hcase]
        rw [hdd i hi, hdd (i - 1) (by omega)]
        rw [show i - 1 - k = i - (k + 1) from by omega,
          show i - k - 1 = i - (k + 1) from by omega]
        rw [dd_rec x f (show i - (k + 1) < i from by omega)]
        rw [show i - (k + 1) + 1 = i - k from by omega]
      · rw [if_neg hcase]
        rw [hdd i hi, show i - k = i - (k + 1) from by omega])
    f (⟨hf, fun i _ => by rw [Nat.sub_zero, dd_diag]⟩)
  obtain ⟨hlen, hdd⟩ := hinv (n - 1) c hok
  refine ⟨hlen, fun i hi => ?_⟩
  rw [hdd i hi, show i - (n - 1) = 0 from by omega]

/-- Distinctness of the nodes from a passed closeness scan with a positive
tolerance. -/
theorem hasCloseNodes_false_ne (tol : ℚ) (x : List ℚ) (htol : 0 < tol)
    (h : hasCloseNodes tol x = false) :
    ∀ i j, i < j → j < x.length → lget x i ≠ lget x j := by
  intro i j hij hj hcon
  rw [hasCloseNodes] at h
  simp only [List.any_eq_false, Bool.not_eq_true, Bool.and_eq_false_iff,
    decide_eq_false_iff_not, List.mem_range] at h
  have h2 := h i (by omega) j hj
  rcases h2 with h2 | h2
  · exact h2 hij
  · rw [hcon, sub_self, abs_zero] at h2
    exact h2 htol

/-- Entrywise characterization of the phase-2 inner loop (ascending
updates read only the not-yet-updated next entry, so it acts as a parallel
update on the window `[i, i+m)`). -/
theorem bpPhase2Inner_get (xk : ℚ) :
    ∀ (m i : Nat) (c : List ℚ), i + m ≤ c.length →
      ∀ j, lget (bpPhase2Inner xk i m c) j =
        if i ≤ j ∧ j < i + m then lget c j - xk * lget c (j + 1) else lget c j := by
  intro m
  induction m with
  | zero =>
    intro i c _ j
    rw [bpPhase2Inner, if_neg (by omega)]
  | succ m ih =>
    intro i c hm j
    rw [bpPhase2Inner,
      ih (i + 1) _ (by rw [List.length_set]; omega) j]
    by_cases hj1 : i + 1 ≤ j ∧ j < i + 1 + m
    · rw [if_pos hj1, if_pos (by omega),
        lget_set_ne _ _ (by omega), lget_set_ne _ _ (by omega)]
    · rw [if_neg hj1]
      by_cases hj2 : j = i
      · subst hj2
        rw [if_pos (by omega), lget_set_self _ _ _ (by omega)]
      · rw [if_neg (by omega), lget_set_ne _ _ (by omega)]

/-- Mixed monomial/Newton basis element used to track the in-place
nested-to-standard conversion of phase 2. -/
def chiBasis (x : List ℚ) (K i : Nat) (t : ℚ) : ℚ :=
  (∏ u ∈ Finset.range (min i K), (t - lget x u)) * t ^ (i - K)

/-- Value of the working vector `c` read in the mixed basis of level `K`. -/
def chiSum (x c : List ℚ) (K : Nat) (t : ℚ) : ℚ :=
  ∑ i ∈ Finset.range c.length, lget c i * chiBasis x K i t

theorem chiBasis_zero (x : List ℚ) (i : Nat) (t : ℚ) :
    chiBasis x 0 i t = t ^ i := by
  rw [chiBasis, Nat.min_zero, Finset.range_zero, Finset.prod_empty, one_mul,
    Nat.sub_zero]

theorem chiSum_zero (x c : List ℚ) (t : ℚ) :
    chiSum x c 0 t = evaluate_polynomial c t := by
  rw [chiSum, evaluate_polynomial_eq_sum]
  refine Finset.sum_congr rfl fun i _ => ?_
  rw [chiBasis_zero]

theorem chiBasis_le (x : List ℚ) (K i : Nat) (t : ℚ) (h : i ≤ K) :
    chiBasis x K i t = ∏ u ∈ Finset.range i, (t - lget x u) := by
  rw [chiBasis, Nat.min_eq_left h, Nat.sub_eq_zero_of_le h, pow_zero, mul_one]

theorem chiSum_top (x c : List ℚ) (n : Nat) (t : ℚ) (hc : c.length = n)
    (h1 : 1 ≤ n) :
    chiSum x c (n - 1) t = newtonSum (lget c) (lget x) t 0 n := by
  rw [chiSum, newtonSum, hc]
  refine Finset.sum_congr rfl fun i hi => ?_
  rw [chiBasis_le x _ i t (by
      have := Finset.mem_range.mp hi
      omega), Nat.zero_add]
  congr 1
  refine Finset.prod_congr rfl fun u _ => ?_
  rw [Nat.zero_add]

/-- Basis recurrence: expanding the factor `(t - x_K)` of level `K+1`. -/
theorem chiBasis_succ_ge (x : List ℚ) (K j : Nat) (t : ℚ) (h : K + 1 ≤ j) :
    chiBasis x (K + 1) j t = chiBasis x K j t - lget x K * chiBasis x K (j - 1) t := by
  rw [chiBasis, chiBasis, chiBasis,
    Nat.min_eq_right (by omega), Nat.min_eq_right (by omega),
    Nat.min_eq_right (by omega), Finset.prod_range_succ]
  have hpow : t ^ (j - K) = t * t ^ (j - (K + 1)) := by
    rw [← pow_succ']
    congr 1
    omega
  have hpow2 : t ^ (j - 1 - K) = t ^ (j - (K + 1)) := by
    congr 1
    omega
  rw [hpow, hpow2]
  ring

theorem chiBasis_succ_lt (x : List ℚ) (K j : Nat) (t : ℚ) (h : j ≤ K) :
    chiBasis x (K + 1) j t = chiBasis x K j t := by
  rw [chiBasis_le x (K + 1) j t (by omega), chiBasis_le x K j t h]

/-- One phase-2 pass re-expresses the same value one basis level down. -/
theorem bpPhase2Inner_chiSum (x c : List ℚ) (n K : Nat) (t : ℚ)
    (hc : c.length = n) (hK : K + 1 ≤ n) :
    chiSum x (bpPhase2Inner (lget x K) K (n - 1 - K) c) K t =
      chiSum x c (K + 1) t := by
  have hlen : (bpPhase2Inner (lget x K) K (n - 1 - K) c).length = c.length :=
    bpPhase2Inner_length _ _ _ _
  rw [chiSum, chiSum, hlen, hc]
  have hget := bpPhase2Inner_get (lget x K) (n - 1 - K) K c (by omega)
  have hsplit : ∀ j ∈ Finset.range n,
      lget (bpPhase2Inner (lget x K) K (n - 1 - K) c) j * chiBasis x K j t =
        lget c j * chiBasis x K j t -
          (if K ≤ j ∧ j < n - 1 then
            lget x K * (lget c (j + 1) * chiBasis x K j t) else 0) := by
    intro j _
    rw [hget j]
    by_cases hj : K ≤ j ∧ j < K + (n - 1 - K)
    · rw [if_pos hj, if_pos (by omega)]
      ring
    · rw [if_neg hj, if_neg (by omega)]
      ring
  have hsplit2 : ∀ j ∈ Finset.range n,
      lget c j * chiBasis x (K + 1) j t =
        lget c j * chiBasis x K j t -
          (if K + 1 ≤ j then
            lget x K * (lget c j * chiBasis x K (j - 1) t) else 0) := by
    intro j _
    by_cases hj : K + 1 ≤ j
    · rw [if_pos hj, chiBasis_succ_ge x K j t hj]
      ring
    · rw [if_neg hj, chiBasis_succ_lt x K j t (by omega)]
      ring
  rw [Finset.sum_congr rfl hsplit, Finset.sum_congr rfl hsplit2,
    Finset.sum_sub_distrib, Finset.sum_sub_distrib]
  congr 1
  -- both correction sums equal Σ_{j ∈ range (n-1)} ite (K ≤ j) ...
  have hleft : (∑ j ∈ Finset.range n,
      if K ≤ j ∧ j < n - 1 then
        lget x K * (lget c (j + 1) * chiBasis x K j t) else 0) =
      ∑ j ∈ Finset.range (n - 1),
        (if K ≤ j then lget x K * (lget c (j + 1) * chiBasis x K j t) else 0) := by
    rw [← Finset.sum_subset (Finset.range_subset.mpr (show n - 1 ≤ n from by omega))
      (fun u _ hu => by
        rw [Finset.mem_range] at hu
        rw [if_neg (by omega)])]
    refine Finset.sum_congr rfl fun u hu => ?_
    have hu2 := Finset.mem_range.mp hu
    by_cases hKu : K ≤ u
    · rw [if_pos ⟨hKu, hu2⟩, if_pos hKu]
    · rw [if_neg (by tauto), if_neg hKu]
  have hright : (∑ j ∈ Finset.range n,
      if K + 1 ≤ j then
        lget x K * (lget c j * chiBasis x K (j - 1) t) else 0) =
      ∑ j ∈ Finset.range (n - 1),
        (if K ≤ j then lget x K * (lget c (j + 1) * chiBasis x K j t) else 0) := by
    obtain ⟨n', rfl⟩ : ∃ n', n = n' + 1 := ⟨n - 1, by omega⟩
    rw [Finset.sum_range_succ', if_neg (by omega), add_zero,
      show n' + 1 - 1 = n' from rfl]
    refine Finset.sum_congr rfl fun u _ => ?_
    by_cases hKu : K ≤ u
    · rw [if_pos (by omega), if_pos hKu, Nat.add_sub_cancel]
    · rw [if_neg (by omega), if_neg hKu]
  rw [hleft, hright]

/-- Phase 2 converts the Newton-form vector into monomial coefficients:
the mixed-basis value is preserved down to level 0. -/
theorem bpPhase2_chiSum (x : List ℚ) (n : Nat) (t : ℚ) :
    ∀ (K : Nat) (c : List ℚ), c.length = n → K + 2 ≤ n →
      chiSum x (bpPhase2 x n K c) 0 t = chiSum x c (K + 1) t := by
  intro K
  induction K with
  | zero =>
    intro c hc hn
    rw [bpPhase2]
    have h := bpPhase2Inner_chiSum x c n 0 t hc (by omega)
    rw [show n - 1 - 0 = n - 1 from by omega] at h
    exact h
  | succ K ih =>
    intro c hc hn
    rw [bpPhase2]
    rw [ih _ (by rw [bpPhase2Inner_length]; exact hc) (by omega),
      bpPhase2Inner_chiSum x c n (K + 1) t hc (by omega)]

/-- Successful `bjorck_pereyra` returns monomial coefficients of the
polynomial interpolating `(x_i, f_i)` exactly (positive tolerance). -/
theorem bjorck_pereyra_exact (tol : ℚ) (x f : List ℚ) (htol : 0 < tol)
    {c : List ℚ} (hok : bjorck_pereyra tol x f = .ok c) :
    ∀ m, m < x.length → evaluate_polynomial c (lget x m) = lget f m := by
  intro m hm
  rw [bjorck_pereyra] at hok
  split at hok
  · cases hok
  next hflen =>
  split at hok
  · cases hok
  next hn1 =>
  split at hok
  · cases hok
  next hclose =>
  split at hok
  next hn1' =>
    -- n = 1: the coefficients are f itself and m = 0
    cases hok
    have hm0 : m = 0 := by omega
    subst hm0
    rw [evaluate_polynomial_eq_sum]
    rw [show f.length = 1 from by omega, Finset.sum_range_one, pow_zero,
      mul_one]
  next hn2 =>
    -- n ≥ 2: phase 1 then phase 2
    cases hphase1 : (List.range (x.length - 1)).foldlM
        (fun c k => bpPhase1Step tol x k (x.length - 1) c) f with
    | error e =>
      rw [hphase1, except_bind_error] at hok
      cases hok
    | ok c1 =>
      rw [hphase1, except_bind_ok] at hok
      cases hok
      have hfx : f.length = x.length := by omega
      obtain ⟨hc1len, hc1⟩ := bp_phase1_dd tol x f x.length hfx (by omega) hphase1
      have hne := hasCloseNodes_false_ne tol x htol (by simpa using hclose)
      -- the divided-difference table satisfies the multiplied recurrence
      have hrec : ∀ i j, 1 ≤ j → i + j < x.length →
          dd x f i (i + j) * (lget x (i + j) - lget x i) =
            dd x f (i + 1) (i + 1 + (j - 1)) - dd x f i (i + (j - 1)) := by
        intro i j hj hij
        have hxne : lget x (i + j) - lget x i ≠ 0 := by
          intro hcon
          exact hne i (i + j) (by omega) hij (sub_eq_zero.mp hcon).symm
        rw [dd_rec x f (show i < i + j from by omega), div_mul_cancel₀ _ hxne,
          show i + j - 1 = i + (j - 1) from by omega,
          show i + 1 + (j - 1) = i + j from by omega]
      -- evaluate through the basis bridges
      have hlen2 : (bpPhase2 x x.length (x.length - 2) c1).length = x.length := by
        rw [bpPhase2_length]; omega
      rw [← chiSum_zero x _ (lget x m),
        bpPhase2_chiSum x x.length (lget x m) (x.length - 2) c1 (by omega)
          (by omega),
        show x.length - 2 + 1 = x.length - 1 from by omega,
        chiSum_top x c1 x.length (lget x m) (by omega) (by omega),
        newtonSum_eq_NPoly (lget x) (fun i j => dd x f i (i + j)) (lget c1)
          x.length (lget x m) (fun j hj => by
            simp only [hc1 j hj, Nat.zero_add]),
        NPoly_value (lget x) (fun i j => dd x f i (i + j)) x.length
          (fun i j hj hij => hrec i j hj hij) x.length 0 m (by omega)
          (by omega) (by omega)]
      rw [Nat.add_zero, dd_diag]

/-! ### Newton forward/backward: difference table and binomial identities -/

/-- `k`-fold iterated forward difference of a value list. -/
def dIter (y : List ℚ) : Nat → List ℚ
  | 0 => y
  | k + 1 => diffRow (dIter y k)

theorem diffRow_length (p : List ℚ) : (diffRow p).length = p.length - 1 := by
  rw [diffRow, List.length_map, List.length_range]

theorem dIter_length (y : List ℚ) : ∀ k, (dIter y k).length = y.length - k := by
  intro k
  induction k with
  | zero => rfl
  | succ k ih =>
    rw [dIter, diffRow_length, ih]
    omega

theorem lget_diffRow (p : List ℚ) (j : Nat) (hj : j + 1 < p.length) :
    lget (diffRow p) j = lget p (j + 1) - lget p j := by
  rw [diffRow, lget_range_map, if_pos (by omega)]

theorem lget_dIter_succ (y : List ℚ) (k j : Nat) (hj : j + k + 1 < y.length) :
    lget (dIter y (k + 1)) j = lget (dIter y k) (j + 1) - lget (dIter y k) j := by
  rw [dIter, lget_diffRow (dIter y k) j (by rw [dIter_length]; omega)]

theorem diffRows_length (m : Nat) : ∀ row, (diffRows m row).length = m := by
  induction m with
  | zero => intro row; rfl
  | succ m ih =>
    intro row
    rw [diffRows, List.length_cons, ih]

theorem dIter_diffRow_comm (y : List ℚ) :
    ∀ k, dIter (diffRow y) k = dIter y (k + 1) := by
  intro k
  induction k with
  | zero => rfl
  | succ k ih => rw [dIter, ih, ← dIter]

theorem diffRows_getD (m : Nat) :
    ∀ (row : List ℚ) (k : Nat), k < m →
      (diffRows m row).getD k [] = dIter row (k + 1) := by
  induction m with
  | zero => intro row k hk; omega
  | succ m ih =>
    intro row k hk
    match k with
    | 0 => rfl
    | k + 1 =>
      rw [diffRows, show (diffRow row :: diffRows m (diffRow row)).getD (k + 1) [] =
          (diffRows m (diffRow row)).getD k [] from rfl,
        ih (diffRow row) k (by omega), dIter_diffRow_comm]

theorem compute_difference_table_length (y : List ℚ) :
    (compute_difference_table y).length = 1 + (y.length - 1) := by
  rw [compute_difference_table, List.length_cons, diffRows_length]
  omega

theorem lget2_difference_table (y : List ℚ) (k j : Nat) (hk : k ≤ y.length - 1) :
    lget2 (compute_difference_table y) k j = lget (dIter y k) j := by
  match k with
  | 0 => rfl
  | k + 1 =>
    rw [lget2, compute_difference_table,
      show (y :: diffRows (y.length - 1) y).getD (k + 1) [] =
        (diffRows (y.length - 1) y).getD k [] from rfl,
      diffRows_getD _ _ _ (by omega)]

/-- Generalized binomial coefficient `q(q-1)...(q-k+1)/k!`. -/
def Cq (q : ℚ) (k : Nat) : ℚ :=
  (∏ i ∈ Finset.range k, (q - i)) / (Nat.factorial k : ℚ)

/-- Rising variant `q(q+1)...(q+k-1)/k!`. -/
def Bq (q : ℚ) (k : Nat) : ℚ :=
  (∏ i ∈ Finset.range k, (q + i)) / (Nat.factorial k : ℚ)

theorem Cq_zero (q : ℚ) : Cq q 0 = 1 := by
  rw [Cq, Finset.range_zero, Finset.prod_empty, Nat.factorial_zero]
  norm_num

theorem Bq_zero (q : ℚ) : Bq q 0 = 1 := by
  rw [Bq, Finset.range_zero, Finset.prod_empty, Nat.factorial_zero]
  norm_num

theorem Cq_nat_vanish (m k : Nat) (h : m < k) : Cq (m : ℚ) k = 0 := by
  rw [Cq, Finset.prod_eq_zero (Finset.mem_range.mpr h) (by
    rw [sub_self]), zero_div]

theorem Bq_neg_nat_vanish (d k : Nat) (h : d < k) : Bq (-(d : ℚ)) k = 0 := by
  rw [Bq, Finset.prod_eq_zero (Finset.mem_range.mpr h) (by
    rw [neg_add_cancel]), zero_div]

theorem factorial_cast_ne_zero (k : Nat) : ((Nat.factorial k : ℚ)) ≠ 0 := by
  exact_mod_cast Nat.factorial_ne_zero k

theorem Cq_pascal (q : ℚ) (k : Nat) :
    Cq (q + 1) (k + 1) = Cq q (k + 1) + Cq q k := by
  have hL : ∏ i ∈ Finset.range (k + 1), (q + 1 - i) =
      (∏ i ∈ Finset.range k, (q - i)) * (q + 1) := by
    rw [Finset.prod_range_succ']
    congr 1
    · refine Finset.prod_congr rfl fun i _ => ?_
      push_cast
      ring
    · norm_num
  have hR : ∏ i ∈ Finset.range (k + 1), (q - i) =
      (∏ i ∈ Finset.range k, (q - i)) * (q - k) :=
    Finset.prod_range_succ _ _
  rw [Cq, Cq, Cq, hL, hR]
  have hfs : ((Nat.factorial (k + 1) : ℚ)) = (k + 1) * (Nat.factorial k : ℚ) := by
    rw [Nat.factorial_succ]
    push_cast
    ring
  rw [hfs]
  have h1 := factorial_cast_ne_zero k
  have h2 : ((k : ℚ) + 1) ≠ 0 := by positivity
  field_simp
  ring

theorem Bq_pascal (q : ℚ) (k : Nat) :
    Bq (q - 1) (k + 1) = Bq q (k + 1) - Bq q k := by
  have hL : ∏ i ∈ Finset.range (k + 1), (q - 1 + i) =
      (q - 1) * ∏ i ∈ Finset.range k, (q + i) := by
    rw [Finset.prod_range_succ']
    rw [show (∏ i ∈ Finset.range k, (q - 1 + (↑(i + 1) : ℚ))) =
        ∏ i ∈ Finset.range k, (q + i) from
      Finset.prod_congr rfl fun i _ => by push_cast; ring]
    norm_num
    ring
  have hR : ∏ i ∈ Finset.range (k + 1), (q + i) =
      (∏ i ∈ Finset.range k, (q + i)) * (q + k) :=
    Finset.prod_range_succ _ _
  rw [Bq, Bq, Bq, hL, hR]
  have hfs : ((Nat.factorial (k + 1) : ℚ)) = (k + 1) * (Nat.factorial k : ℚ) := by
    rw [Nat.factorial_succ]
    push_cast
    ring
  rw [hfs]
  have h1 := factorial_cast_ne_zero k
  have h2 : ((k : ℚ) + 1) ≠ 0 := by positivity
  field_simp
  ring

/-- Forward finite-difference identity:
`Σ_k C(m,k) Δᵏy_j = y_{j+m}`. -/
theorem forward_difference_identity (y : List ℚ) :
    ∀ (m j : Nat), m + j < y.length →
      ∑ k ∈ Finset.range (m + 1), Cq (m : ℚ) k * lget (dIter y k) j =
        lget y (j + m) := by
  intro m
  induction m with
  | zero =>
    intro j _
    rw [Finset.sum_range_one, Nat.cast_zero, Cq_zero, one_mul, Nat.add_zero]
    rfl
  | succ m ih =>
    intro j hj
    have hsplit : ∀ k ∈ Finset.range (m + 1),
        Cq ((m + 1 : Nat) : ℚ) (k + 1) * lget (dIter y (k + 1)) j =
          Cq (m : ℚ) (k + 1) * lget (dIter y (k + 1)) j +
            Cq (m : ℚ) k * (lget (dIter y k) (j + 1) - lget (dIter y k) j) := by
      intro k hk
      have hkm := Finset.mem_range.mp hk
      rw [show ((m + 1 : Nat) : ℚ) = (m : ℚ) + 1 from by push_cast; ring,
        Cq_pascal, lget_dIter_succ y k j (by omega)]
      ring
    rw [Finset.sum_range_succ', Finset.sum_congr rfl hsplit,
      Finset.sum_add_distrib]
    have h0 : Cq ((m + 1 : Nat) : ℚ) 0 * lget (dIter y 0) j = lget y j := by
      rw [Cq_zero, one_mul]
      rfl
    have h00 : Cq (m : ℚ) 0 * lget (dIter y 0) j = lget y j := by
      rw [Cq_zero, one_mul]
      rfl
    have hfull := Finset.sum_range_succ'
      (fun k => Cq (m : ℚ) k * lget (dIter y k) j) (m + 1)
    have htop : ∑ k ∈ Finset.range (m + 2),
        Cq (m : ℚ) k * lget (dIter y k) j = lget y (j + m) := by
      rw [Finset.sum_range_succ, Cq_nat_vanish m (m + 1) (by omega),
        zero_mul, add_zero, ih j (by omega)]
    have hB : (∑ k ∈ Finset.range (m + 1),
        Cq (m : ℚ) k * (lget (dIter y k) (j + 1) - lget (dIter y k) j)) =
        lget y (j + 1 + m) - lget y (j + m) := by
      have hsub : ∀ k ∈ Finset.range (m + 1),
          Cq (m : ℚ) k * (lget (dIter y k) (j + 1) - lget (dIter y k) j) =
            Cq (m : ℚ) k * lget (dIter y k) (j + 1) -
              Cq (m : ℚ) k * lget (dIter y k) j := by
        intro k _
        ring
      rw [Finset.sum_congr rfl hsub, Finset.sum_sub_distrib,
        ih (j + 1) (by omega), ih j (by omega)]
    rw [show j + (m + 1) = j + 1 + m from by omega]
    linarith [hfull, htop, hB, h0, h00]

/-- Backward finite-difference identity:
`Σ_k Bq(-d,k) Δᵏy_{r-k} = y_{r-d}`. -/
theorem backward_difference_identity (y : List ℚ) :
    ∀ (d r : Nat), d ≤ r → r < y.length →
      ∑ k ∈ Finset.range (d + 1), Bq (-(d : ℚ)) k * lget (dIter y k) (r - k) =
        lget y (r - d) := by
  intro d
  induction d with
  | zero =>
    intro r _ _
    rw [Finset.sum_range_one, Nat.cast_zero, neg_zero, Bq_zero, one_mul]
    rfl
  | succ d ih =>
    intro r hd hr
    have hsplit : ∀ k ∈ Finset.range (d + 1),
        Bq (-((d + 1 : Nat) : ℚ)) (k + 1) * lget (dIter y (k + 1)) (r - (k + 1)) =
          Bq (-(d : ℚ)) (k + 1) * lget (dIter y (k + 1)) (r - (k + 1)) -
            Bq (-(d : ℚ)) k *
              (lget (dIter y k) (r - k) - lget (dIter y k) (r - 1 - k)) := by
      intro k hk
      have hkm := Finset.mem_range.mp hk
      rw [show (-((d + 1 : Nat) : ℚ)) = -(d : ℚ) - 1 from by push_cast; ring,
        Bq_pascal,
        show lget (dIter y (k + 1)) (r - (k + 1)) =
          lget (dIter y k) (r - (k + 1) + 1) - lget (dIter y k) (r - (k + 1)) from
          lget_dIter_succ y k (r - (k + 1)) (by omega),
        show r - (k + 1) + 1 = r - k from by omega,
        show r - (k + 1) = r - 1 - k from by omega]
      ring
    rw [Finset.sum_range_succ', Finset.sum_congr rfl hsplit,
      Finset.sum_sub_distrib]
    have h0 : Bq (-((d + 1 : Nat) : ℚ)) 0 * lget (dIter y 0) (r - 0) =
        lget y r := by
      rw [Bq_zero, one_mul, Nat.sub_zero]
      rfl
    have h00 : Bq (-(d : ℚ)) 0 * lget (dIter y 0) (r - 0) = lget y r := by
      rw [Bq_zero, one_mul, Nat.sub_zero]
      rfl
    have hfull := Finset.sum_range_succ'
      (fun k => Bq (-(d : ℚ)) k * lget (dIter y k) (r - k)) (d + 1)
    have htop : ∑ k ∈ Finset.range (d + 2),
        Bq (-(d : ℚ)) k * lget (dIter y k) (r - k) = lget y (r - d) := by
      rw [Finset.sum_range_succ, Bq_neg_nat_vanish d (d + 1) (by omega),
        zero_mul, add_zero, ih r (by omega) hr]
    have hB : (∑ k ∈ Finset.range (d + 1),
        Bq (-(d : ℚ)) k *
          (lget (dIter y k) (r - k) - lget (dIter y k) (r - 1 - k))) =
        lget y (r - d) - lget y (r - 1 - d) := by
      have hsub : ∀ k ∈ Finset.range (d + 1),
          Bq (-(d : ℚ)) k *
            (lget (dIter y k) (r - k) - lget (dIter y k) (r - 1 - k)) =
            Bq (-(d : ℚ)) k * lget (dIter y k) (r - k) -
              Bq (-(d : ℚ)) k * lget (dIter y k) (r - 1 - k) := by
        intro k _
        ring
      have hprev := ih (r - 1) (by omega) (by omega)
      have hidx : ∀ k : Nat, r - 1 - k = r - 1 - k := fun _ => rfl
      rw [Finset.sum_congr rfl hsub, Finset.sum_sub_distrib, ih r (by omega) hr]
      have hsame : (∑ k ∈ Finset.range (d + 1),
          Bq (-(d : ℚ)) k * lget (dIter y k) (r - 1 - k)) = lget y (r - 1 - d) := by
        rw [← hprev]
      rw [hsame]
    rw [show r - (d + 1) = r - 1 - d from by omega]
    linarith [hfull, htop, hB, h0, h00]

theorem prod_map_const_range (a : ℚ) :
    ∀ i : Nat, ((List.range i).map fun _ => a).prod = a ^ i := by
  intro i
  induction i with
  | zero => rfl
  | succ i ih =>
    rw [List.range_succ, List.map_append, List.prod_append, ih]
    simp [pow_succ]

theorem list_prod_range (f : Nat → ℚ) :
    ∀ n : Nat, (((List.range n).map f)).prod = ∏ j ∈ Finset.range n, f j := by
  intro n
  induction n with
  | zero => rfl
  | succ n ih =>
    rw [List.range_succ, List.map_append, List.prod_append, ih,
      Finset.prod_range_succ]
    simp

/-- Named step of the substitution loop shared by the Newton builders. -/
def nsStep (x0 h : ℚ) (result_coeffs : List ℚ) (final : List ℚ) (i : Nat) :
    List ℚ :=
  let ci := lget result_coeffs i
  if ci = 0 then final
  else
    let term_poly := (List.range i).foldl
      (fun (p : List ℚ) (_ : Nat) => mulLinear (-x0) p) [1]
    addScaled final term_poly (ci / h ^ i)

theorem newtonSubstitute_as_fold (x0 h : ℚ) (rc : List ℚ) (n : Nat) :
    newtonSubstitute x0 h rc n =
      (List.range rc.length).foldl (nsStep x0 h rc) (List.replicate n 0) := rfl

theorem nsStep_length (x0 h : ℚ) (rc final : List ℚ) (i : Nat) :
    (nsStep x0 h rc final i).length = final.length := by
  rw [show nsStep x0 h rc final i =
      if lget rc i = 0 then final
      else addScaled final
        ((List.range i).foldl (fun (p : List ℚ) (_ : Nat) => mulLinear (-x0) p) [1])
        (lget rc i / h ^ i) from rfl]
  by_cases hci : lget rc i = 0
  · rw [if_pos hci]
  · rw [if_neg hci, addScaled_length]

theorem nsStep_eval (x0 h : ℚ) (rc final : List ℚ) (i : Nat) (t : ℚ)
    (hi : i + 1 ≤ final.length) :
    evaluate_polynomial (nsStep x0 h rc final i) t =
      evaluate_polynomial final t + lget rc i / h ^ i * (t - x0) ^ i := by
  rw [show nsStep x0 h rc final i =
      if lget rc i = 0 then final
      else addScaled final
        ((List.range i).foldl (fun (p : List ℚ) (_ : Nat) => mulLinear (-x0) p) [1])
        (lget rc i / h ^ i) from rfl]
  by_cases hci : lget rc i = 0
  · rw [if_pos hci, hci, zero_div, zero_mul, add_zero]
  · rw [if_neg hci]
    have hlen : ((List.range i).foldl
        (fun (p : List ℚ) (_ : Nat) => mulLinear (-x0) p) [1]).length = i + 1 := by
      rw [foldl_mulLinear_length (fun _ => -x0) (List.range i) [1],
        List.length_range]
      show 1 + i = i + 1
      omega
    rw [show addScaled final
        ((List.range i).foldl (fun (p : List ℚ) (_ : Nat) => mulLinear (-x0) p) [1])
        (lget rc i / h ^ i) =
      (List.range (((List.range i).foldl
          (fun (p : List ℚ) (_ : Nat) => mulLinear (-x0) p) [1]).length)).foldl
        (fun r j => r.set j (lget r j +
          lget ((List.range i).foldl
            (fun (p : List ℚ) (_ : Nat) => mulLinear (-x0) p) [1]) j *
          (lget rc i / h ^ i))) final from rfl,
      foldl_set_add_eval _ _ _ _ (by rw [hlen]; omega)]
    congr 1
    have hsum : ∑ j ∈ Finset.range (((List.range i).foldl
        (fun (p : List ℚ) (_ : Nat) => mulLinear (-x0) p) [1]).length),
          lget ((List.range i).foldl
            (fun (p : List ℚ) (_ : Nat) => mulLinear (-x0) p) [1]) j *
            (lget rc i / h ^ i) * t ^ j =
        (∑ j ∈ Finset.range (((List.range i).foldl
          (fun (p : List ℚ) (_ : Nat) => mulLinear (-x0) p) [1]).length),
          lget ((List.range i).foldl
            (fun (p : List ℚ) (_ : Nat) => mulLinear (-x0) p) [1]) j * t ^ j) *
          (lget rc i / h ^ i) := by
      rw [Finset.sum_mul]
      refine Finset.sum_congr rfl fun j _ => ?_
      ring
    rw [hsum, ← evaluate_polynomial_eq_sum,
      foldl_mulLinear_eval (fun _ => -x0) t (List.range i) [1],
      show evaluate_polynomial [1] t = 1 from by
        rw [evaluate_polynomial_cons, show evaluate_polynomial [] t = 0 from rfl]
        ring,
      one_mul, prod_map_const_range]
    ring

theorem ns_fold_eval (x0 h : ℚ) (rc : List ℚ) (t : ℚ) :
    ∀ (l : List Nat) (acc : List ℚ), (∀ i ∈ l, i + 1 ≤ acc.length) →
      evaluate_polynomial (l.foldl (nsStep x0 h rc) acc) t =
        evaluate_polynomial acc t +
          (l.map fun i => lget rc i / h ^ i * (t - x0) ^ i).sum := by
  intro l
  induction l with
  | nil => intro acc _; simp
  | cons b l ih =>
    intro acc hmem
    rw [List.foldl_cons,
      ih _ (fun i hi => by
        rw [nsStep_length]
        exact hmem i (List.mem_cons_of_mem b hi)),
      nsStep_eval x0 h rc acc b t (hmem b (List.mem_cons_self b l)),
      List.map_cons, List.sum_cons]
    ring

/-- The substitution phase turns running coefficients in
`s = (x - x0)/h` into standard coefficients: evaluation composes with the
substitution. -/
theorem newtonSubstitute_eval (x0 h : ℚ) (rc : List ℚ) (n : Nat) (t : ℚ)
    (hlen : rc.length ≤ n) :
    evaluate_polynomial (newtonSubstitute x0 h rc n) t =
      evaluate_polynomial rc ((t - x0) / h) := by
  rw [newtonSubstitute_as_fold,
    ns_fold_eval x0 h rc t (List.range rc.length) (List.replicate n 0)
      (fun i hi => by
        rw [List.length_replicate]
        have := List.mem_range.mp hi
        omega),
    evaluate_polynomial_replicate_zero, zero_add, list_sum_range,
    evaluate_polynomial_eq_sum]
  refine Finset.sum_congr rfl fun i _ => ?_
  rw [div_pow]
  ring

/-- Row `k` of the difference table (for `k` within the table). -/
theorem difference_table_row (y : List ℚ) (k : Nat) (hk : k ≤ y.length - 1) :
    (compute_difference_table y).getD k [] = dIter y k := by
  match k with
  | 0 => rfl
  | k + 1 =>
    rw [compute_difference_table,
      show (y :: diffRows (y.length - 1) y).getD (k + 1) [] =
        (diffRows (y.length - 1) y).getD k [] from rfl,
      diffRows_getD _ _ _ (by omega)]

theorem nfcTerm_length (table : List (List ℚ)) (x0i k : Nat) (r : List ℚ) :
    (nfcTerm table x0i k r).length = r.length := by
  rw [show nfcTerm table x0i k r =
      addScaled r
        ((List.range k).foldl (fun (p : List ℚ) (i : Nat) => mulLinear (-(i:ℚ)) p) [1])
        (lget2 table k x0i / (Nat.factorial k : ℚ)) from rfl,
    addScaled_length]

theorem nbcTerm_length (table : List (List ℚ)) (x0i k : Nat) (r : List ℚ) :
    (nbcTerm table x0i k r).length = r.length := by
  rw [show nbcTerm table x0i k r =
      addScaled r
        ((List.range k).foldl (fun (p : List ℚ) (i : Nat) => mulLinear (i:ℚ) p) [1])
        (lget2 table k (x0i - k) / (Nat.factorial k : ℚ)) from rfl,
    addScaled_length]

theorem nfcTerm_eval (table : List (List ℚ)) (x0i k : Nat) (r : List ℚ)
    (t : ℚ) (hk : k + 1 ≤ r.length) :
    evaluate_polynomial (nfcTerm table x0i k r) t =
      evaluate_polynomial r t +
        lget2 table k x0i / (Nat.factorial k : ℚ) *
          ∏ i ∈ Finset.range k, (t - i) := by
  rw [show nfcTerm table x0i k r =
      addScaled r
        ((List.range k).foldl (fun (p : List ℚ) (i : Nat) => mulLinear (-(i:ℚ)) p) [1])
        (lget2 table k x0i / (Nat.factorial k : ℚ)) from rfl]
  have hlen : ((List.range k).foldl
      (fun (p : List ℚ) (i : Nat) => mulLinear (-(i:ℚ)) p) [1]).length = k + 1 := by
    rw [foldl_mulLinear_length (fun i => -(i:ℚ)) (List.range k) [1],
      List.length_range]
    show 1 + k = k + 1
    omega
  rw [show addScaled r
      ((List.range k).foldl (fun (p : List ℚ) (i : Nat) => mulLinear (-(i:ℚ)) p) [1])
      (lget2 table k x0i / (Nat.factorial k : ℚ)) =
    (List.range (((List.range k).foldl
        (fun (p : List ℚ) (i : Nat) => mulLinear (-(i:ℚ)) p) [1]).length)).foldl
      (fun r2 j => r2.set j (lget r2 j +
        lget ((List.range k).foldl
          (fun (p : List ℚ) (i : Nat) => mulLinear (-(i:ℚ)) p) [1]) j *
        (lget2 table k x0i / (Nat.factorial k : ℚ)))) r from rfl,
    foldl_set_add_eval _ _ _ _ (by rw [hlen]; omega)]
  congr 1
  have hsum : ∀ (L : List ℚ) (s : ℚ),
      (∑ j ∈ Finset.range L.length, lget L j * s * t ^ j) =
        evaluate_polynomial L t * s := by
    intro L s
    rw [evaluate_polynomial_eq_sum, Finset.sum_mul]
    refine Finset.sum_congr rfl fun j _ => ?_
    ring
  rw [hsum, foldl_mulLinear_eval (fun i => -(i:ℚ)) t (List.range k) [1],
    show evaluate_polynomial [1] t = 1 from by
      rw [evaluate_polynomial_cons, show evaluate_polynomial [] t = 0 from rfl]
      ring,
    one_mul, list_prod_range]
  rw [show (∏ i ∈ Finset.range k, (t + -(i:ℚ))) =
    ∏ i ∈ Finset.range k, (t - i) from
    Finset.prod_congr rfl fun i _ => by ring]
  ring

theorem nbcTerm_eval (table : List (List ℚ)) (x0i k : Nat) (r : List ℚ)
    (t : ℚ) (hk : k + 1 ≤ r.length) :
    evaluate_polynomial (nbcTerm table x0i k r) t =
      evaluate_polynomial r t +
        lget2 table k (x0i - k) / (Nat.factorial k : ℚ) *
          ∏ i ∈ Finset.range k, (t + i) := by
  rw [show nbcTerm table x0i k r =
      addScaled r
        ((List.range k).foldl (fun (p : List ℚ) (i : Nat) => mulLinear (i:ℚ) p) [1])
        (lget2 table k (x0i - k) / (Nat.factorial k : ℚ)) from rfl]
  have hlen : ((List.range k).foldl
      (fun (p : List ℚ) (i : Nat) => mulLinear (i:ℚ) p) [1]).length = k + 1 := by
    rw [foldl_mulLinear_length (fun i => (i:ℚ)) (List.range k) [1],
      List.length_range]
    show 1 + k = k + 1
    omega
  rw [show addScaled r
      ((List.range k).foldl (fun (p : List ℚ) (i : Nat) => mulLinear (i:ℚ) p) [1])
      (lget2 table k (x0i - k) / (Nat.factorial k : ℚ)) =
    (List.range (((List.range k).foldl
        (fun (p : List ℚ) (i : Nat) => mulLinear (i:ℚ) p) [1]).length)).foldl
      (fun r2 j => r2.set j (lget r2 j +
        lget ((List.range k).foldl
          (fun (p : List ℚ) (i : Nat) => mulLinear (i:ℚ) p) [1]) j *
        (lget2 table k (x0i - k) / (Nat.factorial k : ℚ)))) r from rfl,
    foldl_set_add_eval _ _ _ _ (by rw [hlen]; omega)]
  congr 1
  have hsum : ∀ (L : List ℚ) (s : ℚ),
      (∑ j ∈ Finset.range L.length, lget L j * s * t ^ j) =
        evaluate_polynomial L t * s := by
    intro L s
    rw [evaluate_polynomial_eq_sum, Finset.sum_mul]
    refine Finset.sum_congr rfl fun j _ => ?_
    ring
  rw [hsum, foldl_mulLinear_eval (fun i => (i:ℚ)) t (List.range k) [1],
    show evaluate_polynomial [1] t = 1 from by
      rw [evaluate_polynomial_cons, show evaluate_polynomial [] t = 0 from rfl]
      ring,
    one_mul, list_prod_range]
  ring

/-- Evaluation of the forward term loop (anchored at `x0_index = 0`): the
`break` guards never fire inside the table and each term adds
`Δᵏy₀/k! · Π_{i<k}(s - i)`. -/
theorem nfcLoop_eval (y : List ℚ) (t : ℚ) (hn : 1 ≤ y.length) :
    ∀ (m k : Nat) (r : List ℚ), k + m = y.length → r.length = y.length →
      evaluate_polynomial
        (nfcLoop (compute_difference_table y) 0 k m r) t =
        evaluate_polynomial r t +
          ∑ u ∈ Finset.Ico k (k + m),
            lget (dIter y u) 0 / (Nat.factorial u : ℚ) *
              ∏ i ∈ Finset.range u, (t - i) := by
  intro m
  induction m with
  | zero =>
    intro k r hk hr
    rw [nfcLoop]
    simp
  | succ m ih =>
    intro k r hk hr
    rw [nfcLoop, if_neg (by
      rw [compute_difference_table_length,
        difference_table_row y k (by omega), dIter_length]
      omega)]
    rw [ih (k + 1) _ (by omega) (by rw [nfcTerm_length]; exact hr),
      nfcTerm_eval _ _ _ _ t (by omega),
      lget2_difference_table y k 0 (by omega),
      Finset.sum_eq_sum_Ico_succ_bot (show k < k + (m + 1) from by omega)]
    rw [show k + 1 + m = k + (m + 1) from by omega]
    ring

/-- Evaluation of the backward term loop (anchored at
`x0_index = n - 1`): each term adds `∇ᵏy_{n-1}/k! · Π_{i<k}(s + i)`. -/
theorem nbcLoop_eval (y : List ℚ) (t : ℚ) (hn : 1 ≤ y.length) :
    ∀ (m k : Nat) (r : List ℚ), k + m = y.length → r.length = y.length →
      evaluate_polynomial
        (nbcLoop (compute_difference_table y) (y.length - 1) k m r) t =
        evaluate_polynomial r t +
          ∑ u ∈ Finset.Ico k (k + m),
            lget (dIter y u) (y.length - 1 - u) / (Nat.factorial u : ℚ) *
              ∏ i ∈ Finset.range u, (t + i) := by
  intro m
  induction m with
  | zero =>
    intro k r hk hr
    rw [nbcLoop]
    simp
  | succ m ih =>
    intro k r hk hr
    rw [nbcLoop, if_neg (by
      rw [difference_table_row y k (by omega), dIter_length]
      omega)]
    rw [ih (k + 1) _ (by omega) (by rw [nbcTerm_length]; exact hr),
      nbcTerm_eval _ _ _ _ t (by omega),
      lget2_difference_table y k (y.length - 1 - k) (by omega),
      Finset.sum_eq_sum_Ico_succ_bot (show k < k + (m + 1) from by omega)]
    rw [show k + 1 + m = k + (m + 1) from by omega]
    ring

theorem nfcLoop_length (table : List (List ℚ)) (x0i : Nat) :
    ∀ (m k : Nat) (r : List ℚ), (nfcLoop table x0i k m r).length = r.length := by
  intro m
  induction m with
  | zero => intro k r; rfl
  | succ m ih =>
    intro k r
    rw [nfcLoop]
    split
    · rfl
    · rw [ih, nfcTerm_length]

theorem nbcLoop_length (table : List (List ℚ)) (x0i : Nat) :
    ∀ (m k : Nat) (r : List ℚ), (nbcLoop table x0i k m r).length = r.length := by
  intro m
  induction m with
  | zero => intro k r; rfl
  | succ m ih =>
    intro k r
    rw [nbcLoop]
    split
    · rfl
    · rw [ih, nbcTerm_length]

/-- Exactness of the forward Newton coefficients on exactly equidistant
nodes `x_i = x_0 + i·h`. -/
theorem newton_forward_node_exact (y x : List ℚ) (h : ℚ) (hh : h ≠ 0)
    (hy : y.length = x.length) (hn : 1 ≤ x.length)
    (hexact : ∀ i, i < x.length → lget x i = lget x 0 + i * h) :
    ∀ m, m < x.length →
      evaluate_polynomial (get_newton_forward_coefficients y x 0 h)
        (lget x m) = lget y m := by
  intro m hm
  have hstruct : get_newton_forward_coefficients y x 0 h =
      newtonSubstitute (lget x 0) h
        (nfcLoop (compute_difference_table y) 0 0 (y.length - 0)
          (List.replicate y.length 0))
        y.length := rfl
  rw [hstruct, newtonSubstitute_eval _ _ _ _ _ (by rw [nfcLoop_length]; simp),
    show y.length - 0 = y.length from rfl,
    nfcLoop_eval y _ (by omega) y.length 0 (List.replicate y.length 0)
      (by omega) (by simp),
    evaluate_polynomial_replicate_zero, zero_add]
  have hs : (lget x m - lget x 0) / h = (m : ℚ) := by
    rw [hexact m hm]
    field_simp
  rw [hs, show (0:Nat) + y.length = y.length from by omega,
    show Finset.Ico 0 y.length = Finset.range y.length from
      (congrFun Finset.range_eq_Ico y.length).symm]
  have hterm : ∀ k ∈ Finset.range y.length,
      lget (dIter y k) 0 / (Nat.factorial k : ℚ) *
        ∏ i ∈ Finset.range k, ((m:ℚ) - i) =
        Cq (m:ℚ) k * lget (dIter y k) 0 := by
    intro k _
    rw [Cq]
    ring
  rw [Finset.sum_congr rfl hterm,
    ← Finset.sum_subset
      (Finset.range_subset.mpr (show m + 1 ≤ y.length from by omega))
      (fun k _ hk => by
        rw [Finset.mem_range] at hk
        rw [Cq_nat_vanish m k (by omega), zero_mul]),
    forward_difference_identity y m 0 (by omega), Nat.zero_add]

/-- Exactness of the backward Newton coefficients on exactly equidistant
nodes. -/
theorem newton_backward_node_exact (y x : List ℚ) (h : ℚ) (hh : h ≠ 0)
    (hy : y.length = x.length) (hn : 1 ≤ x.length)
    (hexact : ∀ i, i < x.length → lget x i = lget x 0 + i * h) :
    ∀ m, m < x.length →
      evaluate_polynomial
        (get_newton_backward_coefficients y x (x.length - 1) h)
        (lget x m) = lget y m := by
  intro m hm
  have hmaxk : min (x.length - 1 + 1) (compute_difference_table y).length =
      y.length := by
    rw [compute_difference_table_length]
    omega
  have hstruct : get_newton_backward_coefficients y x (x.length - 1) h =
      newtonSubstitute (lget x (x.length - 1)) h
        (nbcLoop (compute_difference_table y) (x.length - 1) 0
          (min (x.length - 1 + 1) (compute_difference_table y).length)
          (List.replicate y.length 0))
        y.length := rfl
  rw [hstruct, hmaxk,
    newtonSubstitute_eval _ _ _ _ _ (by rw [nbcLoop_length]; simp),
    show x.length - 1 = y.length - 1 from by omega,
    nbcLoop_eval y _ (by omega) y.length 0 (List.replicate y.length 0)
      (by omega) (by simp),
    evaluate_polynomial_replicate_zero, zero_add]
  set d : Nat := x.length - 1 - m with hd
  have hs : (lget x m - lget x (y.length - 1)) / h = -(d : ℚ) := by
    rw [show y.length - 1 = x.length - 1 from by omega,
      hexact m hm, hexact (x.length - 1) (by omega), hd]
    push_cast [show ((x.length - 1 - m : Nat) : ℚ) = ((x.length - 1 : Nat) : ℚ) - (m : ℚ) from by
      push_cast [Nat.cast_sub (show m ≤ x.length - 1 from by omega)]
      ring]
    field_simp
    ring
  rw [hs, show (0:Nat) + y.length = y.length from by omega,
    show Finset.Ico 0 y.length = Finset.range y.length from
      (congrFun Finset.range_eq_Ico y.length).symm]
  have hterm : ∀ k ∈ Finset.range y.length,
      lget (dIter y k) (y.length - 1 - k) / (Nat.factorial k : ℚ) *
        ∏ i ∈ Finset.range k, (-(d:ℚ) + i) =
        Bq (-(d:ℚ)) k * lget (dIter y k) (y.length - 1 - k) := by
    intro k _
    rw [Bq]
    ring
  rw [Finset.sum_congr rfl hterm,
    ← Finset.sum_subset
      (Finset.range_subset.mpr (show d + 1 ≤ y.length from by omega))
      (fun k _ hk => by
        rw [Finset.mem_range] at hk
        rw [Bq_neg_nat_vanish d k (by omega), zero_mul])]
  have hident := backward_difference_identity y d (y.length - 1)
    (by omega) (by omega)
  have hidx : ∀ k ∈ Finset.range (d + 1),
      Bq (-(d:ℚ)) k * lget (dIter y k) (y.length - 1 - k) =
        Bq (-(d:ℚ)) k * lget (dIter y k) (y.length - 1 - k) := fun k _ => rfl
  rw [hident, show y.length - 1 - d = m from by omega]

/-! ### C1 assembly -/

theorem np_gradient_length (y x : List ℚ) :
    (np_gradient y x).length = y.length := by
  rw [np_gradient, List.length_map, List.length_range]

theorem mem_points_index {l : List (ℚ × ℚ)} {p : ℚ × ℚ} (hp : p ∈ l) :
    ∃ m, m < l.length ∧ lget (l.map Prod.fst) m = p.1 ∧
      lget (l.map Prod.snd) m = p.2 := by
  obtain ⟨m, hm, hget⟩ := List.mem_iff_getElem.mp hp
  refine ⟨m, hm, ?_, ?_⟩
  · rw [lget_eq_getElem?, List.getElem?_map, List.getElem?_eq_getElem hm,
      ← hget]
    rfl
  · rw [lget_eq_getElem?, List.getElem?_map, List.getElem?_eq_getElem hm,
      ← hget]
    rfl

theorem nodup_lget_ne (xs : List ℚ) (hnd : xs.Nodup) {i j : Nat} (hij : i ≠ j)
    (hi : i < xs.length) (hj : j < xs.length) : lget xs i ≠ lget xs j := by
  intro hcon
  rw [lget_eq_getElem?, lget_eq_getElem?, List.getElem?_eq_getElem hi,
    List.getElem?_eq_getElem hj] at hcon
  simp only [Option.getD_some] at hcon
  exact hij ((List.Nodup.getElem_inj_iff hnd).mp hcon)

/-- C1 (corrected): node reproduction by the five interpolation
operations, in exact rational arithmetic. Direct (via Björck–Pereyra) and
Lagrange reproduce every input node exactly whenever they succeed. Newton
forward/backward reproduce every node exactly provided the sorted nodes
are *exactly* equidistant; the 1e-9 equidistance tolerance alone is not
enough (see the counterexample, which misses a node by more than 1e-9).
Hermite reproduces every node exactly provided consecutive sorted nodes
are at least the 1e-15 table guard apart. -/
theorem interpolation_reproduces_nodes (points : List (ℚ × ℚ))
    (x_evals : List ℚ) (x_eval : ℚ) :
    (∀ r : InterpolationResponse, direct_interpolation points x_evals = .ok r →
      ∀ p ∈ points, evaluate_polynomial r.coefficients p.1 = p.2) ∧
    (∀ r : LagrangeResponse, lagrange_interpolation points x_eval = .ok r →
      ∀ p ∈ points, evaluate_polynomial r.coefficients p.1 = p.2) ∧
    (∀ r : InterpolationResponse,
      newton_forward_interpolation points x_evals = .ok r →
      (∀ i, i < points.length →
        lget ((sortPointsByX points).map Prod.fst) i =
          lget ((sortPointsByX points).map Prod.fst) 0 +
            i * (lget ((sortPointsByX points).map Prod.fst) 1 -
              lget ((sortPointsByX points).map Prod.fst) 0)) →
      ∀ p ∈ points, evaluate_polynomial r.coefficients p.1 = p.2) ∧
    (∀ r : InterpolationResponse,
      newton_backward_interpolation points x_evals = .ok r →
      (∀ i, i < points.length →
        lget ((sortPointsByX points).map Prod.fst) i =
          lget ((sortPointsByX points).map Prod.fst) 0 +
            i * (lget ((sortPointsByX points).map Prod.fst) 1 -
              lget ((sortPointsByX points).map Prod.fst) 0)) →
      ∀ p ∈ points, evaluate_polynomial r.coefficients p.1 = p.2) ∧
    (∀ r : InterpolationResponse, hermite_interpolation points x_evals = .ok r →
      (∀ i, i + 1 < points.length →
        hermiteGuard ≤ lget ((sortPointsByX points).map Prod.fst) (i + 1) -
          lget ((sortPointsByX points).map Prod.fst) i) →
      ∀ p ∈ points, evaluate_polynomial r.coefficients p.1 = p.2) := by
  have hslen : (sortPointsByX points).length = points.length := by
    rw [sortPointsByX, List.length_mergeSort]
  have hxlen : ((sortPointsByX points).map Prod.fst).length = points.length := by
    rw [List.length_map, hslen]
  have hylen : ((sortPointsByX points).map Prod.snd).length = points.length := by
    rw [List.length_map, hslen]
  refine ⟨?_, ?_, ?_, ?_, ?_⟩
  · -- direct interpolation
    intro r hok p hp
    obtain ⟨h2, hbp, _⟩ := direct_interpolation_ok hok
    obtain ⟨m, hm, hx, hy⟩ := mem_points_index hp
    have hval := bjorck_pereyra_exact bpTolerance (points.map Prod.fst)
      (points.map Prod.snd) (by norm_num [bpTolerance]) hbp m
      (by rw [List.length_map]; exact hm)
    rw [hx, hy] at hval
    exact hval
  · -- Lagrange interpolation
    intro r hok p hp
    obtain ⟨h2, hdup, hcoeff, _, _⟩ := lagrange_interpolation_ok hok
    obtain ⟨m, hm, hx, hy⟩ := mem_points_index hp
    have hnd := (hasExactDuplicate_false_iff _).mp hdup
    have hval := get_lagrange_coefficients_exact points hnd m hm
    rw [hx, hy] at hval
    rw [hcoeff]
    exact hval
  · -- Newton forward
    intro r hok hexact p hp
    obtain ⟨h2, hdup, hvaleq, hcoeff, _⟩ := newton_forward_interpolation_ok hok
    have hnd := (hasExactDuplicate_false_iff _).mp hdup
    have hh : lget ((sortPointsByX points).map Prod.fst) 1 -
        lget ((sortPointsByX points).map Prod.fst) 0 ≠ 0 := by
      intro hcon
      exact nodup_lget_ne _ hnd (show (0:Nat) ≠ 1 from by omega)
        (by omega) (by omega) (sub_eq_zero.mp hcon).symm
    have hp2 : p ∈ sortPointsByX points :=
      (sortPointsByX_perm points).mem_iff.mpr hp
    obtain ⟨m, hm, hx, hy⟩ := mem_points_index hp2
    have hval := newton_forward_node_exact
      ((sortPointsByX points).map Prod.snd)
      ((sortPointsByX points).map Prod.fst)
      _ hh (by rw [hxlen, hylen]) (by omega)
      (fun i hi => hexact i (by omega)) m (by omega)
    rw [hx, hy] at hval
    rw [hcoeff]
    exact hval
  · -- Newton backward
    intro r hok hexact p hp
    obtain ⟨h2, hdup, hvaleq, hcoeff, _⟩ := newton_backward_interpolation_ok hok
    have hnd := (hasExactDuplicate_false_iff _).mp hdup
    have hh : lget ((sortPointsByX points).map Prod.fst) 1 -
        lget ((sortPointsByX points).map Prod.fst) 0 ≠ 0 := by
      intro hcon
      exact nodup_lget_ne _ hnd (show (0:Nat) ≠ 1 from by omega)
        (by omega) (by omega) (sub_eq_zero.mp hcon).symm
    have hp2 : p ∈ sortPointsByX points :=
      (sortPointsByX_perm points).mem_iff.mpr hp
    obtain ⟨m, hm, hx, hy⟩ := mem_points_index hp2
    have hval := newton_backward_node_exact
      ((sortPointsByX points).map Prod.snd)
      ((sortPointsByX points).map Prod.fst)
      _ hh (by rw [hxlen, hylen]) (by omega)
      (fun i hi => hexact i (by omega)) m (by omega)
    rw [hx, hy] at hval
    rw [hcoeff]
    exact hval
  · -- Hermite
    intro r hok hgap p hp
    obtain ⟨h2, hdup, hcoeff, _⟩ := hermite_interpolation_ok hok
    have hp2 : p ∈ sortPointsByX points :=
      (sortPointsByX_perm points).mem_iff.mpr hp
    obtain ⟨m, hm, hx, hy⟩ := mem_points_index hp2
    have hval := (hermite_exact_aux
      ((sortPointsByX points).map Prod.fst)
      ((sortPointsByX points).map Prod.snd)
      (np_gradient ((sortPointsByX points).map Prod.snd)
        ((sortPointsByX points).map Prod.fst))
      (by rw [hxlen, hylen])
      (by rw [np_gradient_length, hxlen, hylen])
      (by omega)
      (fun i hi => hgap i (by omega))
      m (by omega)).1
    rw [hx, hy] at hval
    rw [hcoeff]
    exact hval

set_option maxHeartbeats 1000000 in
/-- C1 counterexample: the nodes `0, 1, 2 + 9e-10` pass the 1e-9
equidistance check of `newton_forward_interpolation` (the step deviation
is only 9e-10), the call succeeds, yet evaluating the returned
coefficients at the third input node gives `10 + 135e-10 + 405e-20`,
missing the stored value `10` by about `1.35e-8 > 1e-9`. -/
theorem newton_tolerance_counterexample :
    newton_forward_interpolation
        [((0:ℚ), (0:ℚ)), (1, 0), (2 + 9/10^10, 10)] [] =
      .ok ⟨none, [0, -5, 5], 2⟩ ∧
    |evaluate_polynomial [0, -5, 5] (2 + 9/10^10) -
        lget ([0, 0, 10] : List ℚ) 2| > 1/10^9 := by
  have habs : |(9:ℚ) / 10000000000| = 9 / 10000000000 :=
    abs_of_nonneg (by norm_num)
  constructor
  · norm_num [newton_forward_interpolation, hasExactDuplicate, sortPointsByX,
      validate_equidistant, get_newton_forward_coefficients, nfcLoop, nfcTerm,
      newtonSubstitute, addScaled, mulLinear, compute_difference_table,
      diffRows, diffRow, lget2, lget, eqTolerance, List.range_succ,
      List.dedup, List.replicate, List.mergeSort, List.foldlM,
      except_bind_ok, except_bind_error, Nat.factorial, habs]
  · have hval : evaluate_polynomial [0, -5, 5] (2 + 9/10^10) =
        10 + 135/10^10 + 405/10^20 := by
      norm_num [evaluate_polynomial]
    rw [hval, show lget ([0, 0, 10] : List ℚ) 2 = 10 from rfl,
      show (10:ℚ) + 135/10^10 + 405/10^20 - 10 = 135/10^10 + 405/10^20 from
        by ring,
      abs_of_nonneg (by norm_num)]
    norm_num

set_option maxHeartbeats 1600000 in
/-- Witness for C1: on the exactly equidistant points `(0,0), (1,1)` every
method succeeds and the returned coefficients reproduce the input
nodes. -/
theorem interpolation_reproduces_nodes_witness :
    evaluate_polynomial [0, 1] (0:ℚ) = 0 ∧
    evaluate_polynomial [0, 1] (1:ℚ) = 1 ∧
    evaluate_polynomial [0, 1] (1:ℚ) = 1 ∧
    evaluate_polynomial [0, 1] (0:ℚ) = 0 ∧
    evaluate_polynomial [0, 1, 0, 0] (1:ℚ) = 1 := by
  obtain ⟨hd, hl, hnf, hnb, hh⟩ :=
    interpolation_reproduces_nodes [((0:ℚ), (0:ℚ)), (1, 1)] [] 1
  have hxs : (sortPointsByX [((0:ℚ), (0:ℚ)), (1, 1)]).map Prod.fst = [0, 1] := by
    norm_num [sortPointsByX, List.mergeSort]
  refine ⟨?_, ?_, ?_, ?_, ?_⟩
  · exact hd ⟨none, [0, 1], 1⟩
      (by norm_num [direct_interpolation, hasExactDuplicate, bjorck_pereyra,
        hasCloseNodes, bpPhase1Step, bpPhase2, bpPhase2Inner, lget,
        bpTolerance, List.range_succ, List.foldlM, List.dedup,
        List.replicate, except_bind_ok, except_bind_error])
      (0, 0) (by norm_num)
  · exact hl ⟨1, [0, 1], 1⟩
      (by norm_num [lagrange_interpolation, hasExactDuplicate,
        get_lagrange_coefficients, multiply_polynomials, evaluate_polynomial,
        lget, List.range_succ, List.dedup, List.replicate])
      (1, 1) (by norm_num)
  · exact hnf ⟨none, [0, 1], 1⟩
      (by norm_num [newton_forward_interpolation, hasExactDuplicate,
        sortPointsByX, validate_equidistant, get_newton_forward_coefficients,
        nfcLoop, nfcTerm, newtonSubstitute, addScaled, mulLinear,
        compute_difference_table, diffRows, diffRow, lget2, lget,
        eqTolerance, List.range_succ, List.dedup, List.replicate,
        List.mergeSort, List.foldlM, except_bind_ok, except_bind_error,
        Nat.factorial])
      (by
        rw [hxs]
        intro i hi
        have hi2 : i < 2 := by simpa using hi
        interval_cases i <;> norm_num [lget])
      (1, 1) (by norm_num)
  · exact hnb ⟨none, [0, 1], 1⟩
      (by norm_num [newton_backward_interpolation, hasExactDuplicate,
        sortPointsByX, validate_equidistant, get_newton_backward_coefficients,
        nbcLoop, nbcTerm, newtonSubstitute, addScaled, mulLinear,
        compute_difference_table, diffRows, diffRow, lget2, lget,
        eqTolerance, List.range_succ, List.dedup, List.replicate,
        List.mergeSort, List.foldlM, except_bind_ok, except_bind_error,
        Nat.factorial])
      (by
        rw [hxs]
        intro i hi
        have hi2 : i < 2 := by simpa using hi
        interval_cases i <;> norm_num [lget])
      (0, 0) (by norm_num)
  · exact hh ⟨none, [0, 1, 0, 0], 3⟩
      (by norm_num [hermite_interpolation, hasExactDuplicate, sortPointsByX,
        get_hermite_coefficients, hermiteCol, hermiteCol1, hermiteNextCol,
        doubled, convert_nested_to_standard, cnsAux, cnsStep, mulLinear,
        np_gradient, hermiteGuard, lget, List.range_succ, List.dedup,
        List.replicate, List.mergeSort])
      (by
        rw [hxs]
        intro i hi
        have hi0 : i = 0 := by
          have h2 : i + 1 < 2 := by simpa using hi
          omega
        subst hi0
        norm_num [lget, hermiteGuard])
      (1, 1) (by norm_num)

/-! ### Heap model of the in-place solvers (frame property)

Python passes lists by reference and the solvers mutate working arrays in
place; the sources copy every caller-supplied list (`x[:]`, `f[:]`,
`[row[:] for row in A]`, `b[:]`) before mutating. The heap model makes
this observable: objects live in a `Store`, arguments are addresses, and
each solver allocates copies and writes only to them. Local lists that
never alias an argument (the scaling vector `s`, the solution vector) are
modelled as plain values. -/

/-- A heap object: a float list (`vec`) or a list of references to other
objects (`refs`; a Python matrix is a list of references to row lists). -/
inductive Obj where
  | vec : List ℚ → Obj
  | refs : List Nat → Obj
deriving DecidableEq, Repr

/-- The heap: objects addressed by position, allocation appends. -/
abbrev Store := List Obj

def readVec (σ : Store) (a : Nat) : List ℚ :=
  match σ.getD a (Obj.vec []) with
  | Obj.vec d => d
  | Obj.refs _ => []

def readRefs (σ : Store) (a : Nat) : List Nat :=
  match σ.getD a (Obj.vec []) with
  | Obj.refs r => r
  | Obj.vec _ => []

def writeObj (σ : Store) (a : Nat) (o : Obj) : Store := σ.set a o

def allocObj (σ : Store) (o : Obj) : Store × Nat := (σ ++ [o], σ.length)

/-- Agreement of two stores on every address below `n` (the addresses the
caller can reach). -/
def storeAgreesBelow (σ σ' : Store) (n : Nat) : Prop :=
  ∀ a, a < n → σ'.getD a (Obj.vec []) = σ.getD a (Obj.vec [])

theorem storeAgreesBelow_refl (σ : Store) (n : Nat) : storeAgreesBelow σ σ n :=
  fun _ _ => rfl

theorem storeAgreesBelow_trans {σ1 σ2 σ3 : Store} {n : Nat}
    (h1 : storeAgreesBelow σ1 σ2 n) (h2 : storeAgreesBelow σ2 σ3 n) :
    storeAgreesBelow σ1 σ3 n :=
  fun a ha => (h2 a ha).trans (h1 a ha)

/-- A write at or above the caller frontier leaves it untouched. -/
theorem writeObj_agrees (σ : Store) (a : Nat) (o : Obj) (n : Nat)
    (h : n ≤ a) : storeAgreesBelow σ (writeObj σ a o) n := by
  intro b hb
  rw [writeObj, List.getD_eq_getElem?_getD, List.getD_eq_getElem?_getD,
    List.getElem?_set_ne (by omega)]

/-- Allocation leaves existing addresses untouched. -/
theorem append_agrees (σ : Store) (l : List Obj) (n : Nat)
    (h : n ≤ σ.length) : storeAgreesBelow σ (σ ++ l) n := by
  intro b hb
  rw [getD_append_left' σ l _ (by omega)]

/-- Heap version of phase 1 of `bjorck_pereyra`: same downward loop, the
division results written into the `c`-copy at address `ac`; an error
carries the store at the moment of the raise. -/
def hbpPhase1Step (tol : ℚ) (ax ac k : Nat) :
    Nat → Store → Except (Store × SolverError) Store
  | 0, σ => .ok σ
  | i + 1, σ =>
    if i + 1 ≤ k then .ok σ
    else
      let diff := lget (readVec σ ax) (i + 1) - lget (readVec σ ax) (i - k)
      if |diff| < tol then .error (σ, .duplicateNodes)
      else
        hbpPhase1Step tol ax ac k i
          (writeObj σ ac (.vec ((readVec σ ac).set (i + 1)
            ((lget (readVec σ ac) (i + 1) - lget (readVec σ ac) i) / diff))))

/-- Heap version of the phase-2 inner loop. -/
def hbpPhase2Inner (ax ac k : Nat) : Nat → Nat → Store → Store
  | _, 0, σ => σ
  | i, m + 1, σ =>
    hbpPhase2Inner ax ac k (i + 1) m
      (writeObj σ ac (.vec ((readVec σ ac).set i
        (lget (readVec σ ac) i -
          lget (readVec σ ax) k * lget (readVec σ ac) (i + 1)))))

/-- Heap version of the phase-2 outer loop. -/
def hbpPhase2 (ax ac n : Nat) : Nat → Store → Store
  | 0, σ => hbpPhase2Inner ax ac 0 0 (n - 1) σ
  | k + 1, σ =>
    hbpPhase2 ax ac n k
      (hbpPhase2Inner ax ac (k + 1) (k + 1) (n - 1 - (k + 1)) σ)

/-- Heap version of `bjorck_pereyra(x, f, tolerance)`: the arguments are
the addresses of the caller's two lists; the function first allocates the
copies `x = x[:]`, `c = f[:]` and then mutates only the `c` copy,
returning its address on success. -/
def hBjorckPereyra (tol : ℚ) (σ0 : Store) (axin afin : Nat) :
    Store × Except SolverError Nat :=
  let p1 := allocObj σ0 (.vec (readVec σ0 axin))
  let p2 := allocObj p1.1 (.vec (readVec p1.1 afin))
  let ax := p1.2
  let ac := p2.2
  let σ2 := p2.1
  let n := (readVec σ2 ax).length
  if (readVec σ2 afin).length ≠ n then (σ2, .error .dimensionMismatch)
  else if n < 1 then (σ2, .error .insufficientPoints)
  else if hasCloseNodes tol (readVec σ2 ax) then (σ2, .error .duplicateNodes)
  else if n = 1 then (σ2, .ok ac)
  else
    match (List.range (n - 1)).foldlM
        (fun σ k => hbpPhase1Step tol ax ac k (n - 1) σ) σ2 with
    | .error pe => (pe.1, .error pe.2)
    | .ok σ3 => (hbpPhase2 ax ac n (n - 2) σ3, .ok ac)

theorem hbpPhase1Step_frame (tol : ℚ) (ax ac k n0 : Nat) (hac : n0 ≤ ac) :
    ∀ (i : Nat) (σ : Store),
      (∀ σ', hbpPhase1Step tol ax ac k i σ = .ok σ' →
        storeAgreesBelow σ σ' n0) ∧
      (∀ σe e, hbpPhase1Step tol ax ac k i σ = .error (σe, e) →
        storeAgreesBelow σ σe n0) := by
  intro i
  induction i with
  | zero =>
    intro σ
    refine ⟨fun σ' h => ?_, fun σe e h => ?_⟩
    · rw [hbpPhase1Step] at h
      cases h
      exact storeAgreesBelow_refl _ _
    · rw [hbpPhase1Step] at h
      cases h
  | succ i ih =>
    intro σ
    refine ⟨fun σ' h => ?_, fun σe e h => ?_⟩
    · rw [hbpPhase1Step] at h
      by_cases hik : i + 1 ≤ k
      · rw [if_pos hik] at h
        cases h
        exact storeAgreesBelow_refl _ _
      · rw [if_neg hik] at h
        dsimp only at h
        by_cases hdiff : |lget (readVec σ ax) (i + 1) -
            lget (readVec σ ax) (i - k)| < tol
        · rw [if_pos hdiff] at h
          cases h
        · rw [if_neg hdiff] at h
          exact storeAgreesBelow_trans
            (writeObj_agrees _ _ _ _ hac) ((ih _).1 σ' h)
    · rw [hbpPhase1Step] at h
      by_cases hik : i + 1 ≤ k
      · rw [if_pos hik] at h
        cases h
      · rw [if_neg hik] at h
        dsimp only at h
        by_cases hdiff : |lget (readVec σ ax) (i + 1) -
            lget (readVec σ ax) (i - k)| < tol
        · rw [if_pos hdiff] at h
          cases h
          exact storeAgreesBelow_refl _ _
        · rw [if_neg hdiff] at h
          exact storeAgreesBelow_trans
            (writeObj_agrees _ _ _ _ hac) ((ih _).2 σe e h)

theorem hbpPhase2Inner_frame (ax ac k n0 : Nat) (hac : n0 ≤ ac) :
    ∀ (m i : Nat) (σ : Store),
      storeAgreesBelow σ (hbpPhase2Inner ax ac k i m σ) n0 := by
  intro m
  induction m with
  | zero =>
    intro i σ
    rw [hbpPhase2Inner]
    exact storeAgreesBelow_refl _ _
  | succ m ih =>
    intro i σ
    rw [hbpPhase2Inner]
    exact storeAgreesBelow_trans (writeObj_agrees _ _ _ _ hac) (ih _ _)

theorem hbpPhase2_frame (ax ac n n0 : Nat) (hac : n0 ≤ ac) :
    ∀ (K : Nat) (σ : Store),
      storeAgreesBelow σ (hbpPhase2 ax ac n K σ) n0 := by
  intro K
  induction K with
  | zero =>
    intro σ
    rw [hbpPhase2]
    exact hbpPhase2Inner_frame ax ac 0 n0 hac _ _ _
  | succ K ih =>
    intro σ
    rw [hbpPhase2]
    exact storeAgreesBelow_trans
      (hbpPhase2Inner_frame ax ac (K + 1) n0 hac _ _ _) (ih _)

/-- Frame property of a store-threaded `foldlM` whose step touches only
addresses at or above the frontier. -/
theorem foldlM_store_frame
    (step : Store → Nat → Except (Store × SolverError) Store) (n0 : Nat)
    (hok : ∀ σ k σ', step σ k = .ok σ' → storeAgreesBelow σ σ' n0)
    (herr : ∀ σ k σe e, step σ k = .error (σe, e) → storeAgreesBelow σ σe n0) :
    ∀ (l : List Nat) (σ : Store),
      (∀ σ', l.foldlM step σ = .ok σ' → storeAgreesBelow σ σ' n0) ∧
      (∀ σe e, l.foldlM step σ = .error (σe, e) → storeAgreesBelow σ σe n0) := by
  intro l
  induction l with
  | nil =>
    intro σ
    refine ⟨fun σ' h => ?_, fun σe e h => ?_⟩
    · rw [List.foldlM_nil] at h
      cases h
      exact storeAgreesBelow_refl _ _
    · rw [List.foldlM_nil] at h
      cases h
  | cons b t ih =>
    intro σ
    refine ⟨fun σ' h => ?_, fun σe e h => ?_⟩
    · rw [List.foldlM_cons] at h
      cases hs : step σ b with
      | error pe => rw [hs, except_bind_error] at h; cases h
      | ok σ1 =>
        rw [hs, except_bind_ok] at h
        exact storeAgreesBelow_trans (hok σ b σ1 hs) ((ih σ1).1 σ' h)
    · rw [List.foldlM_cons] at h
      cases hs : step σ b with
      | error pe =>
        rw [hs, except_bind_error] at h
        injection h with h2
        subst h2
        exact herr σ b σe e hs
      | ok σ1 =>
        rw [hs, except_bind_ok] at h
        exact storeAgreesBelow_trans (hok σ b σ1 hs) ((ih σ1).2 σe e h)

/-- Frame property of the heap Björck–Pereyra: every caller-reachable
address is untouched, on success and on error alike. -/
theorem hBjorckPereyra_frame (tol : ℚ) (σ0 : Store) (axin afin : Nat) :
    storeAgreesBelow σ0 (hBjorckPereyra tol σ0 axin afin).1 σ0.length := by
  rw [hBjorckPereyra]
  set σ2 := (σ0 ++ [Obj.vec (readVec σ0 axin)]) ++
    [Obj.vec (readVec (σ0 ++ [Obj.vec (readVec σ0 axin)]) afin)] with hσ2
  have hbase : storeAgreesBelow σ0 σ2 σ0.length :=
    storeAgreesBelow_trans
      (append_agrees σ0 [Obj.vec (readVec σ0 axin)] σ0.length (le_refl _))
      (append_agrees _ _ σ0.length (by rw [List.length_append]; omega))
  have hac : σ0.length ≤ σ0.length + 1 := by omega
  split
  · exact hbase
  split
  · exact hbase
  split
  · exact hbase
  split
  · exact hbase
  have hframe := foldlM_store_frame
    (fun σ k => hbpPhase1Step tol (allocObj σ0 (Obj.vec (readVec σ0 axin))).2
      (allocObj (allocObj σ0 (Obj.vec (readVec σ0 axin))).1
        (Obj.vec (readVec (allocObj σ0 (Obj.vec (readVec σ0 axin))).1 afin))).2
      k ((readVec (allocObj (allocObj σ0 (Obj.vec (readVec σ0 axin))).1
        (Obj.vec (readVec (allocObj σ0 (Obj.vec (readVec σ0 axin))).1 afin))).1
          (allocObj σ0 (Obj.vec (readVec σ0 axin))).2).length - 1) σ)
    σ0.length
    (fun σ k σ' h => (hbpPhase1Step_frame tol _ _ _ σ0.length
      (by rw [allocObj, allocObj, List.length_append]; omega) _ σ).1 σ' h)
    (fun σ k σe e h => (hbpPhase1Step_frame tol _ _ _ σ0.length
      (by rw [allocObj, allocObj, List.length_append]; omega) _ σ).2 σe e h)
  split
  next pe hmatch =>
    exact storeAgreesBelow_trans hbase
      ((hframe _ _).2 pe.1 pe.2 hmatch)
  next σ3 hmatch =>
    exact storeAgreesBelow_trans hbase
      (storeAgreesBelow_trans ((hframe _ _).1 σ3 hmatch)
        (hbpPhase2_frame _ _ _ σ0.length
          (by rw [allocObj, allocObj, List.length_append]; omega) _ _))

/-- Read `A[i][j]` through the store (row address, then row entry). -/
def hGetA (σ : Store) (aA i j : Nat) : ℚ :=
  lget (readVec σ ((readRefs σ aA).getD i 0)) j

/-- Write `A[i][j] = v` through the store; an out-of-range row index
aborts the Python call with `IndexError` before any write, so the model
leaves the store unchanged. -/
def hSetA (σ : Store) (aA i j : Nat) (v : ℚ) : Store :=
  match (readRefs σ aA)[i]? with
  | some ra => writeObj σ ra (.vec ((readVec σ ra).set j v))
  | none => σ

def hGetB (σ : Store) (ab i : Nat) : ℚ := lget (readVec σ ab) i

def hSetB (σ : Store) (ab i : Nat) (v : ℚ) : Store :=
  writeObj σ ab (.vec ((readVec σ ab).set i v))

/-- The matrix value reachable from a refs object (read-only snapshot). -/
def hMatrix (σ : Store) (aA : Nat) : List (List ℚ) :=
  (readRefs σ aA).map fun ra => readVec σ ra

/-- `A[k], A[mr] = A[mr], A[k]` on the row-reference list (both reads
would raise `IndexError` out of range, leaving the store unchanged). -/
def hSwapRows (σ : Store) (aA k mr : Nat) : Store :=
  match (readRefs σ aA)[k]?, (readRefs σ aA)[mr]? with
  | some rk, some rmr =>
    writeObj σ aA (.refs (((readRefs σ aA).set k rmr).set mr rk))
  | _, _ => σ

def hSwapB (σ : Store) (ab k mr : Nat) : Store :=
  writeObj σ ab (.vec (((readVec σ ab).set k (lget (readVec σ ab) mr)).set mr
    (lget (readVec σ ab) k)))

/-- Allocate one row object per row value, returning the new store and
the row addresses ( `[row[:] for row in A]` ). -/
def allocRows (σ : Store) : List (List ℚ) → Store × List Nat
  | [] => (σ, [])
  | r :: rs =>
    let p := allocObj σ (.vec r)
    let q := allocRows p.1 rs
    (q.1, p.2 :: q.2)

theorem allocRows_spec :
    ∀ (rows : List (List ℚ)) (σ : Store),
      (allocRows σ rows).1 = σ ++ rows.map Obj.vec ∧
      ∀ a ∈ (allocRows σ rows).2, σ.length ≤ a := by
  intro rows
  induction rows with
  | nil =>
    intro σ
    refine ⟨by rw [allocRows]; simp, fun a ha => ?_⟩
    rw [allocRows] at ha
    cases ha
  | cons r rs ih =>
    intro σ
    obtain ⟨h1, h2⟩ := ih (σ ++ [Obj.vec r])
    constructor
    · rw [allocRows]
      dsimp only [allocObj]
      rw [h1, List.map_cons, List.append_assoc]
      rfl
    · intro a ha
      rw [allocRows] at ha
      dsimp only [allocObj] at ha
      rcases List.mem_cons.mp ha with h | h
      · omega
      · have := h2 a h
        rw [List.length_append] at this
        simp only [List.length_cons, List.length_nil] at this
        omega

/-- The combined invariant of the in-place Gaussian loops: the caller
frontier is untouched and every row reference in the working matrix
object lies at or above it. -/
def gaussInv (σ3 : Store) (aA n0 : Nat) (σ : Store) : Prop :=
  storeAgreesBelow σ3 σ n0 ∧ ∀ a ∈ readRefs σ aA, n0 ≤ a

theorem readRefs_writeObj_vec (σ : Store) (a aA : Nat) (d : List ℚ) :
    ∀ b ∈ readRefs (writeObj σ a (.vec d)) aA, b ∈ readRefs σ aA ∨ a = aA := by
  intro b hb
  by_cases haa : a = aA
  · right; exact haa
  · left
    rw [readRefs, writeObj, List.getD_eq_getElem?_getD,
      List.getElem?_set_ne haa] at hb
    rw [readRefs, List.getD_eq_getElem?_getD]
    exact hb

theorem readRefs_writeObj_vec_self (σ : Store) (aA : Nat) (d : List ℚ)
    (ha : aA < σ.length) :
    readRefs (writeObj σ aA (.vec d)) aA = [] := by
  rw [readRefs, writeObj, List.getD_eq_getElem?_getD,
    List.getElem?_set_self ha]
  rfl

theorem writeObj_out_of_range (σ : Store) (a : Nat) (o : Obj)
    (h : σ.length ≤ a) : writeObj σ a o = σ :=
  List.set_eq_of_length_le h

theorem readRefs_writeObj_refs_self (σ : Store) (aA : Nat) (r : List Nat)
    (ha : aA < σ.length) :
    readRefs (writeObj σ aA (.refs r)) aA = r := by
  rw [readRefs, writeObj, List.getD_eq_getElem?_getD,
    List.getElem?_set_self ha]
  rfl

theorem hSetA_inv (σ3 : Store) (aA n0 : Nat) (σ : Store) (i j : Nat) (v : ℚ)
    (hI : gaussInv σ3 aA n0 σ) : gaussInv σ3 aA n0 (hSetA σ aA i j v) := by
  obtain ⟨hagree, hrefs⟩ := hI
  rw [hSetA]
  cases hra : (readRefs σ aA)[i]? with
  | none => exact ⟨hagree, hrefs⟩
  | some ra =>
    show gaussInv σ3 aA n0 (writeObj σ ra (Obj.vec ((readVec σ ra).set j v)))
    have hmem : ra ∈ readRefs σ aA := List.getElem?_mem hra
    have hra0 : n0 ≤ ra := hrefs ra hmem
    refine ⟨storeAgreesBelow_trans hagree (writeObj_agrees _ _ _ _ hra0), ?_⟩
    intro b hb
    rcases readRefs_writeObj_vec σ ra aA _ b hb with h | h
    · exact hrefs b h
    · subst h
      rcases Nat.lt_or_ge ra σ.length with hlen | hlen
      · rw [readRefs_writeObj_vec_self σ ra _ hlen] at hb
        cases hb
      · rw [writeObj_out_of_range σ _ _ hlen] at hb
        exact hrefs b hb

theorem hSetB_inv (σ3 : Store) (aA n0 : Nat) (σ : Store) (ab i : Nat) (v : ℚ)
    (hab : n0 ≤ ab) (hI : gaussInv σ3 aA n0 σ) :
    gaussInv σ3 aA n0 (hSetB σ ab i v) := by
  obtain ⟨hagree, hrefs⟩ := hI
  rw [hSetB]
  refine ⟨storeAgreesBelow_trans hagree (writeObj_agrees _ _ _ _ hab), ?_⟩
  intro b hb
  rcases readRefs_writeObj_vec σ ab aA _ b hb with h | h
  · exact hrefs b h
  · subst h
    rcases Nat.lt_or_ge ab σ.length with hlen | hlen
    · rw [readRefs_writeObj_vec_self σ ab _ hlen] at hb
      cases hb
    · rw [writeObj, List.set_eq_of_length_le hlen] at hb
      exact hrefs b hb

theorem hSwapRows_inv (σ3 : Store) (aA n0 : Nat) (σ : Store) (k mr : Nat)
    (haA : n0 ≤ aA) (hI : gaussInv σ3 aA n0 σ) :
    gaussInv σ3 aA n0 (hSwapRows σ aA k mr) := by
  obtain ⟨hagree, hrefs⟩ := hI
  rw [hSwapRows]
  cases hk : (readRefs σ aA)[k]? with
  | none => exact ⟨hagree, hrefs⟩
  | some rk =>
    cases hmr : (readRefs σ aA)[mr]? with
    | none => exact ⟨hagree, hrefs⟩
    | some rmr =>
      show gaussInv σ3 aA n0
        (writeObj σ aA (Obj.refs (((readRefs σ aA).set k rmr).set mr rk)))
      refine ⟨storeAgreesBelow_trans hagree (writeObj_agrees _ _ _ _ haA), ?_⟩
      intro b hb
      rcases Nat.lt_or_ge aA σ.length with hlen | hlen
      · rw [readRefs_writeObj_refs_self σ aA _ hlen] at hb
        have hb2 : b ∈ (readRefs σ aA).set k rmr ∨ b = rk :=
          List.mem_or_eq_of_mem_set hb
        rcases hb2 with hb2 | hb2
        · rcases List.mem_or_eq_of_mem_set hb2 with hb3 | hb3
          · exact hrefs b hb3
          · subst hb3
            exact hrefs b (List.getElem?_mem hmr)
        · subst hb2
          exact hrefs b (List.getElem?_mem hk)
      · rw [writeObj_out_of_range σ _ _ hlen] at hb
        exact hrefs b hb

theorem hSwapB_inv (σ3 : Store) (aA n0 : Nat) (σ : Store) (ab k mr : Nat)
    (hab : n0 ≤ ab) (hI : gaussInv σ3 aA n0 σ) :
    gaussInv σ3 aA n0 (hSwapB σ ab k mr) := by
  obtain ⟨hagree, hrefs⟩ := hI
  rw [hSwapB]
  refine ⟨storeAgreesBelow_trans hagree (writeObj_agrees _ _ _ _ hab), ?_⟩
  intro b hb
  rcases readRefs_writeObj_vec σ ab aA _ b hb with h | h
  · exact hrefs b h
  · subst h
    rcases Nat.lt_or_ge ab σ.length with hlen | hlen
    · rw [readRefs_writeObj_vec_self σ ab _ hlen] at hb
      cases hb
    · rw [writeObj, List.set_eq_of_length_le hlen] at hb
      exact hrefs b hb

theorem foldl_store_pres {β : Type} (f : Store → β → Store) (I : Store → Prop)
    (hf : ∀ σ b, I σ → I (f σ b)) :
    ∀ (l : List β) (σ : Store), I σ → I (l.foldl f σ) := by
  intro l
  induction l with
  | nil => intro σ h; exact h
  | cons b t ih =>
    intro σ h
    rw [List.foldl_cons]
    exact ih _ (hf σ b h)

theorem readRefs_append_mid (σ : Store) (r : List Nat) (l2 : List Obj) :
    readRefs ((σ ++ [Obj.refs r]) ++ l2) σ.length = r := by
  rw [readRefs, getD_append_left' _ l2 _ (by simp), getD_append_length]

/-! Heap model of `gauss` from `use_maybe/gauss_equation_solver.py`: the
working matrix is a refs object holding freshly copied row vectors and
`b` a freshly copied vector, so every in-place update of the Python
loops is a store write at a fresh address. -/

/-- The conditional swap `A[k], A[max_row] = A[max_row], A[k]` followed
by the matching swap in `b` (performed only when a better pivot row was
found). -/
def hGaussSwap (σ : Store) (aA ab k mr : Nat) : Store :=
  if mr ≠ k then hSwapB (hSwapRows σ aA k mr) ab k mr else σ

/-- One eliminated row `i` under pivot row `k`:
`A[i][j] -= factor * A[k][j]` for `j = k .. n-1`, then
`b[i] -= factor * b[k]`; `factor` is read once at entry as in the
source. -/
def hGaussElimRow (σ : Store) (aA ab k i n : Nat) : Store :=
  let factor := hGetA σ aA i k / hGetA σ aA k k
  let σ1 := (List.range (n - k)).foldl
    (fun σ d => hSetA σ aA i (k + d)
      (hGetA σ aA i (k + d) - factor * hGetA σ aA k (k + d))) σ
  hSetB σ1 ab i (hGetB σ1 ab i - factor * hGetB σ1 ab k)

/-- Elimination of all rows below pivot row `k`. -/
def hGaussEliminate (σ : Store) (aA ab k n : Nat) : Store :=
  (List.range' (k + 1) (n - (k + 1)) 1).foldl
    (fun σ i => hGaussElimRow σ aA ab k i n) σ

/-- One outer step of the heap `gauss` at pivot column `k`: read-only
pivot search over the matrix snapshot, conditional row/`b`/`s` swaps,
singularity check, elimination. The scale list `s` is a plain local
value (it never aliases caller data); an error carries the store and
scale list at the moment of the raise. -/
def hGaussStep (strategy : PivotStrategy) (tol : ℚ) (aA ab n : Nat)
    (st : Store × List ℚ) (k : Nat) :
    Except ((Store × List ℚ) × SolverError) (Store × List ℚ) :=
  let max_row := findPivotRow strategy tol (hMatrix st.1 aA) st.2 k n
  let σ1 := hGaussSwap st.1 aA ab k max_row
  let s1 := if max_row ≠ k ∧ strategy = .scaled
    then (st.2.set k (lget st.2 max_row)).set max_row (lget st.2 k) else st.2
  if |hGetA σ1 aA k k| < tol then .error ((σ1, s1), .singularPivot)
  else .ok (hGaussEliminate σ1 aA ab k n, s1)

/-- The body of the heap `gauss` after the copies have been allocated:
scale-vector construction (read-only), the elimination loop, and the
read-only back substitution, all against the matrix at `aA` and the
vector at `ab`. -/
def hGaussRun (strategy : PivotStrategy) (tol : ℚ) (σ2 : Store)
    (aA ab : Nat) : Store × Except SolverError (List ℚ) :=
  let n := (readVec σ2 ab).length
  match (match strategy with
      | .scaled => gaussScaleVec tol (hMatrix σ2 aA) n
      | .absolute => .ok []) with
  | .error e => (σ2, .error e)
  | .ok s =>
    match (List.range (n - 1)).foldlM (hGaussStep strategy tol aA ab n)
        (σ2, s) with
    | .error pe => (pe.1.1, .error pe.2)
    | .ok st2 =>
      match gaussBackSub tol (hMatrix st2.1 aA) (readVec st2.1 ab) n n with
      | .error e => (st2.1, .error e)
      | .ok sol => (st2.1, .ok sol)

/-- Heap `gauss(A, b, pivot_strategy, tolerance)`: copies the caller's
rows (`[row[:] for row in A]`), allocates a fresh refs object for the
copied matrix and a copy of `b`, then runs the algorithm against the
copies only. -/
def hGauss (strategy : PivotStrategy) (tol : ℚ) (σ0 : Store)
    (aAin abin : Nat) : Store × Except SolverError (List ℚ) :=
  let p := allocRows σ0 (hMatrix σ0 aAin)
  let pA := allocObj p.1 (.refs p.2)
  let pb := allocObj pA.1 (.vec (readVec pA.1 abin))
  hGaussRun strategy tol pb.1 pA.2 pb.2

theorem hGaussSwap_inv (σ3 : Store) (aA n0 ab : Nat) (σ : Store)
    (k mr : Nat) (haA : n0 ≤ aA) (hab : n0 ≤ ab)
    (hI : gaussInv σ3 aA n0 σ) :
    gaussInv σ3 aA n0 (hGaussSwap σ aA ab k mr) := by
  rw [hGaussSwap]
  split
  · exact hSwapB_inv _ _ _ _ _ _ _ hab (hSwapRows_inv _ _ _ _ _ _ haA hI)
  · exact hI

theorem hGaussElimRow_inv (σ3 : Store) (aA n0 ab : Nat) (hab : n0 ≤ ab)
    (k i n : Nat) (σ : Store) (hI : gaussInv σ3 aA n0 σ) :
    gaussInv σ3 aA n0 (hGaussElimRow σ aA ab k i n) := by
  rw [hGaussElimRow]
  have hfold := foldl_store_pres
    (fun τ d => hSetA τ aA i (k + d)
      (hGetA τ aA i (k + d) -
        (hGetA σ aA i k / hGetA σ aA k k) * hGetA τ aA k (k + d)))
    (gaussInv σ3 aA n0)
    (fun τ d h => hSetA_inv _ _ _ _ _ _ _ h)
    (List.range (n - k)) σ hI
  exact hSetB_inv _ _ _ _ _ _ _ hab hfold

theorem hGaussEliminate_inv (σ3 : Store) (aA n0 ab : Nat) (hab : n0 ≤ ab)
    (k n : Nat) (σ : Store) (hI : gaussInv σ3 aA n0 σ) :
    gaussInv σ3 aA n0 (hGaussEliminate σ aA ab k n) := by
  rw [hGaussEliminate]
  exact foldl_store_pres _ (gaussInv σ3 aA n0)
    (fun σ i h => hGaussElimRow_inv σ3 aA n0 ab hab k i n σ h) _ _ hI

theorem hGaussStep_inv (strategy : PivotStrategy) (tol : ℚ) (σ3 : Store)
    (aA n0 ab n : Nat) (haA : n0 ≤ aA) (hab : n0 ≤ ab)
    (st : Store × List ℚ) (k : Nat) (hI : gaussInv σ3 aA n0 st.1) :
    (∀ st', hGaussStep strategy tol aA ab n st k = .ok st' →
      gaussInv σ3 aA n0 st'.1) ∧
    (∀ pe, hGaussStep strategy tol aA ab n st k = .error pe →
      gaussInv σ3 aA n0 pe.1.1) := by
  have hσ1 : gaussInv σ3 aA n0 (hGaussSwap st.1 aA ab k
      (findPivotRow strategy tol (hMatrix st.1 aA) st.2 k n)) :=
    hGaussSwap_inv _ _ _ _ _ _ _ haA hab hI
  constructor
  · intro st' h
    rw [hGaussStep] at h
    split at h
    · cases h
    · cases h
      exact hGaussEliminate_inv _ _ _ _ hab _ _ _ hσ1
  · intro pe h
    rw [hGaussStep] at h
    split at h
    · cases h
      exact hσ1
    · cases h

/-- Invariant preservation along a state-threaded `foldlM` whose errors
carry the state. -/
theorem foldlM_state_pres {τ ε : Type} (step : τ → Nat → Except ε τ)
    (J : τ → Prop) (K : ε → Prop)
    (hok : ∀ a b a', J a → step a b = .ok a' → J a')
    (herr : ∀ a b e, J a → step a b = .error e → K e) :
    ∀ (l : List Nat) (a : τ), J a →
      (∀ a', l.foldlM step a = .ok a' → J a') ∧
      (∀ e, l.foldlM step a = .error e → K e) := by
  intro l
  induction l with
  | nil =>
    intro a ha
    refine ⟨fun a' h => ?_, fun e h => ?_⟩
    · rw [List.foldlM_nil] at h
      cases h
      exact ha
    · rw [List.foldlM_nil] at h
      cases h
  | cons b t ih =>
    intro a ha
    refine ⟨fun a' h => ?_, fun e h => ?_⟩
    · rw [List.foldlM_cons] at h
      cases hs : step a b with
      | error e1 =>
        rw [hs, except_bind_error] at h
        cases h
      | ok a1 =>
        rw [hs, except_bind_ok] at h
        exact (ih a1 (hok a b a1 ha hs)).1 a' h
    · rw [List.foldlM_cons] at h
      cases hs : step a b with
      | error e1 =>
        rw [hs, except_bind_error] at h
        injection h with h2
        subst h2
        exact herr a b e1 ha hs
      | ok a1 =>
        rw [hs, except_bind_ok] at h
        exact (ih a1 (hok a b a1 ha hs)).2 e h

theorem hGaussRun_frame (strategy : PivotStrategy) (tol : ℚ) (σ2 : Store)
    (aA ab n0 : Nat) (haA : n0 ≤ aA) (hab : n0 ≤ ab)
    (hrefs : ∀ a ∈ readRefs σ2 aA, n0 ≤ a) :
    storeAgreesBelow σ2 (hGaussRun strategy tol σ2 aA ab).1 n0 := by
  rw [hGaussRun.eq_def]
  dsimp only
  have hInv : gaussInv σ2 aA n0 σ2 := ⟨storeAgreesBelow_refl _ _, hrefs⟩
  split
  · exact storeAgreesBelow_refl _ _
  next s hs =>
    have hP := foldlM_state_pres
      (hGaussStep strategy tol aA ab (readVec σ2 ab).length)
      (fun st => gaussInv σ2 aA n0 st.1)
      (fun pe => gaussInv σ2 aA n0 pe.1.1)
      (fun a b a' hJ h =>
        (hGaussStep_inv strategy tol σ2 aA n0 ab _ haA hab a b hJ).1 a' h)
      (fun a b e hJ h =>
        (hGaussStep_inv strategy tol σ2 aA n0 ab _ haA hab a b hJ).2 e h)
      (List.range ((readVec σ2 ab).length - 1)) (σ2, s) hInv
    split
    next pe hmatch => exact (hP.2 pe hmatch).1
    next st2 hmatch =>
      have hst2 := (hP.1 st2 hmatch).1
      split
      · exact hst2
      · exact hst2

/-- Frame property of the heap `gauss`: every caller-reachable address
holds the same object after the call, on success and on error alike. -/
theorem hGauss_frame (strategy : PivotStrategy) (tol : ℚ) (σ0 : Store)
    (aAin abin : Nat) :
    storeAgreesBelow σ0 (hGauss strategy tol σ0 aAin abin).1 σ0.length := by
  rw [hGauss]
  dsimp only [allocObj]
  obtain ⟨hp1, hp2⟩ := allocRows_spec (hMatrix σ0 aAin) σ0
  have hlenp : σ0.length ≤ (allocRows σ0 (hMatrix σ0 aAin)).1.length := by
    rw [hp1, List.length_append]
    omega
  have h1 : storeAgreesBelow σ0 (allocRows σ0 (hMatrix σ0 aAin)).1
      σ0.length := by
    rw [hp1]
    exact append_agrees _ _ _ (le_refl _)
  have h2 := append_agrees (allocRows σ0 (hMatrix σ0 aAin)).1
    [Obj.refs (allocRows σ0 (hMatrix σ0 aAin)).2] σ0.length hlenp
  have h3 := append_agrees ((allocRows σ0 (hMatrix σ0 aAin)).1 ++
    [Obj.refs (allocRows σ0 (hMatrix σ0 aAin)).2])
    [Obj.vec (readVec ((allocRows σ0 (hMatrix σ0 aAin)).1 ++
      [Obj.refs (allocRows σ0 (hMatrix σ0 aAin)).2]) abin)] σ0.length
    (by rw [List.length_append]; omega)
  refine storeAgreesBelow_trans
    (storeAgreesBelow_trans (storeAgreesBelow_trans h1 h2) h3) ?_
  refine hGaussRun_frame strategy tol _ _ _ σ0.length hlenp ?_ ?_
  · rw [List.length_append]
    omega
  · intro a ha
    rw [readRefs_append_mid] at ha
    exact hp2 a ha

/-- Heap `doolittle(A, b)`: copies the rows, a fresh refs object and a
copy of `b`, then the pure decomposition and substitutions (which only
read their arguments and build fresh lists). -/
def hDoolittle (σ0 : Store) (aAin abin : Nat) :
    Store × Except SolverError (List ℚ × List (List ℚ) × List (List ℚ)) :=
  let p := allocRows σ0 (hMatrix σ0 aAin)
  let pA := allocObj p.1 (.refs p.2)
  let pb := allocObj pA.1 (.vec (readVec pA.1 abin))
  (pb.1, doolittle (hMatrix pb.1 pA.2) (readVec pb.1 pb.2))

/-- Frame property of the heap `doolittle`: the call only allocates. -/
theorem hDoolittle_frame (σ0 : Store) (aAin abin : Nat) :
    storeAgreesBelow σ0 (hDoolittle σ0 aAin abin).1 σ0.length := by
  rw [hDoolittle]
  dsimp only [allocObj]
  obtain ⟨hp1, hp2⟩ := allocRows_spec (hMatrix σ0 aAin) σ0
  have hlenp : σ0.length ≤ (allocRows σ0 (hMatrix σ0 aAin)).1.length := by
    rw [hp1, List.length_append]
    omega
  have h1 : storeAgreesBelow σ0 (allocRows σ0 (hMatrix σ0 aAin)).1
      σ0.length := by
    rw [hp1]
    exact append_agrees _ _ _ (le_refl _)
  refine storeAgreesBelow_trans
    (storeAgreesBelow_trans h1 (append_agrees _ _ _ hlenp))
    (append_agrees _ _ _ ?_)
  rw [List.length_append]
  omega

/-! Heap model of `gauss_seidel_sor` from
`use_maybe/gauss_seidel_sor_equation_solver.py`: the omega and
diagonal-dominance checks read the caller's matrix before any copy is
made; afterwards the rows, the matrix object, `b` and the working
solution `x` are all fresh, and only `x` is ever written. -/

/-- One unknown `i` of a Gauss-Seidel/SOR sweep: near-zero-diagonal
check, residual from the current `x`, relaxed update written into the
`x` object at `ax`. -/
def hSorStep (aA ab ax n : Nat) (omega : ℚ) (σ : Store) (i : Nat) :
    Except (Store × SolverError) Store :=
  if |hGetA σ aA i i| < 1 / 10 ^ 10 then .error (σ, .nearZeroDiagonal)
  else
    let sum_lower := (((List.range i).map fun j =>
      hGetA σ aA i j * lget (readVec σ ax) j)).sum
    let sum_upper := (((List.range' i (n - i) 1).map fun j =>
      hGetA σ aA i j * lget (readVec σ ax) j)).sum
    let R_i := hGetB σ ab i - sum_lower - sum_upper
    .ok (writeObj σ ax (.vec ((readVec σ ax).set i
      (lget (readVec σ ax) i + omega * (R_i / hGetA σ aA i i)))))

/-- One full sweep over all unknowns. -/
def hSorSweep (σ : Store) (aA ab ax n : Nat) (omega : ℚ) :
    Except (Store × SolverError) Store :=
  (List.range n).foldlM (hSorStep aA ab ax n omega) σ

/-- The iteration loop of the heap `gauss_seidel_sor` with `fuel`
remaining iterations; `x_previous` is the (immutable) pre-sweep store
read at `ax`. -/
def hSorLoop (aA ab ax n : Nat) (omega tol : ℚ) :
    Nat → Store → Except (Store × SolverError) (Store × Nat)
  | 0, σ => .ok (σ, 0)
  | fuel + 1, σ =>
    match hSorSweep σ aA ab ax n omega with
    | .error pe => .error pe
    | .ok σ1 =>
      if pyMax ((List.range n).map fun i =>
          |lget (readVec σ1 ax) i - lget (readVec σ ax) i|) < tol then
        .ok (σ1, 1)
      else
        match hSorLoop aA ab ax n omega tol fuel σ1 with
        | .error pe => .error pe
        | .ok r => .ok (r.1, r.2 + 1)

/-- Heap `gauss_seidel_sor(A, b, omega, tolerance, max_iterations)`:
parameter and dominance checks against the caller's matrix, then copies
of the rows, the matrix object and `b`, a fresh solution object holding
the externally supplied initial guess `x0`, and the iteration loop; on
success the address of the solution object and the iteration count are
returned. -/
def hGaussSeidelSor (σ0 : Store) (aAin abin : Nat) (omega tol : ℚ)
    (max_iterations : Nat) (x0 : List ℚ) :
    Store × Except SolverError (Nat × Nat) :=
  if omega ≤ 0 ∨ 2 ≤ omega then (σ0, .error .invalidRelaxation)
  else if ¬ check_diagonal_dominance (hMatrix σ0 aAin) then
    (σ0, .error .notDiagDominant)
  else
    let p := allocRows σ0 (hMatrix σ0 aAin)
    let pA := allocObj p.1 (.refs p.2)
    let pb := allocObj pA.1 (.vec (readVec pA.1 abin))
    let px := allocObj pb.1 (.vec x0)
    match hSorLoop pA.2 pb.2 px.2 (readVec pb.1 pb.2).length omega tol
        max_iterations px.1 with
    | .error pe => (pe.1, .error pe.2)
    | .ok r => (r.1, .ok (px.2, r.2))

theorem hSorSweep_frame (aA ab ax n : Nat) (omega : ℚ) (n0 : Nat)
    (hax : n0 ≤ ax) (σ : Store) :
    (∀ σ', hSorSweep σ aA ab ax n omega = .ok σ' →
      storeAgreesBelow σ σ' n0) ∧
    (∀ σe e, hSorSweep σ aA ab ax n omega = .error (σe, e) →
      storeAgreesBelow σ σe n0) := by
  have h := foldlM_store_frame (hSorStep aA ab ax n omega) n0
    (fun σ k σ' hstep => by
      rw [hSorStep] at hstep
      split at hstep
      · cases hstep
      · cases hstep
        exact writeObj_agrees _ _ _ _ hax)
    (fun σ k σe e hstep => by
      rw [hSorStep] at hstep
      split at hstep
      · cases hstep
        exact storeAgreesBelow_refl _ _
      · cases hstep)
    (List.range n) σ
  exact ⟨fun σ' hh => h.1 σ' (by rw [hSorSweep] at hh; exact hh),
    fun σe e hh => h.2 σe e (by rw [hSorSweep] at hh; exact hh)⟩

theorem hSorLoop_frame (aA ab ax n : Nat) (omega tol : ℚ) (n0 : Nat)
    (hax : n0 ≤ ax) :
    ∀ (fuel : Nat) (σ : Store),
      (∀ r, hSorLoop aA ab ax n omega tol fuel σ = .ok r →
        storeAgreesBelow σ r.1 n0) ∧
      (∀ σe e, hSorLoop aA ab ax n omega tol fuel σ = .error (σe, e) →
        storeAgreesBelow σ σe n0) := by
  intro fuel
  induction fuel with
  | zero =>
    intro σ
    refine ⟨fun r h => ?_, fun σe e h => ?_⟩
    · rw [hSorLoop] at h
      cases h
      exact storeAgreesBelow_refl _ _
    · rw [hSorLoop] at h
      cases h
  | succ fuel ih =>
    intro σ
    refine ⟨fun r h => ?_, fun σe e h => ?_⟩
    · rw [hSorLoop] at h
      split at h
      next pe hs => cases h
      next σ1 hs =>
        have hsw := (hSorSweep_frame aA ab ax n omega n0 hax σ).1 σ1 hs
        split at h
        · cases h
          exact hsw
        · split at h
          next pe hr => cases h
          next r2 hr =>
            cases h
            exact storeAgreesBelow_trans hsw ((ih σ1).1 r2 hr)
    · rw [hSorLoop] at h
      split at h
      next pe hs =>
        injection h with h2
        rw [h2] at hs
        exact (hSorSweep_frame aA ab ax n omega n0 hax σ).2 σe e hs
      next σ1 hs =>
        have hsw := (hSorSweep_frame aA ab ax n omega n0 hax σ).1 σ1 hs
        split at h
        · cases h
        · split at h
          next pe hr =>
            injection h with h2
            rw [h2] at hr
            exact storeAgreesBelow_trans hsw ((ih σ1).2 σe e hr)
          next r2 hr => cases h

/-- Frame property of the heap `gauss_seidel_sor`. -/
theorem hGaussSeidelSor_frame (σ0 : Store) (aAin abin : Nat)
    (omega tol : ℚ) (max_iterations : Nat) (x0 : List ℚ) :
    storeAgreesBelow σ0
      (hGaussSeidelSor σ0 aAin abin omega tol max_iterations x0).1
      σ0.length := by
  rw [hGaussSeidelSor]
  split
  · exact storeAgreesBelow_refl _ _
  split
  · exact storeAgreesBelow_refl _ _
  dsimp only [allocObj]
  obtain ⟨hp1, hp2⟩ := allocRows_spec (hMatrix σ0 aAin) σ0
  have hlenp : σ0.length ≤ (allocRows σ0 (hMatrix σ0 aAin)).1.length := by
    rw [hp1, List.length_append]
    omega
  have h1 : storeAgreesBelow σ0 (allocRows σ0 (hMatrix σ0 aAin)).1
      σ0.length := by
    rw [hp1]
    exact append_agrees _ _ _ (le_refl _)
  have h2 := append_agrees (allocRows σ0 (hMatrix σ0 aAin)).1
    [Obj.refs (allocRows σ0 (hMatrix σ0 aAin)).2] σ0.length hlenp
  have h3 := append_agrees ((allocRows σ0 (hMatrix σ0 aAin)).1 ++
    [Obj.refs (allocRows σ0 (hMatrix σ0 aAin)).2])
    [Obj.vec (readVec ((allocRows σ0 (hMatrix σ0 aAin)).1 ++
      [Obj.refs (allocRows σ0 (hMatrix σ0 aAin)).2]) abin)] σ0.length
    (by rw [List.length_append]; omega)
  have h4 := append_agrees (((allocRows σ0 (hMatrix σ0 aAin)).1 ++
    [Obj.refs (allocRows σ0 (hMatrix σ0 aAin)).2]) ++
    [Obj.vec (readVec ((allocRows σ0 (hMatrix σ0 aAin)).1 ++
      [Obj.refs (allocRows σ0 (hMatrix σ0 aAin)).2]) abin)])
    [Obj.vec x0] σ0.length
    (by rw [List.length_append, List.length_append]; omega)
  have hbase := storeAgreesBelow_trans (storeAgreesBelow_trans
    (storeAgreesBelow_trans h1 h2) h3) h4
  have hax : σ0.length ≤ (((allocRows σ0 (hMatrix σ0 aAin)).1 ++
      [Obj.refs (allocRows σ0 (hMatrix σ0 aAin)).2]) ++
      [Obj.vec (readVec ((allocRows σ0 (hMatrix σ0 aAin)).1 ++
        [Obj.refs (allocRows σ0 (hMatrix σ0 aAin)).2]) abin)]).length := by
    rw [List.length_append, List.length_append]
    omega
  split
  next pe hmatch =>
    exact storeAgreesBelow_trans hbase
      ((hSorLoop_frame _ _ _ _ omega tol σ0.length hax
        max_iterations _).2 pe.1 pe.2 hmatch)
  next r hmatch =>
    exact storeAgreesBelow_trans hbase
      ((hSorLoop_frame _ _ _ _ omega tol σ0.length hax
        max_iterations _).1 r hmatch)

/-- C9: no engine operation observably alters its caller-supplied
arguments. In the heap model each of `bjorck_pereyra`, `gauss`,
`doolittle` and `gauss_seidel_sor` is called with addresses of
caller-owned objects; the claim is that every address the caller could
reach before the call holds exactly the same object afterwards, whether
the call returns a result or raises an error, because each solver
copies its inputs and writes only to the freshly allocated copies. -/
theorem engine_frame_spec :
    (∀ (tol : ℚ) (σ0 : Store) (axin afin : Nat),
      storeAgreesBelow σ0 (hBjorckPereyra tol σ0 axin afin).1 σ0.length) ∧
    (∀ (strategy : PivotStrategy) (tol : ℚ) (σ0 : Store) (aAin abin : Nat),
      storeAgreesBelow σ0 (hGauss strategy tol σ0 aAin abin).1 σ0.length) ∧
    (∀ (σ0 : Store) (aAin abin : Nat),
      storeAgreesBelow σ0 (hDoolittle σ0 aAin abin).1 σ0.length) ∧
    (∀ (σ0 : Store) (aAin abin : Nat) (omega tol : ℚ)
      (max_iterations : Nat) (x0 : List ℚ),
      storeAgreesBelow σ0
        (hGaussSeidelSor σ0 aAin abin omega tol max_iterations x0).1
        σ0.length) :=
  ⟨hBjorckPereyra_frame, hGauss_frame, hDoolittle_frame,
    hGaussSeidelSor_frame⟩

theorem engine_frame_spec_witness :
    ((hBjorckPereyra (1 / 10 ^ 10) [Obj.vec [0, 1], Obj.vec [2, 3]]
        0 1).1.getD 0 (Obj.vec []) =
      ([Obj.vec [0, 1], Obj.vec [2, 3]] : Store).getD 0 (Obj.vec [])) ∧
    ((hGauss .absolute (1 / 10 ^ 10)
        [Obj.refs [1], Obj.vec [2], Obj.vec [3]] 0 2).1.getD 1
        (Obj.vec []) =
      ([Obj.refs [1], Obj.vec [2], Obj.vec [3]] : Store).getD 1
        (Obj.vec [])) ∧
    ((hDoolittle [Obj.refs [1], Obj.vec [2], Obj.vec [3]] 0 2).1.getD 2
        (Obj.vec []) =
      ([Obj.refs [1], Obj.vec [2], Obj.vec [3]] : Store).getD 2
        (Obj.vec [])) ∧
    ((hGaussSeidelSor [Obj.refs [1], Obj.vec [2], Obj.vec [3]] 0 2 1
        (1 / 10 ^ 6) 3 [0]).1.getD 0 (Obj.vec []) =
      ([Obj.refs [1], Obj.vec [2], Obj.vec [3]] : Store).getD 0
        (Obj.vec [])) :=
  ⟨engine_frame_spec.1 _ _ _ _ 0 (by decide),
    engine_frame_spec.2.1 _ _ _ _ _ 1 (by decide),
    engine_frame_spec.2.2.1 _ _ _ 2 (by decide),
    engine_frame_spec.2.2.2 _ _ _ _ _ _ _ 0 (by decide)⟩

end Interp














